import Mathlib

/-!
# Firefly optimiser (`src/algorithm/firefly.cpp`)

A shallow embedding of `pagmo::algorithm::firefly`: the validating constructor
and `firefly::evolve`.

* `double` is an arbitrary linearly ordered field `F` (instantiated to `ℚ` or
  `ℝ`); rounding, infinities and NaN are outside the embedding.  The single
  place where the C++ arithmetic can leave the real numbers on well-formed
  input, the quotient `m_gamma / r_max` with `r_max = 0`, is made explicit:
  `newgamma` is an `Option`, and a run in which a move reads the undefined
  quotient ends in `Outcome.returnedNonReal`.
* `sqrt`, `exp` and the generator `m_drng` are fields of `Machine`.
* `std::vector` is `List`; `decision_vector` and `fitness_vector` are `List F`.
* the problem (`problem::base`) is a record of the values and virtual
  functions that `evolve` reads; `problem::base` guarantees
  `i_dimension ≤ dimension`, so `D - prob_i_dimension` is a plain subtraction.
* two families of definitions are not translations of the source but
  programs to compare `evolve` with: `batchedGeneration` (a generation that
  reads the start-of-generation snapshot) and `evolveWith` (the run with
  another coordinate step, used with the step `moveCoordConvex` that has no
  perturbation and no bound check).
-/

namespace Firefly

/-! ## Configuration and constructor -/

/-- The four `value_error`s of the constructor, in the order of its checks. -/
inductive ConfigError where
  | NegativeIterations
  | AlphaOutOfRange
  | BetaOutOfRange
  | GammaOutOfRange
  deriving DecidableEq, Repr

/-- The data members `m_iter`, `m_alpha`, `m_beta`, `m_gamma`. -/
structure Config (F : Type) where
  m_iter : Int
  m_alpha : F
  m_beta : F
  m_gamma : F
  deriving DecidableEq, Repr

/-- The constructor `firefly::firefly(gen, alpha, beta, gamma)`: the members are
initialised and the four range checks run in source order; the first one that
fails throws. -/
def firefly {F : Type} [LinearOrderedField F] (gen : Int) (alpha beta gamma : F) :
    Except ConfigError (Config F) :=
  if gen < 0 then .error .NegativeIterations
  else if alpha < 0 ∨ alpha > 1 then .error .AlphaOutOfRange
  else if beta < 0 ∨ beta > 1 then .error .BetaOutOfRange
  else if gamma < 0 ∨ gamma > 1 then .error .GammaOutOfRange
  else .ok ⟨gen, alpha, beta, gamma⟩

/-! ## Problem, population, generator -/

/-- What `evolve` reads of `problem::base`: the four dimensions, the bounds,
the fitness comparator and the objective function. -/
structure Problem (F : Type) where
  dimension : Nat
  i_dimension : Nat
  c_dimension : Nat
  f_dimension : Nat
  lb : List F
  ub : List F
  compare_fitness : List F → List F → Bool
  objfun : List F → List F

/-- An individual of the population: current position and current fitness. -/
structure Individual (F : Type) where
  cur_x : List F
  cur_f : List F
  deriving DecidableEq, Repr

/-- The population: an indexable sequence of individuals. -/
abbrev Population (F : Type) := List (Individual F)

/-- Modelled from the spec: `population::set_x` is not under src. Indexed write
of an individual's position; the fitness is refreshed by re-evaluating the
problem's objective function. -/
def set_x {F : Type} (prob : Problem F) (pop : Population F) (i : Nat) (x : List F) :
    Population F :=
  pop.set i ⟨x, prob.objfun x⟩

/-- The numerical environment of a run: `sqrt`, `exp`, and the generator
`m_drng`, whose call yields a unit sample and the advanced generator state. -/
structure Machine (F R : Type) where
  sqrt : F → F
  exp : F → F
  next : R → F × R

/-- Modelled from the spec: `boost::uniform_real` is not under src. One draw
from the uniform distribution over the interval from `lo` to `hi`: the
generator's unit sample scaled by the width and shifted by `lo`. -/
def uniform_real {F R : Type} [LinearOrderedField F] (M : Machine F R) (lo hi : F) (rng : R) :
    F × R :=
  ((M.next rng).1 * (hi - lo) + lo, (M.next rng).2)

/-! ## evolve -/

/-- The four `value_error`s of `evolve`, in the order of its checks. -/
inductive EvolveError where
  | NoContinuousPart
  | NotSingleObjective
  | NotBoxConstrained
  | PopulationTooSmall
  deriving DecidableEq, Repr

/-- How a call of `evolve` ends, with the population and generator it leaves.
`thrown`: a `value_error` left the function. `returned`: normal return.
`returnedNonReal`: normal return of a run in which a move read the quotient
`m_gamma / r_max` with `r_max = 0`; the position it wrote is not a real
number and has no representation here. -/
inductive Outcome (F R : Type) where
  | thrown (e : EvolveError) (pop : Population F) (rng : R)
  | returned (pop : Population F) (rng : R)
  | returnedNonReal

/-- The local variables that live across the main loop. -/
structure State (F R : Type) where
  X : List (List F)
  fit : List (List F)
  pop : Population F
  rng : R
  best_firefly : Nat
  best_fitness : List F

/-- The loop of lines 130-132 and 162-164: the sum over `k < Dc` of
`(a[k] - b[k]) * (a[k] - b[k])`, accumulated from 0. -/
def distSqrd {F : Type} [LinearOrderedField F] (Dc : Nat) (a b : List F) : F :=
  (List.range Dc).foldl
    (fun acc k => acc + (a.getD k 0 - b.getD k 0) * (a.getD k 0 - b.getD k 0)) 0

/-- Lines 126-137: `r_max_sqrd` starts at 0 and is raised by every pair
`ii < jj < NP` whose squared distance exceeds it. -/
def maxDistSqrd {F : Type} [LinearOrderedField F] (Dc NP : Nat) (X : List (List F)) : F :=
  (List.range NP).foldl
    (fun r ii => (List.range' (ii + 1) (NP - (ii + 1))).foldl
      (fun r jj =>
        let r_temp_sqrd := distSqrd Dc (X.getD ii []) (X.getD jj [])
        if r_temp_sqrd > r then r_temp_sqrd else r) r) 0

/-- Guarded division: `none` when the divisor is zero. -/
def gdiv {F : Type} [LinearOrderedField F] (a b : F) : Option F :=
  if b = 0 then none else some (a / b)

/-- Lines 139-140: `r_max = sqrt(r_max_sqrd)` and `newgamma = m_gamma / r_max`. -/
def newgamma {F R : Type} [LinearOrderedField F] (M : Machine F R) (cfg : Config F)
    (Dc NP : Nat) (X : List (List F)) : Option F :=
  gdiv cfg.m_gamma (M.sqrt (maxDistSqrd Dc NP X))

/-- Lines 147-154: the scan for the best firefly, from index 0 upwards. -/
def findBest {F : Type} (prob : Problem F) (NP : Nat) (fit : List (List F)) : Nat × List F :=
  (List.range' 1 (NP - 1)).foldl
    (fun best i =>
      if prob.compare_fitness (fit.getD i []) best.2 then (i, fit.getD i []) else best)
    (0, fit.getD 0 [])

/-- Line 166: `b = m_beta * exp(-1 * newgamma * r_sqrd)`. -/
def attractiveness {F R : Type} [LinearOrderedField F] (M : Machine F R) (beta g r_sqrd : F) : F :=
  beta * M.exp (-1 * g * r_sqrd)

/-- Lines 173-178: the bound check on a freshly written coordinate. -/
def clamp {F : Type} [LinearOrderedField F] (v lo hi : F) : F :=
  if v < lo then lo else if v > hi then hi else v

/-- One pass of the loop body of lines 170-178 for coordinate `k`: `X[ii][k]`
is overwritten with the attracted, perturbed and clamped value; one draw is
taken from the generator. -/
def moveCoord {F R : Type} [LinearOrderedField F] (M : Machine F R) (cfg : Config F)
    (prob : Problem F) (b : F) (ii jj : Nat) (s : List (List F) × R) (k : Nat) :
    List (List F) × R :=
  let lbk := prob.lb.getD k 0
  let ubk := prob.ub.getD k 0
  let d := uniform_real M (lbk * cfg.m_alpha) (cfg.m_alpha * ubk) s.2
  let v := (1 - b) * (s.1.getD ii []).getD k 0 + b * (s.1.getD jj []).getD k 0 + d.1
  (s.1.set ii ((s.1.getD ii []).set k (clamp v lbk ubk)), d.2)

/-- The body of the pair loops, lines 158-183, for the pair `(ii, jj)`. When
`jj` is better than `ii` the move reads `newgamma`; `none` is returned when
that quotient is undefined. -/
def pairStep {F R : Type} [LinearOrderedField F] (M : Machine F R) (cfg : Config F)
    (prob : Problem F) (Dc : Nat) (g : Option F) (ii : Nat) (s : State F R) (jj : Nat) :
    Option (State F R) :=
  if prob.compare_fitness (s.fit.getD jj []) (s.fit.getD ii []) then
    match g with
    | none => none
    | some g =>
      let r_sqrd := distSqrd Dc (s.X.getD ii []) (s.X.getD jj [])
      let b := attractiveness M cfg.m_beta g r_sqrd
      let m := (List.range Dc).foldl (moveCoord M cfg prob b ii jj) (s.X, s.rng)
      some { s with
        X := m.1
        rng := m.2
        pop := set_x prob s.pop ii (m.1.getD ii [])
        fit := s.fit.set ii (prob.objfun (m.1.getD ii [])) }
  else some s

/-- One iteration of the main loop, lines 146-186: the best-firefly scan, then
all ordered pairs, `ii` outer and `jj` inner, both from 0 to `NP - 1`. -/
def generation {F R : Type} [LinearOrderedField F] (M : Machine F R) (cfg : Config F)
    (prob : Problem F) (Dc NP : Nat) (g : Option F) (s : State F R) : Option (State F R) :=
  let best := findBest prob NP s.fit
  (List.range NP).foldlM
    (fun s ii => (List.range NP).foldlM (pairStep M cfg prob Dc g ii) s)
    { s with best_firefly := best.1, best_fitness := best.2 }

/-- The main loop, line 144: `n` generations in sequence. -/
def mainLoop {F R : Type} [LinearOrderedField F] (M : Machine F R) (cfg : Config F)
    (prob : Problem F) (Dc NP : Nat) (g : Option F) : Nat → State F R → Option (State F R)
  | 0, s => some s
  | n + 1, s => (generation M cfg prob Dc NP g s).bind (mainLoop M cfg prob Dc NP g n)

/-- The method `firefly::evolve(population &pop)`, with the population and the
generator `m_drng` passed in and out explicitly. -/
def evolve {F R : Type} [LinearOrderedField F] (M : Machine F R) (cfg : Config F)
    (prob : Problem F) (pop : Population F) (rng : R) : Outcome F R :=
  let D := prob.dimension
  let Dc := D - prob.i_dimension
  let NP := pop.length
  if Dc = 0 then .thrown .NoContinuousPart pop rng
  else if prob.f_dimension ≠ 1 then .thrown .NotSingleObjective pop rng
  else if prob.c_dimension ≠ 0 then .thrown .NotBoxConstrained pop rng
  else if NP < 2 then .thrown .PopulationTooSmall pop rng
  else if cfg.m_iter = 0 then .returned pop rng
  else
    let X := pop.map Individual.cur_x
    let fit := pop.map Individual.cur_f
    let g := newgamma M cfg Dc NP X
    match mainLoop M cfg prob Dc NP g cfg.m_iter.toNat ⟨X, fit, pop, rng, 0, []⟩ with
    | some s => .returned s.pop s.rng
    | none => .returnedNonReal

/-- A comparator that minimises a single objective: `f1` is better than `f2`
when its first component is smaller. -/
def minimizing {F : Type} [LinearOrderedField F] (f1 f2 : List F) : Bool :=
  decide (f1.getD 0 0 < f2.getD 0 0)

/-- Every coordinate `k < D` of the position `x` lies between `lb[k]` and
`ub[k]`. -/
def rowInBounds {F : Type} [LinearOrderedField F] (prob : Problem F) (x : List F) : Prop :=
  ∀ k, k < prob.dimension → prob.lb.getD k 0 ≤ x.getD k 0 ∧ x.getD k 0 ≤ prob.ub.getD k 0

instance {F : Type} [LinearOrderedField F] (prob : Problem F) (x : List F) :
    Decidable (rowInBounds prob x) := by
  unfold rowInBounds
  infer_instance

/-- Every coordinate of every individual's position lies within its bounds. -/
def inBounds {F : Type} [LinearOrderedField F] (prob : Problem F) (pop : Population F) : Prop :=
  ∀ ind ∈ pop, rowInBounds prob ind.cur_x

instance {F : Type} [LinearOrderedField F] (prob : Problem F) (pop : Population F) :
    Decidable (inBounds prob pop) := by
  unfold inBounds
  infer_instance

/-! ## Concrete inputs -/

/-- The configuration of the spec's concrete scenario: 1 generation, alpha = 0,
beta = 1, gamma = 1. -/
def scenarioCfg {F : Type} [LinearOrderedField F] : Config F := ⟨1, 0, 1, 1⟩

/-- The problem of the scenario: D = Dc = 2, bounds (0,0) and (1,1), one
objective, no constraints, minimizing comparator; the objective function is
left open. -/
def scenarioProblem {F : Type} [LinearOrderedField F] (objfun : List F → List F) : Problem F :=
  ⟨2, 0, 0, 1, [0, 0], [1, 1], minimizing, objfun⟩

/-- The population of the scenario: (0,0) with fitness 1 and (1,1) with fitness 0. -/
def scenarioPop {F : Type} [LinearOrderedField F] : Population F :=
  [⟨[0, 0], [1]⟩, ⟨[1, 1], [0]⟩]

/-- An objective function that agrees with the scenario's two fitness values
(1 where the first coordinate is 0, 0 where it is 1) and is -1 elsewhere. -/
def trapObjfun {F : Type} [LinearOrderedField F] (x : List F) : List F :=
  if x.getD 0 0 = 0 then [1] else if x.getD 0 0 = 1 then [0] else [-1]

/-- A mixed-integer problem: one continuous coordinate followed by one integer
coordinate, both bounded by 0 and 1; the objective is their sum, minimised. -/
def mixedProblem {F : Type} [LinearOrderedField F] : Problem F :=
  ⟨2, 1, 0, 1, [0, 0], [1, 1], minimizing, fun x => [x.getD 0 0 + x.getD 1 0]⟩

/-- Two individuals of `mixedProblem` that coincide on the continuous
coordinate and differ on the integer one; each fitness is the objective at the
position. -/
def mixedPop {F : Type} [LinearOrderedField F] : Population F :=
  [⟨[1 / 2, 0], [1 / 2]⟩, ⟨[1 / 2, 1], [3 / 2]⟩]

/-- A problem with one continuous coordinate bounded by 0 and 1; the objective
is 2 - x[0], minimised. -/
def outProblem {F : Type} [LinearOrderedField F] : Problem F :=
  ⟨1, 0, 0, 1, [0], [1], minimizing, fun x => [2 - x.getD 0 0]⟩

/-- Two individuals for `outProblem`; the first, the better one, sits at 2,
above the upper bound. Each fitness is the objective at the position. -/
def outPop {F : Type} [LinearOrderedField F] : Population F :=
  [⟨[2], [0]⟩, ⟨[1 / 2], [3 / 2]⟩]

/-- The two arguments of `boost::uniform_real` on line 170 for coordinate `k`:
`lb[k] * m_alpha` and `m_alpha * ub[k]`. -/
def perturbationInterval {F : Type} [LinearOrderedField F] (cfg : Config F) (prob : Problem F)
    (k : Nat) : F × F :=
  (prob.lb.getD k 0 * cfg.m_alpha, cfg.m_alpha * prob.ub.getD k 0)

/-- The generator state after `n` calls of `m_drng`. -/
def rngAfter {F R : Type} (M : Machine F R) (n : Nat) (rng : R) : R :=
  (fun r => (M.next r).2)^[n] rng

/-- The perturbation added to coordinate `k` by a move that starts with the
generator in state `rng`: the move draws once per coordinate, in the order
`k = 0, 1, ...` (line 170), so this is the draw from the interval of that line
after `k` earlier draws. -/
def perturbation {F R : Type} [LinearOrderedField F] (M : Machine F R) (cfg : Config F)
    (prob : Problem F) (k : Nat) (rng : R) : F :=
  (uniform_real M (perturbationInterval cfg prob k).1 (perturbationInterval cfg prob k).2
    (rngAfter M k rng)).1

/-! ## A batched generation, for comparison -/

/-- The coordinate step of a batched move: as `moveCoord`, but the position of
the neighbour `jj` is read from the start-of-generation snapshot `X0`, and so
is, unless `accumulate` is set, the position of the moved individual `ii`. -/
def batchedMoveCoord {F R : Type} [LinearOrderedField F] (M : Machine F R) (cfg : Config F)
    (prob : Problem F) (accumulate : Bool) (X0 : List (List F)) (b : F) (ii jj : Nat)
    (s : List (List F) × R) (k : Nat) : List (List F) × R :=
  let lbk := prob.lb.getD k 0
  let ubk := prob.ub.getD k 0
  let d := uniform_real M (lbk * cfg.m_alpha) (cfg.m_alpha * ubk) s.2
  let own := if accumulate then s.1.getD ii [] else X0.getD ii []
  let v := (1 - b) * own.getD k 0 + b * (X0.getD jj []).getD k 0 + d.1
  (s.1.set ii ((s.1.getD ii []).set k (clamp v lbk ubk)), d.2)

/-- The pair step of a batched update: the comparison reads the
start-of-generation fitnesses of the snapshot `s0`, the distance and the move
read its positions (of the moved individual too unless `accumulate` is
set); the result is written to the working state `s` as in `pairStep`. -/
def batchedPairStep {F R : Type} [LinearOrderedField F] (M : Machine F R) (cfg : Config F)
    (prob : Problem F) (accumulate : Bool) (Dc : Nat) (g : Option F) (s0 : State F R)
    (ii : Nat) (s : State F R) (jj : Nat) : Option (State F R) :=
  if prob.compare_fitness (s0.fit.getD jj []) (s0.fit.getD ii []) then
    match g with
    | none => none
    | some g =>
      let own := if accumulate then s.X.getD ii [] else s0.X.getD ii []
      let r_sqrd := distSqrd Dc own (s0.X.getD jj [])
      let b := attractiveness M cfg.m_beta g r_sqrd
      let m := (List.range Dc).foldl (batchedMoveCoord M cfg prob accumulate s0.X b ii jj)
        (s.X, s.rng)
      some { s with
        X := m.1
        rng := m.2
        pop := set_x prob s.pop ii (m.1.getD ii [])
        fit := s.fit.set ii (prob.objfun (m.1.getD ii [])) }
  else some s

/-- One generation of the batched update: the same pairs in the same order as
in `generation`, every pair reading the state `s` of the start of the
generation. -/
def batchedGeneration {F R : Type} [LinearOrderedField F] (M : Machine F R) (cfg : Config F)
    (prob : Problem F) (accumulate : Bool) (Dc NP : Nat) (g : Option F) (s : State F R) :
    Option (State F R) :=
  let best := findBest prob NP s.fit
  (List.range NP).foldlM
    (fun w ii => (List.range NP).foldlM (batchedPairStep M cfg prob accumulate Dc g s ii) w)
    { s with best_firefly := best.1, best_fitness := best.2 }

/-- A configuration with 1 generation, alpha = 0, beta = 1/2 and gamma = 0:
every move goes half the way to the better individual. -/
def halfwayCfg {F : Type} [LinearOrderedField F] : Config F := ⟨1, 0, 1 / 2, 0⟩

/-- A problem with one continuous coordinate bounded by 0 and 1 whose
objective is the coordinate itself, minimised. -/
def lineProblem {F : Type} [LinearOrderedField F] : Problem F :=
  ⟨1, 0, 0, 1, [0], [1], minimizing, fun x => [x.getD 0 0]⟩

/-- Three individuals of `lineProblem` at 1, 1/2 and 0, each with the
objective at its position as fitness. -/
def linePop {F : Type} [LinearOrderedField F] : Population F :=
  [⟨[1], [1]⟩, ⟨[1 / 2], [1 / 2]⟩, ⟨[0], [0]⟩]

/-! ## The run with another coordinate step, for comparison -/

/-- The coordinate step of a move without the perturbation and without the
bound check: `X[ii][k]` becomes `(1 - b) * X[ii][k] + b * X[jj][k]`; the draw
is still taken from the generator. -/
def moveCoordConvex {F R : Type} [LinearOrderedField F] (M : Machine F R) (cfg : Config F)
    (prob : Problem F) (b : F) (ii jj : Nat) (s : List (List F) × R) (k : Nat) :
    List (List F) × R :=
  let lbk := prob.lb.getD k 0
  let ubk := prob.ub.getD k 0
  let d := uniform_real M (lbk * cfg.m_alpha) (cfg.m_alpha * ubk) s.2
  let v := (1 - b) * (s.1.getD ii []).getD k 0 + b * (s.1.getD jj []).getD k 0
  (s.1.set ii ((s.1.getD ii []).set k v), d.2)

/-- The pair step `pairStep` with the coordinate step `mv` in the place of
`moveCoord M cfg prob`. -/
def pairStepWith {F R : Type} [LinearOrderedField F]
    (mv : F → Nat → Nat → List (List F) × R → Nat → List (List F) × R) (M : Machine F R)
    (cfg : Config F) (prob : Problem F) (Dc : Nat) (g : Option F) (ii : Nat) (s : State F R)
    (jj : Nat) : Option (State F R) :=
  if prob.compare_fitness (s.fit.getD jj []) (s.fit.getD ii []) then
    match g with
    | none => none
    | some g =>
      let r_sqrd := distSqrd Dc (s.X.getD ii []) (s.X.getD jj [])
      let b := attractiveness M cfg.m_beta g r_sqrd
      let m := (List.range Dc).foldl (mv b ii jj) (s.X, s.rng)
      some { s with
        X := m.1
        rng := m.2
        pop := set_x prob s.pop ii (m.1.getD ii [])
        fit := s.fit.set ii (prob.objfun (m.1.getD ii [])) }
  else some s

/-- The generation `generation` with the coordinate step `mv`. -/
def generationWith {F R : Type} [LinearOrderedField F]
    (mv : F → Nat → Nat → List (List F) × R → Nat → List (List F) × R) (M : Machine F R)
    (cfg : Config F) (prob : Problem F) (Dc NP : Nat) (g : Option F) (s : State F R) :
    Option (State F R) :=
  let best := findBest prob NP s.fit
  (List.range NP).foldlM
    (fun s ii => (List.range NP).foldlM (pairStepWith mv M cfg prob Dc g ii) s)
    { s with best_firefly := best.1, best_fitness := best.2 }

/-- The main loop `mainLoop` with the coordinate step `mv`. -/
def mainLoopWith {F R : Type} [LinearOrderedField F]
    (mv : F → Nat → Nat → List (List F) × R → Nat → List (List F) × R) (M : Machine F R)
    (cfg : Config F) (prob : Problem F) (Dc NP : Nat) (g : Option F) :
    Nat → State F R → Option (State F R)
  | 0, s => some s
  | n + 1, s =>
    (generationWith mv M cfg prob Dc NP g s).bind (mainLoopWith mv M cfg prob Dc NP g n)

/-- The method `evolve` with the coordinate step `mv`. -/
def evolveWith {F R : Type} [LinearOrderedField F]
    (mv : F → Nat → Nat → List (List F) × R → Nat → List (List F) × R) (M : Machine F R)
    (cfg : Config F) (prob : Problem F) (pop : Population F) (rng : R) : Outcome F R :=
  let D := prob.dimension
  let Dc := D - prob.i_dimension
  let NP := pop.length
  if Dc = 0 then .thrown .NoContinuousPart pop rng
  else if prob.f_dimension ≠ 1 then .thrown .NotSingleObjective pop rng
  else if prob.c_dimension ≠ 0 then .thrown .NotBoxConstrained pop rng
  else if NP < 2 then .thrown .PopulationTooSmall pop rng
  else if cfg.m_iter = 0 then .returned pop rng
  else
    let X := pop.map Individual.cur_x
    let fit := pop.map Individual.cur_f
    let g := newgamma M cfg Dc NP X
    match mainLoopWith mv M cfg prob Dc NP g cfg.m_iter.toNat ⟨X, fit, pop, rng, 0, []⟩ with
    | some s => .returned s.pop s.rng
    | none => .returnedNonReal

/-- Every coordinate `k < n` of every individual's position lies between
`lb[k]` and `ub[k]`. -/
def inBoundsUpTo {F : Type} [LinearOrderedField F] (prob : Problem F) (n : Nat)
    (pop : Population F) : Prop :=
  ∀ ind ∈ pop, ∀ k, k < n →
    prob.lb.getD k 0 ≤ ind.cur_x.getD k 0 ∧ ind.cur_x.getD k 0 ≤ prob.ub.getD k 0

instance {F : Type} [LinearOrderedField F] (prob : Problem F) (n : Nat) (pop : Population F) :
    Decidable (inBoundsUpTo prob n pop) := by
  unfold inBoundsUpTo
  infer_instance

/-! ## Theorems -/

/-- C5. Construction succeeds exactly when `generations ≥ 0` and each of alpha,
beta, gamma lies in the closed interval from 0 to 1; it succeeds at the
boundary values 0 and 1 with 0 generations, and fails for alpha = -0.1, for
beta = 1.7, for gamma = 2.0 and for generations = -1. -/
theorem firefly_succeeds_iff {F : Type} [LinearOrderedField F] :
    (∀ (gen : Int) (alpha beta gamma : F),
      (∃ c, firefly gen alpha beta gamma = .ok c) ↔
        (0 ≤ gen ∧ (0 ≤ alpha ∧ alpha ≤ 1) ∧ (0 ≤ beta ∧ beta ≤ 1) ∧ (0 ≤ gamma ∧ gamma ≤ 1))) ∧
    (∀ (gen : Int) (alpha beta gamma : F) (c : Config F),
      firefly gen alpha beta gamma = .ok c → c = ⟨gen, alpha, beta, gamma⟩) ∧
    (∀ a ∈ [(0 : F), 1], ∀ b ∈ [(0 : F), 1], ∀ g ∈ [(0 : F), 1],
      firefly 0 a b g = .ok ⟨0, a, b, g⟩) ∧
    (∀ (gen : Int) (beta gamma : F), ∀ c, firefly gen (-(1 / 10)) beta gamma ≠ .ok c) ∧
    (∀ (gen : Int) (alpha gamma : F), ∀ c, firefly gen alpha (17 / 10) gamma ≠ .ok c) ∧
    (∀ (gen : Int) (alpha beta : F), ∀ c, firefly gen alpha beta 2 ≠ .ok c) ∧
    (∀ (alpha beta gamma : F), ∀ c, firefly (-1) alpha beta gamma ≠ .ok c) := by
  have key : ∀ (gen : Int) (alpha beta gamma : F),
      (∃ c, firefly gen alpha beta gamma = .ok c) ↔
        (0 ≤ gen ∧ (0 ≤ alpha ∧ alpha ≤ 1) ∧ (0 ≤ beta ∧ beta ≤ 1) ∧ (0 ≤ gamma ∧ gamma ≤ 1)) := by
    intro gen alpha beta gamma
    unfold firefly
    constructor
    · rintro ⟨c, hc⟩
      split_ifs at hc with h1 h2 h3 h4
      push_neg at h1 h2 h3 h4
      exact ⟨h1, h2, h3, h4⟩
    · rintro ⟨h1, h2, h3, h4⟩
      have h1 : ¬ gen < 0 := not_lt.mpr h1
      have h2 : ¬ (alpha < 0 ∨ alpha > 1) := by push_neg; exact h2
      have h3 : ¬ (beta < 0 ∨ beta > 1) := by push_neg; exact h3
      have h4 : ¬ (gamma < 0 ∨ gamma > 1) := by push_neg; exact h4
      exact ⟨⟨gen, alpha, beta, gamma⟩, by rw [if_neg h1, if_neg h2, if_neg h3, if_neg h4]⟩
  have fails : ∀ (gen : Int) (alpha beta gamma : F),
      ¬ (0 ≤ gen ∧ (0 ≤ alpha ∧ alpha ≤ 1) ∧ (0 ≤ beta ∧ beta ≤ 1) ∧ (0 ≤ gamma ∧ gamma ≤ 1)) →
      ∀ c, firefly gen alpha beta gamma ≠ .ok c := by
    intro gen alpha beta gamma h c hc
    exact h ((key gen alpha beta gamma).mp ⟨c, hc⟩)
  refine ⟨key, ?_, ?_, ?_, ?_, ?_, ?_⟩
  · intro gen alpha beta gamma c hc
    unfold firefly at hc
    split_ifs at hc
    injection hc with hc
    exact hc.symm
  · intro a ha b hb g hg
    simp only [List.mem_cons, List.mem_singleton, List.not_mem_nil, or_false] at ha hb hg
    rcases ha with rfl | rfl <;> rcases hb with rfl | rfl <;> rcases hg with rfl | rfl <;>
      norm_num [firefly]
  · intro gen beta gamma
    apply fails
    intro h
    have := h.2.1.1
    norm_num at this
  · intro gen alpha gamma
    apply fails
    intro h
    have := h.2.2.1.2
    norm_num at this
  · intro gen alpha beta
    apply fails
    intro h
    have := h.2.2.2.2
    norm_num at this
  · intro alpha beta gamma
    apply fails
    intro h
    have := h.1
    norm_num at this

/-- C6. A failing construction reports the first violated range in the order
generations, alpha, beta, gamma; with generations = -1 and alpha = 2 it is the
generations error, and with valid generations, alpha = 2 and gamma = 2 it is
the alpha error. -/
theorem firefly_reports_first_violation {F : Type} [LinearOrderedField F]
    (gen : Int) (alpha beta gamma : F) :
    (gen < 0 → firefly gen alpha beta gamma = .error .NegativeIterations) ∧
    (0 ≤ gen → (alpha < 0 ∨ 1 < alpha) →
      firefly gen alpha beta gamma = .error .AlphaOutOfRange) ∧
    (0 ≤ gen → (0 ≤ alpha ∧ alpha ≤ 1) → (beta < 0 ∨ 1 < beta) →
      firefly gen alpha beta gamma = .error .BetaOutOfRange) ∧
    (0 ≤ gen → (0 ≤ alpha ∧ alpha ≤ 1) → (0 ≤ beta ∧ beta ≤ 1) → (gamma < 0 ∨ 1 < gamma) →
      firefly gen alpha beta gamma = .error .GammaOutOfRange) ∧
    firefly (-1) 2 beta gamma = .error .NegativeIterations ∧
    (0 ≤ gen → firefly gen 2 beta 2 = .error .AlphaOutOfRange) := by
  refine ⟨?_, ?_, ?_, ?_, ?_, ?_⟩
  · intro h
    simp [firefly, h]
  · intro h1 h2
    have h1 : ¬ gen < 0 := not_lt.mpr h1
    have h2 : alpha < 0 ∨ alpha > 1 := h2
    simp only [firefly, if_neg h1, if_pos h2]
  · intro h1 h2 h3
    have h1 : ¬ gen < 0 := not_lt.mpr h1
    have h2 : ¬ (alpha < 0 ∨ alpha > 1) := by push_neg; exact h2
    have h3 : beta < 0 ∨ beta > 1 := h3
    simp only [firefly, if_neg h1, if_neg h2, if_pos h3]
  · intro h1 h2 h3 h4
    have h1 : ¬ gen < 0 := not_lt.mpr h1
    have h2 : ¬ (alpha < 0 ∨ alpha > 1) := by push_neg; exact h2
    have h3 : ¬ (beta < 0 ∨ beta > 1) := by push_neg; exact h3
    have h4 : gamma < 0 ∨ gamma > 1 := h4
    simp only [firefly, if_neg h1, if_neg h2, if_neg h3, if_pos h4]
  · simp [firefly]
  · intro h1
    have h1 : ¬ gen < 0 := not_lt.mpr h1
    have h2 : (2 : F) < 0 ∨ (2 : F) > 1 := Or.inr (by norm_num)
    simp only [firefly, if_neg h1, if_pos h2]

/-- C1. For every generation count and every population and problem, evolve
throws exactly when Dc = 0, or the objective dimension is not 1, or the
constraint count is not 0, or NP < 2 (Dc is the dimension minus the integer
dimension); the error thrown is that of the first failing check in the order
NoContinuousPart, NotSingleObjective, NotBoxConstrained, PopulationTooSmall,
and when none of the four holds evolve returns. -/
theorem evolve_throws_iff {F R : Type} [LinearOrderedField F] (M : Machine F R)
    (cfg : Config F) (prob : Problem F) (pop : Population F) (rng : R) :
    ((∃ e p r, evolve M cfg prob pop rng = .thrown e p r) ↔
      (prob.dimension - prob.i_dimension = 0 ∨ prob.f_dimension ≠ 1 ∨
        prob.c_dimension ≠ 0 ∨ pop.length < 2)) ∧
    (prob.dimension - prob.i_dimension = 0 →
      evolve M cfg prob pop rng = .thrown .NoContinuousPart pop rng) ∧
    (prob.dimension - prob.i_dimension ≠ 0 → prob.f_dimension ≠ 1 →
      evolve M cfg prob pop rng = .thrown .NotSingleObjective pop rng) ∧
    (prob.dimension - prob.i_dimension ≠ 0 → prob.f_dimension = 1 → prob.c_dimension ≠ 0 →
      evolve M cfg prob pop rng = .thrown .NotBoxConstrained pop rng) ∧
    (prob.dimension - prob.i_dimension ≠ 0 → prob.f_dimension = 1 → prob.c_dimension = 0 →
      pop.length < 2 →
      evolve M cfg prob pop rng = .thrown .PopulationTooSmall pop rng) ∧
    (prob.dimension - prob.i_dimension ≠ 0 → prob.f_dimension = 1 → prob.c_dimension = 0 →
      2 ≤ pop.length →
      ((∃ p r, evolve M cfg prob pop rng = .returned p r) ∨
        evolve M cfg prob pop rng = .returnedNonReal)) := by
  have h1 : prob.dimension - prob.i_dimension = 0 →
      evolve M cfg prob pop rng = .thrown .NoContinuousPart pop rng := by
    intro h
    simp only [evolve, if_pos h]
  have h2 : prob.dimension - prob.i_dimension ≠ 0 → prob.f_dimension ≠ 1 →
      evolve M cfg prob pop rng = .thrown .NotSingleObjective pop rng := by
    intro ha hb
    simp only [evolve, if_neg ha, if_pos hb]
  have h3 : prob.dimension - prob.i_dimension ≠ 0 → prob.f_dimension = 1 →
      prob.c_dimension ≠ 0 →
      evolve M cfg prob pop rng = .thrown .NotBoxConstrained pop rng := by
    intro ha hb hc
    have hb : ¬ prob.f_dimension ≠ 1 := not_not.mpr hb
    simp only [evolve, if_neg ha, if_neg hb, if_pos hc]
  have h4 : prob.dimension - prob.i_dimension ≠ 0 → prob.f_dimension = 1 →
      prob.c_dimension = 0 → pop.length < 2 →
      evolve M cfg prob pop rng = .thrown .PopulationTooSmall pop rng := by
    intro ha hb hc hd
    have hb : ¬ prob.f_dimension ≠ 1 := not_not.mpr hb
    have hc : ¬ prob.c_dimension ≠ 0 := not_not.mpr hc
    simp only [evolve, if_neg ha, if_neg hb, if_neg hc, if_pos hd]
  have h5 : prob.dimension - prob.i_dimension ≠ 0 → prob.f_dimension = 1 →
      prob.c_dimension = 0 → 2 ≤ pop.length →
      ((∃ p r, evolve M cfg prob pop rng = .returned p r) ∨
        evolve M cfg prob pop rng = .returnedNonReal) := by
    intro ha hb hc hd
    have hb : ¬ prob.f_dimension ≠ 1 := not_not.mpr hb
    have hc : ¬ prob.c_dimension ≠ 0 := not_not.mpr hc
    have hd : ¬ pop.length < 2 := not_lt.mpr hd
    simp only [evolve, if_neg ha, if_neg hb, if_neg hc, if_neg hd]
    split_ifs
    · exact Or.inl ⟨_, _, rfl⟩
    · split
      · exact Or.inl ⟨_, _, rfl⟩
      · exact Or.inr rfl
  refine ⟨⟨?_, ?_⟩, h1, h2, h3, h4, h5⟩
  · rintro ⟨e, p, r, h⟩
    by_contra hcon
    push_neg at hcon
    obtain ⟨ha, hb, hc, hd⟩ := hcon
    rcases h5 ha hb hc hd with ⟨p2, r2, h6⟩ | h6 <;> rw [h6] at h <;> cases h
  · intro h
    by_cases ha : prob.dimension - prob.i_dimension = 0
    · exact ⟨_, _, _, h1 ha⟩
    by_cases hb : prob.f_dimension = 1
    swap
    · exact ⟨_, _, _, h2 ha hb⟩
    by_cases hc : prob.c_dimension = 0
    swap
    · exact ⟨_, _, _, h3 ha hb hc⟩
    rcases h with h | h | h | h
    · exact absurd h ha
    · exact absurd hb h
    · exact absurd hc h
    · exact ⟨_, _, _, h4 ha hb hc h⟩

/-- C2. Whenever evolve throws an applicability error, the population it leaves
is the one it was given (every position and fitness) and the generator is in
the state it was given: nothing was drawn. -/
theorem evolve_thrown_unchanged {F R : Type} [LinearOrderedField F] (M : Machine F R)
    (cfg : Config F) (prob : Problem F) (pop : Population F) (rng : R)
    (e : EvolveError) (p : Population F) (r : R)
    (h : evolve M cfg prob pop rng = .thrown e p r) : p = pop ∧ r = rng := by
  unfold evolve at h
  simp only [] at h
  split_ifs at h
  · cases h; exact ⟨rfl, rfl⟩
  · cases h; exact ⟨rfl, rfl⟩
  · cases h; exact ⟨rfl, rfl⟩
  · cases h; exact ⟨rfl, rfl⟩
  · split at h <;> cases h

/-- Witness of C2: with NP = 1 the PopulationTooSmall error is thrown, with
objective dimension 2 the NotSingleObjective error, and in both runs the
population and the generator are as given. -/
theorem evolve_thrown_unchanged_witness :
    (evolve (⟨id, id, fun n => (0, n + 1)⟩ : Machine ℚ Nat) ⟨1, 0, 1, 1⟩
        ⟨1, 0, 0, 1, [0], [1], minimizing, id⟩ [⟨[1 / 2], [1 / 2]⟩] 7 =
      .thrown .PopulationTooSmall [⟨[1 / 2], [1 / 2]⟩] 7 ∧
    ([⟨[1 / 2], [1 / 2]⟩] = ([⟨[1 / 2], [1 / 2]⟩] : Population ℚ) ∧ 7 = 7)) ∧
    (evolve (⟨id, id, fun n => (0, n + 1)⟩ : Machine ℚ Nat) ⟨1, 0, 1, 1⟩
        ⟨1, 0, 0, 2, [0], [1], minimizing, id⟩ [⟨[0], [0, 0]⟩, ⟨[1], [1, 1]⟩] 7 =
      .thrown .NotSingleObjective [⟨[0], [0, 0]⟩, ⟨[1], [1, 1]⟩] 7 ∧
    ([⟨[0], [0, 0]⟩, ⟨[1], [1, 1]⟩] = ([⟨[0], [0, 0]⟩, ⟨[1], [1, 1]⟩] : Population ℚ) ∧
      7 = 7)) :=
  ⟨⟨rfl, evolve_thrown_unchanged (⟨id, id, fun n => (0, n + 1)⟩ : Machine ℚ Nat) ⟨1, 0, 1, 1⟩
    ⟨1, 0, 0, 1, [0], [1], minimizing, id⟩ [⟨[1 / 2], [1 / 2]⟩] 7
    .PopulationTooSmall [⟨[1 / 2], [1 / 2]⟩] 7 rfl⟩,
   ⟨rfl, evolve_thrown_unchanged (⟨id, id, fun n => (0, n + 1)⟩ : Machine ℚ Nat) ⟨1, 0, 1, 1⟩
    ⟨1, 0, 0, 2, [0], [1], minimizing, id⟩ [⟨[0], [0, 0]⟩, ⟨[1], [1, 1]⟩] 7
    .NotSingleObjective [⟨[0], [0, 0]⟩, ⟨[1], [1, 1]⟩] 7 rfl⟩⟩

/-- C3. For a valid configuration with 0 generations and an applicable
population (Dc > 0, one objective, no constraints, NP at least 2), evolve
returns the population exactly as given and the generator state unchanged. -/
theorem evolve_zero_generations {F R : Type} [LinearOrderedField F] (M : Machine F R)
    (alpha beta gamma : F) (cfg : Config F) (prob : Problem F) (pop : Population F) (rng : R)
    (hcfg : firefly 0 alpha beta gamma = .ok cfg)
    (hDc : 0 < prob.dimension - prob.i_dimension) (hf : prob.f_dimension = 1)
    (hc : prob.c_dimension = 0) (hNP : 2 ≤ pop.length) :
    evolve M cfg prob pop rng = .returned pop rng := by
  have hiter : cfg.m_iter = 0 := by
    unfold firefly at hcfg
    split_ifs at hcfg
    injection hcfg with hcfg
    rw [← hcfg]
  have ha : ¬ prob.dimension - prob.i_dimension = 0 := Nat.pos_iff_ne_zero.mp hDc
  have hb : ¬ prob.f_dimension ≠ 1 := not_not.mpr hf
  have hc : ¬ prob.c_dimension ≠ 0 := not_not.mpr hc
  have hd : ¬ pop.length < 2 := not_lt.mpr hNP
  simp only [evolve, if_neg ha, if_neg hb, if_neg hc, if_neg hd, if_pos hiter]

/-- Witness of C3: two individuals, one continuous dimension, 0 generations. -/
theorem evolve_zero_generations_witness :
    evolve (⟨id, id, fun n => (0, n + 1)⟩ : Machine ℚ Nat) ⟨0, 1, 1, 1⟩
        ⟨1, 0, 0, 1, [0], [1], minimizing, id⟩ [⟨[0], [0]⟩, ⟨[1], [1]⟩] 7 =
      .returned [⟨[0], [0]⟩, ⟨[1], [1]⟩] 7 :=
  evolve_zero_generations _ 1 1 1 _ _ _ _ (by norm_num [firefly]) (by decide) rfl rfl (by decide)

/-! ### The concrete scenario -/

theorem clamp_of_mem {F : Type} [LinearOrderedField F] {v lo hi : F} (h1 : lo ≤ v)
    (h2 : v ≤ hi) : clamp v lo hi = v := by
  unfold clamp
  rw [if_neg (not_lt.mpr h1), if_neg (not_lt.mpr h2)]

theorem clamp_lt_hi {F : Type} [LinearOrderedField F] {v lo hi : F} (h1 : lo < hi)
    (h2 : v < hi) : clamp v lo hi < hi := by
  unfold clamp
  split_ifs with h3 h4
  · exact h1
  · exact absurd h2 (not_lt.mpr h4.le)
  · exact h2

/-- A move of `ii` leaves every other row of `X` as it was. -/
theorem foldl_moveCoord_frame {F R : Type} [LinearOrderedField F] (M : Machine F R)
    (cfg : Config F) (prob : Problem F) (b : F) (ii jj i : Nat) (hi : i ≠ ii) (ks : List Nat)
    (s : List (List F) × R) :
    (ks.foldl (moveCoord M cfg prob b ii jj) s).1[i]? = s.1[i]? := by
  induction ks generalizing s with
  | nil => rfl
  | cons k ks ih =>
    rw [List.foldl_cons, ih]
    simp [moveCoord, List.getElem?_set_ne (Ne.symm hi)]

/-- With a defined `newgamma` the pair step yields a state, in which every
individual other than `ii` is as before. -/
theorem pairStep_some_frame {F R : Type} [LinearOrderedField F] (M : Machine F R)
    (cfg : Config F) (prob : Problem F) (Dc : Nat) (g : F) (ii : Nat) (s : State F R)
    (jj : Nat) :
    ∃ s', pairStep M cfg prob Dc (some g) ii s jj = some s' ∧
      ∀ i, i ≠ ii → s'.pop[i]? = s.pop[i]? ∧ s'.X[i]? = s.X[i]? ∧ s'.fit[i]? = s.fit[i]? := by
  unfold pairStep
  split_ifs with h
  · refine ⟨_, rfl, ?_⟩
    intro i hi
    refine ⟨?_, ?_, ?_⟩
    · simp [set_x, List.getElem?_set_ne (Ne.symm hi)]
    · exact foldl_moveCoord_frame M cfg prob _ ii jj i hi _ _
    · simp [List.getElem?_set_ne (Ne.symm hi)]
  · exact ⟨s, rfl, fun i _ => ⟨rfl, rfl, rfl⟩⟩

/-- The inner loop for a fixed `ii`, with a defined `newgamma`. -/
theorem row_some_frame {F R : Type} [LinearOrderedField F] (M : Machine F R) (cfg : Config F)
    (prob : Problem F) (Dc : Nat) (g : F) (ii : Nat) (js : List Nat) (s : State F R) :
    ∃ s', js.foldlM (pairStep M cfg prob Dc (some g) ii) s = some s' ∧
      ∀ i, i ≠ ii → s'.pop[i]? = s.pop[i]? ∧ s'.X[i]? = s.X[i]? ∧ s'.fit[i]? = s.fit[i]? := by
  induction js generalizing s with
  | nil => exact ⟨s, rfl, fun i _ => ⟨rfl, rfl, rfl⟩⟩
  | cons j js ih =>
    obtain ⟨s1, h1, f1⟩ := pairStep_some_frame M cfg prob Dc g ii s j
    obtain ⟨s2, h2, f2⟩ := ih s1
    refine ⟨s2, ?_, ?_⟩
    · rw [List.foldlM_cons, h1]
      exact h2
    · intro i hi
      obtain ⟨a1, a2, a3⟩ := f1 i hi
      obtain ⟨b1, b2, b3⟩ := f2 i hi
      exact ⟨b1.trans a1, b2.trans a2, b3.trans a3⟩

theorem sc_maxDist {F : Type} [LinearOrderedField F] :
    maxDistSqrd 2 2 [[(0 : F), 0], [1, 1]] = 2 := by
  norm_num [maxDistSqrd, distSqrd, List.range_succ, List.range']

theorem sc_dist {F : Type} [LinearOrderedField F] : distSqrd 2 [(0 : F), 0] [1, 1] = 2 := by
  norm_num [distSqrd, List.range_succ]

/-- In the scenario the checks pass and the run is one generation. -/
theorem scenario_applicable {F R : Type} [LinearOrderedField F] (M : Machine F R)
    (objfun : List F → List F) (rng : R) :
    evolve M scenarioCfg (scenarioProblem objfun) scenarioPop rng =
      match (generation M scenarioCfg (scenarioProblem objfun) 2 2
          (newgamma M scenarioCfg 2 2 [[0, 0], [1, 1]])
          ⟨[[0, 0], [1, 1]], [[1], [0]], scenarioPop, rng, 0, []⟩) with
      | some s => .returned s.pop s.rng
      | none => .returnedNonReal := by
  simp [evolve, scenarioCfg, scenarioProblem, scenarioPop, mainLoop]

/-- The pairs (0,0) and (0,1) of the scenario: individual 0 moves to (b,b). -/
theorem sc_row0 {F R : Type} [LinearOrderedField F] (M : Machine F R) (g : F)
    (objfun : List F → List F) (rng : R) (bf : Nat) (bfit : List F)
    (h0 : 0 ≤ attractiveness M 1 g 2) (h1 : attractiveness M 1 g 2 ≤ 1) :
    [0, 1].foldlM (pairStep M scenarioCfg (scenarioProblem objfun) 2 (some g) 0)
      ⟨[[0, 0], [1, 1]], [[1], [0]], scenarioPop, rng, bf, bfit⟩ =
      some ⟨[[attractiveness M 1 g 2, attractiveness M 1 g 2], [1, 1]],
        [objfun [attractiveness M 1 g 2, attractiveness M 1 g 2], [0]],
        [⟨[attractiveness M 1 g 2, attractiveness M 1 g 2],
          objfun [attractiveness M 1 g 2, attractiveness M 1 g 2]⟩, ⟨[1, 1], [0]⟩],
        (M.next (M.next rng).2).2, bf, bfit⟩ := by
  simp [pairStep, scenarioProblem, minimizing, scenarioCfg, scenarioPop, sc_dist,
    moveCoord, uniform_real, set_x, clamp_of_mem h0 h1, List.range_succ]

/-- The pairs (1,0) and (1,1) when the new fitness of individual 0 is not
better than that of individual 1: nothing moves. -/
theorem sc_row1_still {F R : Type} [LinearOrderedField F] (M : Machine F R) (g : F)
    (objfun : List F → List F) (s : State F R) (f0 : List F)
    (hfit : s.fit = [f0, [0]]) (hf0 : ¬ f0.getD 0 0 < 0) :
    [0, 1].foldlM (pairStep M scenarioCfg (scenarioProblem objfun) 2 (some g) 1) s = some s := by
  have hf0' : ¬ f0[0]?.getD 0 < 0 := by simpa using hf0
  simp [pairStep, scenarioProblem, minimizing, hfit, hf0']

/-- The pairs (1,0) and (1,1) when the new fitness of individual 0 is better
than that of individual 1: individual 1 leaves (1,1). -/
theorem sc_row1_move {F R : Type} [LinearOrderedField F] (M : Machine F R) (g b : F)
    (objfun : List F → List F) (f0 : List F) (p0 p1 : Individual F) (rng : R) (bf : Nat)
    (bfit : List F) (hf0 : f0.getD 0 0 < 0) (hb : b < 1)
    (hpos : 0 < attractiveness M 1 g (distSqrd 2 [1, 1] [b, b])) :
    ∃ s', [0, 1].foldlM (pairStep M scenarioCfg (scenarioProblem objfun) 2 (some g) 1)
        ⟨[[b, b], [1, 1]], [f0, [0]], [p0, p1], rng, bf, bfit⟩ = some s' ∧
      ∃ v w f, s'.pop[1]? = some ⟨[v, w], f⟩ ∧ v < 1 := by
  have hv : (1 - attractiveness M 1 g (distSqrd 2 [1, 1] [b, b])) * 1 +
      attractiveness M 1 g (distSqrd 2 [1, 1] [b, b]) * b < 1 := by
    nlinarith
  have hf0' : f0[0]?.getD 0 < 0 := by simpa using hf0
  simp [pairStep, scenarioProblem, minimizing, scenarioCfg, moveCoord, uniform_real, set_x, hf0',
    List.range_succ]
  exact clamp_lt_hi one_pos (by simpa using hv)

/-- The generation of the scenario, whatever the objective function: it
completes, and individual 0 ends at (b,b). -/
theorem sc_generation_first {F R : Type} [LinearOrderedField F] (M : Machine F R) (g : F)
    (objfun : List F → List F) (rng : R)
    (h0 : 0 ≤ attractiveness M 1 g 2) (h1 : attractiveness M 1 g 2 ≤ 1) :
    ∃ s', generation M scenarioCfg (scenarioProblem objfun) 2 2 (some g)
        ⟨[[0, 0], [1, 1]], [[1], [0]], scenarioPop, rng, 0, []⟩ = some s' ∧
      s'.pop[0]? = some ⟨[attractiveness M 1 g 2, attractiveness M 1 g 2],
        objfun [attractiveness M 1 g 2, attractiveness M 1 g 2]⟩ := by
  simp only [generation]
  rw [show List.range 2 = [0, 1] from rfl, List.foldlM_cons, sc_row0 M g objfun rng _ _ h0 h1]
  obtain ⟨s', hs, hf⟩ := row_some_frame M scenarioCfg (scenarioProblem objfun) 2 g 1 [0, 1]
    ⟨[[attractiveness M 1 g 2, attractiveness M 1 g 2], [1, 1]],
      [objfun [attractiveness M 1 g 2, attractiveness M 1 g 2], [0]],
      [⟨[attractiveness M 1 g 2, attractiveness M 1 g 2],
        objfun [attractiveness M 1 g 2, attractiveness M 1 g 2]⟩, ⟨[1, 1], [0]⟩],
      (M.next (M.next rng).2).2, (findBest (scenarioProblem objfun) 2 [[1], [0]]).1,
      (findBest (scenarioProblem objfun) 2 [[1], [0]]).2⟩
  refine ⟨s', ?_, ?_⟩
  · simpa using hs
  · rw [(hf 0 (by decide)).1]
    rfl

/-- The generation of the scenario when the objective at (b,b) is not better
than 0: the final population is (b,b) and the untouched (1,1). -/
theorem sc_generation_still {F R : Type} [LinearOrderedField F] (M : Machine F R) (g : F)
    (objfun : List F → List F) (rng : R)
    (h0 : 0 ≤ attractiveness M 1 g 2) (h1 : attractiveness M 1 g 2 ≤ 1)
    (hf : ¬ (objfun [attractiveness M 1 g 2, attractiveness M 1 g 2]).getD 0 0 < 0) :
    ∃ s', generation M scenarioCfg (scenarioProblem objfun) 2 2 (some g)
        ⟨[[0, 0], [1, 1]], [[1], [0]], scenarioPop, rng, 0, []⟩ = some s' ∧
      s'.pop = [⟨[attractiveness M 1 g 2, attractiveness M 1 g 2],
        objfun [attractiveness M 1 g 2, attractiveness M 1 g 2]⟩, ⟨[1, 1], [0]⟩] := by
  simp only [generation]
  rw [show List.range 2 = [0, 1] from rfl, List.foldlM_cons, sc_row0 M g objfun rng _ _ h0 h1]
  have key := sc_row1_still M g objfun
    ⟨[[attractiveness M 1 g 2, attractiveness M 1 g 2], [1, 1]],
      [objfun [attractiveness M 1 g 2, attractiveness M 1 g 2], [0]],
      [⟨[attractiveness M 1 g 2, attractiveness M 1 g 2],
        objfun [attractiveness M 1 g 2, attractiveness M 1 g 2]⟩, ⟨[1, 1], [0]⟩],
      (M.next (M.next rng).2).2, (findBest (scenarioProblem objfun) 2 [[1], [0]]).1,
      (findBest (scenarioProblem objfun) 2 [[1], [0]]).2⟩ _ rfl hf
  simp only [List.foldlM_cons, List.foldlM_nil, Option.pure_def, Option.bind_eq_bind,
    Option.some_bind] at key ⊢
  rw [key]
  exact ⟨_, rfl, rfl⟩

/-- The generation of the scenario when the objective at (b,b) is better than
0: individual 1 is pulled away from (1,1). -/
theorem sc_generation_move {F R : Type} [LinearOrderedField F] (M : Machine F R) (g : F)
    (objfun : List F → List F) (rng : R)
    (h0 : 0 ≤ attractiveness M 1 g 2) (h1 : attractiveness M 1 g 2 < 1)
    (hpos : 0 < attractiveness M 1 g
      (distSqrd 2 [1, 1] [attractiveness M 1 g 2, attractiveness M 1 g 2]))
    (hf : (objfun [attractiveness M 1 g 2, attractiveness M 1 g 2]).getD 0 0 < 0) :
    ∃ s', generation M scenarioCfg (scenarioProblem objfun) 2 2 (some g)
        ⟨[[0, 0], [1, 1]], [[1], [0]], scenarioPop, rng, 0, []⟩ = some s' ∧
      ∃ v w f, s'.pop[1]? = some ⟨[v, w], f⟩ ∧ v < 1 := by
  simp only [generation]
  rw [show List.range 2 = [0, 1] from rfl, List.foldlM_cons, sc_row0 M g objfun rng _ _ h0 h1.le]
  obtain ⟨s', hs, hv⟩ := sc_row1_move M g (attractiveness M 1 g 2) objfun _ 
    ⟨[attractiveness M 1 g 2, attractiveness M 1 g 2],
        objfun [attractiveness M 1 g 2, attractiveness M 1 g 2]⟩ ⟨[1, 1], [0]⟩
    (M.next (M.next rng).2).2 (findBest (scenarioProblem objfun) 2 [[1], [0]]).1
      (findBest (scenarioProblem objfun) 2 [[1], [0]]).2 hf h1 hpos
  refine ⟨s', ?_, hv⟩
  simpa using hs

theorem sc_newgamma {R : Type} (next : R → ℝ × R) :
    newgamma (⟨Real.sqrt, Real.exp, next⟩ : Machine ℝ R) scenarioCfg 2 2 [[0, 0], [1, 1]] =
      some (1 / Real.sqrt 2) := by
  simp only [newgamma, sc_maxDist, gdiv, scenarioCfg]
  have : Real.sqrt 2 ≠ 0 := by positivity
  simp [this]

theorem sc_attr {R : Type} (next : R → ℝ × R) :
    attractiveness (⟨Real.sqrt, Real.exp, next⟩ : Machine ℝ R) 1 (1 / Real.sqrt 2) 2 =
      Real.exp (-2 / Real.sqrt 2) := by
  simp only [attractiveness, one_mul]
  congr 1
  ring

theorem sc_b_pos : 0 < Real.exp (-2 / Real.sqrt 2) := Real.exp_pos _

theorem sc_b_lt_one : Real.exp (-2 / Real.sqrt 2) < 1 := by
  rw [Real.exp_lt_one_iff]
  have : 0 < Real.sqrt 2 := by positivity
  exact div_neg_of_neg_of_pos (by norm_num) this

/-- C7. In the concrete scenario (D = Dc = 2, bounds (0,0) and (1,1),
individual 0 at (0,0) with fitness 1, individual 1 at (1,1) with fitness 0,
minimizing comparator, 1 generation, alpha = 0, beta = 1, gamma = 1) evolve
computes r_max squared = 2, r_max = sqrt 2, newgamma = 1 / sqrt 2, squared
distance 2 and attractiveness b = exp(-2 / sqrt 2); the run returns and the
individual that started at (0,0) ends at exactly (b, b), for every objective
function and every generator. -/
theorem scenario_first_individual {R : Type} (next : R → ℝ × R) (objfun : List ℝ → List ℝ)
    (rng : R) :
    maxDistSqrd 2 2 (scenarioPop.map Individual.cur_x) = (2 : ℝ) ∧
    Real.sqrt (maxDistSqrd 2 2 (scenarioPop.map Individual.cur_x)) = Real.sqrt 2 ∧
    newgamma (⟨Real.sqrt, Real.exp, next⟩ : Machine ℝ R) scenarioCfg 2 2
      (scenarioPop.map Individual.cur_x) = some (1 / Real.sqrt 2) ∧
    distSqrd 2 [(0 : ℝ), 0] [1, 1] = 2 ∧
    attractiveness (⟨Real.sqrt, Real.exp, next⟩ : Machine ℝ R) scenarioCfg.m_beta
      (1 / Real.sqrt 2) 2 = Real.exp (-2 / Real.sqrt 2) ∧
    ∃ pop' rng', evolve (⟨Real.sqrt, Real.exp, next⟩ : Machine ℝ R) scenarioCfg
        (scenarioProblem objfun) scenarioPop rng = .returned pop' rng' ∧
      pop'[0]?.map Individual.cur_x =
        some [Real.exp (-2 / Real.sqrt 2), Real.exp (-2 / Real.sqrt 2)] := by
  have hX : (scenarioPop.map Individual.cur_x : List (List ℝ)) = [[0, 0], [1, 1]] := rfl
  rw [hX]
  refine ⟨sc_maxDist, by rw [sc_maxDist], sc_newgamma next, sc_dist, sc_attr next, ?_⟩
  have hb := sc_attr next
  obtain ⟨s', hs, hp⟩ := sc_generation_first (⟨Real.sqrt, Real.exp, next⟩ : Machine ℝ R)
    (1 / Real.sqrt 2) objfun rng (by rw [hb]; exact sc_b_pos.le) (by rw [hb]; exact sc_b_lt_one.le)
  rw [scenario_applicable, sc_newgamma, hs]
  refine ⟨s'.pop, s'.rng, rfl, ?_⟩
  rw [hp, hb]
  rfl

/-- C8, as stated, fails: with an objective function that agrees with the two
initial fitness values but is -1 at (b,b), the individual at (1,1) is moved. -/
theorem scenario_second_individual_moved :
    trapObjfun [(0 : ℝ), 0] = [1] ∧ trapObjfun [(1 : ℝ), 1] = [0] ∧
    ∃ pop' rng', evolve (⟨Real.sqrt, Real.exp, fun n => (0, n + 1)⟩ : Machine ℝ Nat)
        scenarioCfg (scenarioProblem trapObjfun) scenarioPop 0 = .returned pop' rng' ∧
      pop'[1]? ≠ some ⟨[1, 1], [0]⟩ := by
  refine ⟨by simp [trapObjfun], by simp [trapObjfun], ?_⟩
  have hb := sc_attr (fun n : Nat => ((0 : ℝ), n + 1))
  have hf : (trapObjfun [Real.exp (-2 / Real.sqrt 2), Real.exp (-2 / Real.sqrt 2)]).getD 0 0
      < 0 := by
    simp [trapObjfun, sc_b_pos.ne', sc_b_lt_one.ne]
  obtain ⟨s', hs, v, w, f, hp, hv⟩ := sc_generation_move
    (⟨Real.sqrt, Real.exp, fun n => (0, n + 1)⟩ : Machine ℝ Nat) (1 / Real.sqrt 2) trapObjfun 0
    (by rw [hb]; exact sc_b_pos.le) (by rw [hb]; exact sc_b_lt_one)
    (by simp only [attractiveness, one_mul]; exact Real.exp_pos _) (by rw [hb]; exact hf)
  rw [scenario_applicable, sc_newgamma, hs]
  refine ⟨s'.pop, s'.rng, rfl, ?_⟩
  rw [hp]
  intro h
  injection h with h
  injection h with h1 h2
  injection h1 with h3 h4
  exact absurd h3 hv.ne

/-- C8, amended. In the concrete scenario, for every objective function whose
value at (b,b), b = exp(-2 / sqrt 2), is not smaller than 0 (not strictly
better than the fitness of the individual at (1,1)), the run returns and that
individual is unaffected: position (1,1) and fitness 0. -/
theorem scenario_second_individual_unaffected {R : Type} (next : R → ℝ × R)
    (objfun : List ℝ → List ℝ) (rng : R)
    (h : ¬ (objfun [Real.exp (-2 / Real.sqrt 2), Real.exp (-2 / Real.sqrt 2)]).getD 0 0 < 0) :
    ∃ pop' rng', evolve (⟨Real.sqrt, Real.exp, next⟩ : Machine ℝ R) scenarioCfg
        (scenarioProblem objfun) scenarioPop rng = .returned pop' rng' ∧
      pop'[1]? = some ⟨[1, 1], [0]⟩ := by
  have hb := sc_attr next
  obtain ⟨s', hs, hp⟩ := sc_generation_still (⟨Real.sqrt, Real.exp, next⟩ : Machine ℝ R)
    (1 / Real.sqrt 2) objfun rng (by rw [hb]; exact sc_b_pos.le) (by rw [hb]; exact sc_b_lt_one.le)
    (by rw [hb]; exact h)
  rw [scenario_applicable, sc_newgamma, hs]
  refine ⟨s'.pop, s'.rng, rfl, ?_⟩
  rw [hp]
  rfl

/-- Witness of the amended C8: the objective 1 - x[0], which is 1 at (0,0), 0 at
(1,1) and positive at (b,b). -/
theorem scenario_second_individual_unaffected_witness :
    ∃ pop' rng', evolve (⟨Real.sqrt, Real.exp, fun n => (0, n + 1)⟩ : Machine ℝ Nat)
        scenarioCfg (scenarioProblem (fun x => [1 - x.getD 0 0])) scenarioPop 0 =
          .returned pop' rng' ∧
      pop'[1]? = some ⟨[1, 1], [0]⟩ :=
  scenario_second_individual_unaffected (fun n => (0, n + 1)) (fun x => [1 - x.getD 0 0]) 0
    (by
      have := sc_b_lt_one
      simp only [List.getD_cons_zero, not_lt]
      linarith)

/-! ### Bounds -/

theorem clamp_mem {F : Type} [LinearOrderedField F] (v : F) {lo hi : F} (h : lo ≤ hi) :
    lo ≤ clamp v lo hi ∧ clamp v lo hi ≤ hi := by
  unfold clamp
  split_ifs with h1 h2
  · exact ⟨le_refl _, h⟩
  · exact ⟨h, le_refl _⟩
  · exact ⟨not_lt.mp h1, not_lt.mp h2⟩

theorem getD_mem_of_lt {α : Type} (l : List α) (i : Nat) (d : α) (h : i < l.length) :
    l.getD i d ∈ l := by
  rw [List.getD_eq_getElem?_getD, List.getElem?_eq_getElem h]
  exact List.getElem_mem h

/-- Overwriting coordinate `k` with a value inside its bounds keeps a position
inside the bounds. -/
theorem rowInBounds_set {F : Type} [LinearOrderedField F] (prob : Problem F) (x : List F)
    (k : Nat) (c : F) (hx : rowInBounds prob x)
    (hc : prob.lb.getD k 0 ≤ c ∧ c ≤ prob.ub.getD k 0) : rowInBounds prob (x.set k c) := by
  intro j hj
  by_cases hkj : k = j
  · subst hkj
    by_cases hlen : k < x.length
    · have : (x.set k c).getD k 0 = c := by
        simp [List.getElem?_set, hlen]
      rw [this]
      exact hc
    · rw [List.set_eq_of_length_le (not_lt.mp hlen)]
      exact hx k hj
  · have : (x.set k c).getD j 0 = x.getD j 0 := by
      simp [List.getElem?_set, hkj]
    rw [this]
    exact hx j hj

/-- One coordinate step of a move keeps all rows of `X` inside the bounds. -/
theorem moveCoord_rows {F R : Type} [LinearOrderedField F] (M : Machine F R) (cfg : Config F)
    (prob : Problem F) (b : F) (ii jj : Nat)
    (hlb : ∀ k, k < prob.dimension → prob.lb.getD k 0 ≤ prob.ub.getD k 0)
    (s : List (List F) × R) (k : Nat) (hk : k < prob.dimension)
    (hs : ∀ x ∈ s.1, rowInBounds prob x) :
    (∀ x ∈ (moveCoord M cfg prob b ii jj s k).1, rowInBounds prob x) ∧
      (moveCoord M cfg prob b ii jj s k).1.length = s.1.length := by
  refine ⟨?_, by simp [moveCoord]⟩
  intro x hx
  simp only [moveCoord] at hx
  rcases List.mem_or_eq_of_mem_set hx with h | h
  · exact hs x h
  · rw [h]
    apply rowInBounds_set
    · by_cases hii : ii < s.1.length
      · exact hs _ (getD_mem_of_lt _ _ _ hii)
      · rw [List.set_eq_of_length_le (not_lt.mp hii)] at hx
        have hnil : s.1.getD ii [] = [] := by
          simp [List.getElem?_eq_none (not_lt.mp hii)]
        rw [h, hnil] at hx
        rw [hnil]
        have := hs _ hx
        simpa using this
    · exact clamp_mem _ (hlb k hk)

/-- A whole move keeps all rows of `X` inside the bounds. -/
theorem foldl_moveCoord_rows {F R : Type} [LinearOrderedField F] (M : Machine F R)
    (cfg : Config F) (prob : Problem F) (b : F) (ii jj : Nat)
    (hlb : ∀ k, k < prob.dimension → prob.lb.getD k 0 ≤ prob.ub.getD k 0)
    (ks : List Nat) (hks : ∀ k ∈ ks, k < prob.dimension) (s : List (List F) × R)
    (hs : ∀ x ∈ s.1, rowInBounds prob x) :
    (∀ x ∈ (ks.foldl (moveCoord M cfg prob b ii jj) s).1, rowInBounds prob x) ∧
      (ks.foldl (moveCoord M cfg prob b ii jj) s).1.length = s.1.length := by
  induction ks generalizing s with
  | nil => exact ⟨hs, rfl⟩
  | cons k ks ih =>
    have h1 := moveCoord_rows M cfg prob b ii jj hlb s k (hks k (List.mem_cons_self _ _)) hs
    have h2 := ih (fun k' hk' => hks k' (List.mem_cons_of_mem _ hk')) _ h1.1
    rw [List.foldl_cons]
    exact ⟨h2.1, h2.2.trans h1.2⟩

/-- The invariant of the main loop: the rows of `X` and the positions of the
population are inside the bounds, and `X` has one row per individual. -/
theorem pairStep_inv {F R : Type} [LinearOrderedField F] (M : Machine F R) (cfg : Config F)
    (prob : Problem F) (Dc : Nat) (hDc : Dc ≤ prob.dimension) (g : Option F) (ii jj : Nat)
    (hlb : ∀ k, k < prob.dimension → prob.lb.getD k 0 ≤ prob.ub.getD k 0)
    (s s' : State F R) (h : pairStep M cfg prob Dc g ii s jj = some s')
    (hX : ∀ x ∈ s.X, rowInBounds prob x) (hpop : inBounds prob s.pop)
    (hlen : s.X.length = s.pop.length) :
    (∀ x ∈ s'.X, rowInBounds prob x) ∧ inBounds prob s'.pop ∧ s'.X.length = s'.pop.length := by
  unfold pairStep at h
  split_ifs at h with hcmp
  · cases g with
    | none => cases h
    | some g =>
      simp only [Option.some.injEq] at h
      have hrows := foldl_moveCoord_rows M cfg prob
        (attractiveness M cfg.m_beta g (distSqrd Dc (s.X.getD ii []) (s.X.getD jj []))) ii jj hlb
        (List.range Dc) (fun k hk => lt_of_lt_of_le (List.mem_range.mp hk) hDc) (s.X, s.rng) hX
      rw [← h]
      refine ⟨hrows.1, ?_, ?_⟩
      · intro ind hind
        simp only [set_x] at hind
        by_cases hii : ii < s.pop.length
        · rcases List.mem_or_eq_of_mem_set hind with h1 | h1
          · exact hpop ind h1
          · rw [h1]
            apply hrows.1
            have hii' : ii < ((List.range Dc).foldl (moveCoord M cfg prob
                (attractiveness M cfg.m_beta g (distSqrd Dc (s.X.getD ii []) (s.X.getD jj [])))
                ii jj) (s.X, s.rng)).1.length := by
              rw [hrows.2]
              exact hlen ▸ hii
            exact getD_mem_of_lt _ _ _ hii'
        · rw [List.set_eq_of_length_le (not_lt.mp hii)] at hind
          exact hpop ind hind
      · simp only [set_x, List.length_set]
        exact hrows.2.trans hlen
  · simp only [Option.some.injEq] at h
    rw [← h]
    exact ⟨hX, hpop, hlen⟩

/-- The invariant across a list of pair steps for one `ii`. -/
theorem row_inv {F R : Type} [LinearOrderedField F] (M : Machine F R) (cfg : Config F)
    (prob : Problem F) (Dc : Nat) (hDc : Dc ≤ prob.dimension) (g : Option F) (ii : Nat)
    (hlb : ∀ k, k < prob.dimension → prob.lb.getD k 0 ≤ prob.ub.getD k 0)
    (js : List Nat) (s s' : State F R)
    (h : js.foldlM (pairStep M cfg prob Dc g ii) s = some s')
    (hX : ∀ x ∈ s.X, rowInBounds prob x) (hpop : inBounds prob s.pop)
    (hlen : s.X.length = s.pop.length) :
    (∀ x ∈ s'.X, rowInBounds prob x) ∧ inBounds prob s'.pop ∧ s'.X.length = s'.pop.length := by
  induction js generalizing s with
  | nil =>
    simp only [List.foldlM_nil, Option.pure_def, Option.some.injEq] at h
    rw [← h]
    exact ⟨hX, hpop, hlen⟩
  | cons j js ih =>
    rw [List.foldlM_cons] at h
    cases h1 : pairStep M cfg prob Dc g ii s j with
    | none => rw [h1] at h; cases h
    | some s1 =>
      rw [h1] at h
      obtain ⟨a, b, c⟩ := pairStep_inv M cfg prob Dc hDc g ii j hlb s s1 h1 hX hpop hlen
      exact ih s1 h a b c

/-- The invariant across a list of rows. -/
theorem rows_inv {F R : Type} [LinearOrderedField F] (M : Machine F R) (cfg : Config F)
    (prob : Problem F) (Dc : Nat) (hDc : Dc ≤ prob.dimension) (g : Option F)
    (hlb : ∀ k, k < prob.dimension → prob.lb.getD k 0 ≤ prob.ub.getD k 0)
    (js is : List Nat) (s s' : State F R)
    (h : is.foldlM (fun s ii => js.foldlM (pairStep M cfg prob Dc g ii) s) s = some s')
    (hX : ∀ x ∈ s.X, rowInBounds prob x) (hpop : inBounds prob s.pop)
    (hlen : s.X.length = s.pop.length) :
    (∀ x ∈ s'.X, rowInBounds prob x) ∧ inBounds prob s'.pop ∧ s'.X.length = s'.pop.length := by
  induction is generalizing s with
  | nil =>
    simp only [List.foldlM_nil, Option.pure_def, Option.some.injEq] at h
    rw [← h]
    exact ⟨hX, hpop, hlen⟩
  | cons i is ih =>
    rw [List.foldlM_cons] at h
    cases h1 : js.foldlM (pairStep M cfg prob Dc g i) s with
    | none => rw [h1] at h; cases h
    | some s1 =>
      rw [h1] at h
      obtain ⟨a, b, c⟩ := row_inv M cfg prob Dc hDc g i hlb js s s1 h1 hX hpop hlen
      exact ih s1 h a b c

/-- The invariant across the generations. -/
theorem mainLoop_inv {F R : Type} [LinearOrderedField F] (M : Machine F R) (cfg : Config F)
    (prob : Problem F) (Dc NP : Nat) (hDc : Dc ≤ prob.dimension) (g : Option F)
    (hlb : ∀ k, k < prob.dimension → prob.lb.getD k 0 ≤ prob.ub.getD k 0)
    (n : Nat) (s s' : State F R) (h : mainLoop M cfg prob Dc NP g n s = some s')
    (hX : ∀ x ∈ s.X, rowInBounds prob x) (hpop : inBounds prob s.pop)
    (hlen : s.X.length = s.pop.length) :
    (∀ x ∈ s'.X, rowInBounds prob x) ∧ inBounds prob s'.pop ∧ s'.X.length = s'.pop.length := by
  induction n generalizing s with
  | zero =>
    simp only [mainLoop, Option.some.injEq] at h
    rw [← h]
    exact ⟨hX, hpop, hlen⟩
  | succ n ih =>
    simp only [mainLoop] at h
    cases h1 : generation M cfg prob Dc NP g s with
    | none => rw [h1] at h; cases h
    | some s1 =>
      rw [h1] at h
      simp only [Option.some_bind] at h
      simp only [generation] at h1
      obtain ⟨a, b, c⟩ := rows_inv M cfg prob Dc hDc g hlb (List.range NP) (List.range NP) _ s1
        h1 hX hpop hlen
      exact ih s1 h a b c

/-- With a defined `newgamma` every list of rows completes. -/
theorem rows_some {F R : Type} [LinearOrderedField F] (M : Machine F R) (cfg : Config F)
    (prob : Problem F) (Dc : Nat) (g : F) (js is : List Nat) (s : State F R) :
    ∃ s', is.foldlM (fun s ii => js.foldlM (pairStep M cfg prob Dc (some g) ii) s) s =
      some s' := by
  induction is generalizing s with
  | nil => exact ⟨s, rfl⟩
  | cons i is ih =>
    obtain ⟨s1, h1, _⟩ := row_some_frame M cfg prob Dc g i js s
    obtain ⟨s2, h2⟩ := ih s1
    exact ⟨s2, by rw [List.foldlM_cons, h1]; exact h2⟩

/-- With a defined `newgamma` the main loop completes. -/
theorem mainLoop_some {F R : Type} [LinearOrderedField F] (M : Machine F R) (cfg : Config F)
    (prob : Problem F) (Dc NP : Nat) (g : F) (n : Nat) (s : State F R) :
    ∃ s', mainLoop M cfg prob Dc NP (some g) n s = some s' := by
  induction n generalizing s with
  | zero => exact ⟨s, rfl⟩
  | succ n ih =>
    obtain ⟨s1, h1⟩ := rows_some M cfg prob Dc g (List.range NP) (List.range NP)
      { s with best_firefly := (findBest prob NP s.fit).1,
               best_fitness := (findBest prob NP s.fit).2 }
    obtain ⟨s2, h2⟩ := ih s1
    refine ⟨s2, ?_⟩
    simp only [mainLoop, generation]
    rw [h1]
    exact h2

/-- On `mixedPop` the maximal squared distance over the continuous block is 0. -/
theorem mixed_maxDist {F : Type} [LinearOrderedField F] :
    maxDistSqrd 1 2 ((mixedPop : Population F).map Individual.cur_x) = 0 := by
  norm_num [maxDistSqrd, distSqrd, mixedPop, List.range_succ, List.range']

/-- On `mixedPop` the quotient `m_gamma / r_max` has a zero divisor. -/
theorem mixed_newgamma {R : Type} (next : R → ℝ × R) (cfg : Config ℝ) :
    newgamma (⟨Real.sqrt, Real.exp, next⟩ : Machine ℝ R) cfg 1 2
      ((mixedPop : Population ℝ).map Individual.cur_x) = none := by
  simp [newgamma, mixed_maxDist, gdiv]

/-- On `mixedPop` the move of individual 1 towards individual 0 reads the
undefined quotient. -/
theorem mixed_evolve {R : Type} (next : R → ℝ × R) (rng : R) :
    evolve (⟨Real.sqrt, Real.exp, next⟩ : Machine ℝ R) scenarioCfg mixedProblem mixedPop rng =
      .returnedNonReal := by
  have hg := mixed_newgamma next scenarioCfg
  simp only [evolve]
  have h1 : (mixedProblem : Problem ℝ).dimension - (mixedProblem : Problem ℝ).i_dimension = 1 :=
    rfl
  have h2 : (mixedPop : Population ℝ).length = 2 := rfl
  have a1 : ¬ (1 = 0) := by decide
  have a2 : ¬ (mixedProblem : Problem ℝ).f_dimension ≠ 1 := not_not.mpr rfl
  have a3 : ¬ (mixedProblem : Problem ℝ).c_dimension ≠ 0 := not_not.mpr rfl
  have a4 : ¬ (2 < 2) := by decide
  have a5 : ¬ (scenarioCfg : Config ℝ).m_iter = 0 := by simp [scenarioCfg]
  rw [h1, h2, if_neg a1, if_neg a2, if_neg a3, if_neg a4, if_neg a5, hg]
  have h3 : mainLoop (⟨Real.sqrt, Real.exp, next⟩ : Machine ℝ R) scenarioCfg mixedProblem 1 2 none
      (scenarioCfg : Config ℝ).m_iter.toNat
      ⟨(mixedPop : Population ℝ).map Individual.cur_x, (mixedPop : Population ℝ).map Individual.cur_f,
        mixedPop, rng, 0, []⟩ = none := by
    have : (scenarioCfg : Config ℝ).m_iter.toNat = 1 := rfl
    rw [this]
    norm_num [mainLoop, generation, pairStep, mixedProblem, mixedPop, minimizing, List.range_succ]
  rw [h3]

/-- Past the four checks and the test for 0 generations, evolve is the main
loop on the snapshot of the population. -/
theorem evolve_of_applicable {F R : Type} [LinearOrderedField F] (M : Machine F R)
    (cfg : Config F) (prob : Problem F) (pop : Population F) (rng : R)
    (hDc : prob.dimension - prob.i_dimension ≠ 0) (hf : prob.f_dimension = 1)
    (hc : prob.c_dimension = 0) (hNP : 2 ≤ pop.length) (hit : cfg.m_iter ≠ 0) :
    evolve M cfg prob pop rng =
      match mainLoop M cfg prob (prob.dimension - prob.i_dimension) pop.length
          (newgamma M cfg (prob.dimension - prob.i_dimension) pop.length
            (pop.map Individual.cur_x))
          cfg.m_iter.toNat
          ⟨pop.map Individual.cur_x, pop.map Individual.cur_f, pop, rng, 0, []⟩ with
      | some s => .returned s.pop s.rng
      | none => .returnedNonReal := by
  have hb : ¬ prob.f_dimension ≠ 1 := not_not.mpr hf
  have hc : ¬ prob.c_dimension ≠ 0 := not_not.mpr hc
  have hd : ¬ pop.length < 2 := not_lt.mpr hNP
  simp only [evolve, if_neg hDc, if_neg hb, if_neg hc, if_neg hd, if_neg hit]

/-- C4, amended. For every configuration and every applicable population (Dc > 0,
one objective, no constraints, NP at least 2) whose positions all lie within
the bounds, and every generator: if r_max is not 0 then evolve returns a
population, and whenever evolve returns a population, every coordinate
k < D of every individual's position lies between lb[k] and ub[k]. -/
theorem evolve_keeps_bounds {F R : Type} [LinearOrderedField F] (M : Machine F R)
    (cfg : Config F) (prob : Problem F) (pop : Population F) (rng : R)
    (hDc : 0 < prob.dimension - prob.i_dimension) (hf : prob.f_dimension = 1)
    (hc : prob.c_dimension = 0) (hNP : 2 ≤ pop.length) (hin : inBounds prob pop) :
    (M.sqrt (maxDistSqrd (prob.dimension - prob.i_dimension) pop.length
        (pop.map Individual.cur_x)) ≠ 0 →
      ∃ pop' rng', evolve M cfg prob pop rng = .returned pop' rng') ∧
    (∀ pop' rng', evolve M cfg prob pop rng = .returned pop' rng' → inBounds prob pop') := by
  have hDc' : prob.dimension - prob.i_dimension ≠ 0 := Nat.pos_iff_ne_zero.mp hDc
  have hlb : ∀ k, k < prob.dimension → prob.lb.getD k 0 ≤ prob.ub.getD k 0 := by
    intro k hk
    cases pop with
    | nil => simp at hNP
    | cons ind rest =>
      have := hin ind (List.mem_cons_self _ _) k hk
      exact this.1.trans this.2
  have hX : ∀ x ∈ pop.map Individual.cur_x, rowInBounds prob x := by
    intro x hx
    obtain ⟨ind, hind, rfl⟩ := List.mem_map.mp hx
    exact hin ind hind
  by_cases hit : cfg.m_iter = 0
  · have hb : ¬ prob.f_dimension ≠ 1 := not_not.mpr hf
    have hc : ¬ prob.c_dimension ≠ 0 := not_not.mpr hc
    have hd : ¬ pop.length < 2 := not_lt.mpr hNP
    have hev : evolve M cfg prob pop rng = .returned pop rng := by
      simp only [evolve, if_neg hDc', if_neg hb, if_neg hc, if_neg hd, if_pos hit]
    rw [hev]
    refine ⟨fun _ => ⟨pop, rng, rfl⟩, ?_⟩
    intro pop' rng' h
    cases h
    exact hin
  · rw [evolve_of_applicable M cfg prob pop rng hDc' hf hc hNP hit]
    constructor
    · intro hr
      have hg : newgamma M cfg (prob.dimension - prob.i_dimension) pop.length
          (pop.map Individual.cur_x) = some (cfg.m_gamma /
            M.sqrt (maxDistSqrd (prob.dimension - prob.i_dimension) pop.length
              (pop.map Individual.cur_x))) := by
        simp only [newgamma, gdiv, if_neg hr]
      rw [hg]
      obtain ⟨s', hs⟩ := mainLoop_some M cfg prob (prob.dimension - prob.i_dimension) pop.length
        (cfg.m_gamma / M.sqrt (maxDistSqrd (prob.dimension - prob.i_dimension) pop.length
          (pop.map Individual.cur_x))) cfg.m_iter.toNat
        ⟨pop.map Individual.cur_x, pop.map Individual.cur_f, pop, rng, 0, []⟩
      rw [hs]
      exact ⟨_, _, rfl⟩
    · intro pop' rng' h
      cases hm : mainLoop M cfg prob (prob.dimension - prob.i_dimension) pop.length
          (newgamma M cfg (prob.dimension - prob.i_dimension) pop.length
            (pop.map Individual.cur_x))
          cfg.m_iter.toNat
          ⟨pop.map Individual.cur_x, pop.map Individual.cur_f, pop, rng, 0, []⟩ with
      | none => rw [hm] at h; cases h
      | some s' =>
        rw [hm] at h
        have hinv := mainLoop_inv M cfg prob (prob.dimension - prob.i_dimension) pop.length
          (Nat.sub_le _ _) _ hlb _ _ s' hm hX hin (by simp)
        cases h
        exact hinv.2.1

theorem scenario_inBounds (objfun : List ℝ → List ℝ) :
    inBounds (scenarioProblem objfun) scenarioPop := by
  intro ind hind k hk
  simp only [scenarioProblem] at hk
  simp only [scenarioPop, List.mem_cons, List.mem_singleton, List.not_mem_nil, or_false] at hind
  rcases hind with rfl | rfl <;> interval_cases k <;> norm_num [scenarioProblem]

/-- Witness of the amended C4: the concrete scenario with the objective 1 - x[0]. -/
theorem evolve_keeps_bounds_witness :
    (Real.sqrt (maxDistSqrd (2 - 0) 2 [[0, 0], [1, 1]]) ≠ 0 →
      ∃ pop' rng', evolve (⟨Real.sqrt, Real.exp, fun n => (0, n + 1)⟩ : Machine ℝ Nat)
        scenarioCfg (scenarioProblem (fun x => [1 - x.getD 0 0])) scenarioPop 0 =
          .returned pop' rng') ∧
    (∀ pop' rng', evolve (⟨Real.sqrt, Real.exp, fun n => (0, n + 1)⟩ : Machine ℝ Nat)
        scenarioCfg (scenarioProblem (fun x => [1 - x.getD 0 0])) scenarioPop 0 =
          .returned pop' rng' →
      inBounds (scenarioProblem (fun x => [1 - x.getD 0 0])) pop') :=
  evolve_keeps_bounds (⟨Real.sqrt, Real.exp, fun n => (0, n + 1)⟩ : Machine ℝ Nat)
    scenarioCfg (scenarioProblem (fun x => [1 - x.getD 0 0])) scenarioPop 0
    (by decide) rfl rfl (by decide) (scenario_inBounds _)

theorem out_maxDist {F : Type} [LinearOrderedField F] :
    maxDistSqrd 1 2 ((outPop : Population F).map Individual.cur_x) = 9 / 4 := by
  norm_num [maxDistSqrd, distSqrd, outPop, List.range_succ, List.range']

/-- On `outPop` the run completes and the individual at 2 is never moved. -/
theorem out_evolve {R : Type} (next : R → ℝ × R) (rng : R) :
    ∃ pop' rng', evolve (⟨Real.sqrt, Real.exp, next⟩ : Machine ℝ R) scenarioCfg outProblem
        outPop rng = .returned pop' rng' ∧ pop'[0]? = some ⟨[2], [0]⟩ := by
  have hr : Real.sqrt (9 / 4) ≠ 0 := by positivity
  have hg : newgamma (⟨Real.sqrt, Real.exp, next⟩ : Machine ℝ R) scenarioCfg 1 2
      ((outPop : Population ℝ).map Individual.cur_x) = some (1 / Real.sqrt (9 / 4)) := by
    simp only [newgamma, out_maxDist, gdiv, if_neg hr]
    rfl
  have hit : (scenarioCfg : Config ℝ).m_iter ≠ 0 := by simp [scenarioCfg]
  rw [evolve_of_applicable _ _ _ _ _ (by decide) rfl rfl (by decide) hit]
  have h1 : (outProblem : Problem ℝ).dimension - (outProblem : Problem ℝ).i_dimension = 1 := rfl
  have h2 : (outPop : Population ℝ).length = 2 := rfl
  have h3 : (scenarioCfg : Config ℝ).m_iter.toNat = 1 := rfl
  rw [h1, h2, h3, hg]
  have hrow0 : ∀ bf bfit, [0, 1].foldlM (pairStep (⟨Real.sqrt, Real.exp, next⟩ : Machine ℝ R)
      scenarioCfg outProblem 1 (some (1 / Real.sqrt (9 / 4))) 0)
      ⟨(outPop : Population ℝ).map Individual.cur_x, (outPop : Population ℝ).map Individual.cur_f,
        outPop, rng, bf, bfit⟩ =
      some ⟨(outPop : Population ℝ).map Individual.cur_x,
        (outPop : Population ℝ).map Individual.cur_f, outPop, rng, bf, bfit⟩ := by
    intro bf bfit
    norm_num [pairStep, outProblem, outPop, minimizing]
  obtain ⟨s', hs, hfr⟩ := row_some_frame (⟨Real.sqrt, Real.exp, next⟩ : Machine ℝ R)
    scenarioCfg outProblem 1 (1 / Real.sqrt (9 / 4)) 1 [0, 1]
    ⟨(outPop : Population ℝ).map Individual.cur_x, (outPop : Population ℝ).map Individual.cur_f,
      outPop, rng,
      (findBest outProblem 2 ((outPop : Population ℝ).map Individual.cur_f)).1,
      (findBest outProblem 2 ((outPop : Population ℝ).map Individual.cur_f)).2⟩
  have hm : mainLoop (⟨Real.sqrt, Real.exp, next⟩ : Machine ℝ R) scenarioCfg outProblem 1 2
      (some (1 / Real.sqrt (9 / 4))) 1
      ⟨(outPop : Population ℝ).map Individual.cur_x, (outPop : Population ℝ).map Individual.cur_f,
        outPop, rng, 0, []⟩ = some s' := by
    simp only [mainLoop, generation]
    rw [show List.range 2 = [0, 1] from rfl, List.foldlM_cons, hrow0]
    simpa using hs
  rw [hm]
  refine ⟨s'.pop, s'.rng, rfl, ?_⟩
  rw [(hfr 0 (by decide)).1]
  rfl

/-- C4, as stated, fails. On `outPop` (applicable, the better individual above
its upper bound) the run returns a population that is not within the bounds;
on `mixedPop` (applicable, within the bounds, r_max = 0) the run does not
return a population of real positions. -/
theorem evolve_bounds_counterexample :
    (∃ pop' rng', evolve (⟨Real.sqrt, Real.exp, fun n => (0, n + 1)⟩ : Machine ℝ Nat)
        scenarioCfg outProblem outPop 0 = .returned pop' rng' ∧ ¬ inBounds outProblem pop') ∧
    (inBounds (mixedProblem : Problem ℝ) mixedPop ∧
      evolve (⟨Real.sqrt, Real.exp, fun n => (0, n + 1)⟩ : Machine ℝ Nat)
        scenarioCfg mixedProblem mixedPop 0 = .returnedNonReal) := by
  refine ⟨?_, ?_, mixed_evolve _ _⟩
  · obtain ⟨pop', rng', h, hp⟩ := out_evolve (fun n : Nat => ((0 : ℝ), n + 1)) 0
    refine ⟨pop', rng', h, ?_⟩
    intro hin
    have := (hin _ (List.getElem?_mem hp) 0 (by decide)).2
    norm_num [outProblem] at this
  · intro ind hind k hk
    simp only [mixedProblem] at hk
    simp only [mixedPop, List.mem_cons, List.mem_singleton, List.not_mem_nil, or_false] at hind
    rcases hind with rfl | rfl <;> interval_cases k <;> norm_num [mixedProblem]

/-- C9. On a population whose individuals coincide on the continuous block
(`mixedPop`, 1 generation) r_max squared is 0, r_max is 0, and the division
`m_gamma / r_max` is performed with a zero divisor: the guarded division takes
its error branch, and the move that reads the quotient makes the run end
without a population of real positions. -/
theorem newgamma_zero_divisor {R : Type} (next : R → ℝ × R) (rng : R) :
    maxDistSqrd 1 2 ((mixedPop : Population ℝ).map Individual.cur_x) = 0 ∧
    Real.sqrt (maxDistSqrd 1 2 ((mixedPop : Population ℝ).map Individual.cur_x)) = 0 ∧
    gdiv (scenarioCfg : Config ℝ).m_gamma
      (Real.sqrt (maxDistSqrd 1 2 ((mixedPop : Population ℝ).map Individual.cur_x))) = none ∧
    newgamma (⟨Real.sqrt, Real.exp, next⟩ : Machine ℝ R) scenarioCfg 1 2
      ((mixedPop : Population ℝ).map Individual.cur_x) = none ∧
    evolve (⟨Real.sqrt, Real.exp, next⟩ : Machine ℝ R) scenarioCfg mixedProblem mixedPop rng =
      .returnedNonReal := by
  refine ⟨mixed_maxDist, ?_, ?_, mixed_newgamma next _, mixed_evolve next rng⟩
  · rw [mixed_maxDist, Real.sqrt_zero]
  · rw [mixed_maxDist, Real.sqrt_zero]
    simp [gdiv]

/-! ### The perturbation interval -/

/-- A valid configuration has a non-negative alpha, so scaling keeps the
order of the bounds. -/
theorem interval_ordered {F : Type} [LinearOrderedField F] (gen : Int) (alpha beta gamma : F)
    (cfg : Config F) (prob : Problem F) (k : Nat)
    (hcfg : firefly gen alpha beta gamma = .ok cfg)
    (hlb : prob.lb.getD k 0 ≤ prob.ub.getD k 0) :
    (perturbationInterval cfg prob k).1 ≤ (perturbationInterval cfg prob k).2 := by
  have ha : 0 ≤ cfg.m_alpha := by
    unfold firefly at hcfg
    split_ifs at hcfg with h1 h2 h3 h4
    injection hcfg with hcfg
    rw [← hcfg]
    push_neg at h2
    exact h2.1
  simp only [perturbationInterval]
  rw [mul_comm]
  exact mul_le_mul_of_nonneg_left hlb ha

/-- C15, as stated, fails: no valid configuration and no bounds with
lb[k] < 0 and lb[k] ≤ ub[k] make the lower endpoint of the perturbation
interval exceed its upper endpoint. -/
theorem interval_never_inverted :
    ¬ ∃ (gen : Int) (alpha beta gamma : ℝ) (cfg : Config ℝ) (prob : Problem ℝ) (k : Nat),
      firefly gen alpha beta gamma = .ok cfg ∧ prob.lb.getD k 0 < 0 ∧
        prob.lb.getD k 0 ≤ prob.ub.getD k 0 ∧
        (perturbationInterval cfg prob k).2 < (perturbationInterval cfg prob k).1 := by
  rintro ⟨gen, alpha, beta, gamma, cfg, prob, k, hcfg, _, hlb, hinv⟩
  exact absurd (interval_ordered gen alpha beta gamma cfg prob k hcfg hlb) (not_le.mpr hinv)

/-- C15, amended. The interval passed to the uniform distribution on line 170 is
the pair `perturbationInterval`; for every valid configuration and all bounds
with lb[k] ≤ ub[k], negative or not, it is not inverted: its lower endpoint
alpha * lb[k] is at most its upper endpoint alpha * ub[k]. -/
theorem interval_not_inverted {F R : Type} [LinearOrderedField F] (M : Machine F R) (gen : Int)
    (alpha beta gamma : F) (cfg : Config F) (prob : Problem F) (k : Nat)
    (hcfg : firefly gen alpha beta gamma = .ok cfg)
    (hlb : prob.lb.getD k 0 ≤ prob.ub.getD k 0) :
    (∀ (b : F) (ii jj : Nat) (s : List (List F) × R),
      (moveCoord M cfg prob b ii jj s k).2 =
        (uniform_real M (perturbationInterval cfg prob k).1
          (perturbationInterval cfg prob k).2 s.2).2) ∧
    (perturbationInterval cfg prob k).1 = alpha * prob.lb.getD k 0 ∧
    (perturbationInterval cfg prob k).2 = alpha * prob.ub.getD k 0 ∧
    (perturbationInterval cfg prob k).1 ≤ (perturbationInterval cfg prob k).2 := by
  have hc : cfg = ⟨gen, alpha, beta, gamma⟩ := by
    unfold firefly at hcfg
    split_ifs at hcfg
    injection hcfg with hcfg
    exact hcfg.symm
  refine ⟨fun _ _ _ _ => rfl, ?_, ?_, interval_ordered gen alpha beta gamma cfg prob k hcfg hlb⟩
  · rw [hc]
    simp only [perturbationInterval]
    exact mul_comm _ _
  · rw [hc]
    rfl

/-- Witness of the amended C15: alpha = 1/2 and the bounds -1 and 3 give the
interval from -1/2 to 3/2. -/
theorem interval_not_inverted_witness :
    (∀ (b : ℚ) (ii jj : Nat) (s : List (List ℚ) × Nat),
      (moveCoord (⟨id, id, fun n => (0, n + 1)⟩ : Machine ℚ Nat) ⟨1, 1 / 2, 1, 1⟩
          ⟨1, 0, 0, 1, [-1], [3], minimizing, id⟩ b ii jj s 0).2 =
        (uniform_real (⟨id, id, fun n => (0, n + 1)⟩ : Machine ℚ Nat)
          (perturbationInterval (⟨1, 1 / 2, 1, 1⟩ : Config ℚ)
            ⟨1, 0, 0, 1, [-1], [3], minimizing, id⟩ 0).1
          (perturbationInterval (⟨1, 1 / 2, 1, 1⟩ : Config ℚ)
            ⟨1, 0, 0, 1, [-1], [3], minimizing, id⟩ 0).2 s.2).2) ∧
    (perturbationInterval (⟨1, 1 / 2, 1, 1⟩ : Config ℚ)
      ⟨1, 0, 0, 1, [-1], [3], minimizing, id⟩ 0).1 = 1 / 2 * ([-1] : List ℚ).getD 0 0 ∧
    (perturbationInterval (⟨1, 1 / 2, 1, 1⟩ : Config ℚ)
      ⟨1, 0, 0, 1, [-1], [3], minimizing, id⟩ 0).2 = 1 / 2 * ([3] : List ℚ).getD 0 0 ∧
    (perturbationInterval (⟨1, 1 / 2, 1, 1⟩ : Config ℚ)
      ⟨1, 0, 0, 1, [-1], [3], minimizing, id⟩ 0).1 ≤
      (perturbationInterval (⟨1, 1 / 2, 1, 1⟩ : Config ℚ)
        ⟨1, 0, 0, 1, [-1], [3], minimizing, id⟩ 0).2 :=
  interval_not_inverted (⟨id, id, fun n => (0, n + 1)⟩ : Machine ℚ Nat) 1 (1 / 2) 1 1
    ⟨1, 1 / 2, 1, 1⟩ ⟨1, 0, 0, 1, [-1], [3], minimizing, id⟩ 0 (by norm_num [firefly])
    (by norm_num)

/-! ### Distances and attractiveness -/

/-- The accumulation of squares never falls below its start value, and it
ends at 0 only when it starts at 0 and every term is 0. -/
theorem foldl_sq_spec {F : Type} [LinearOrderedField F] (f : Nat → F) (ks : List Nat) (a : F)
    (ha : 0 ≤ a) :
    a ≤ ks.foldl (fun acc k => acc + f k * f k) a ∧
      (ks.foldl (fun acc k => acc + f k * f k) a = 0 ↔ a = 0 ∧ ∀ k ∈ ks, f k = 0) := by
  induction ks generalizing a with
  | nil => simp
  | cons k ks ih =>
    have hk : 0 ≤ f k * f k := mul_self_nonneg _
    obtain ⟨h1, h2⟩ := ih (a + f k * f k) (by linarith)
    rw [List.foldl_cons]
    refine ⟨by linarith, ?_⟩
    rw [h2]
    constructor
    · rintro ⟨h3, h4⟩
      have ha0 : a = 0 := by linarith
      have hk0 : f k * f k = 0 := by linarith
      refine ⟨ha0, ?_⟩
      intro j hj
      rcases List.mem_cons.mp hj with rfl | hj
      · exact mul_self_eq_zero.mp hk0
      · exact h4 j hj
    · rintro ⟨h3, h4⟩
      have hk0 : f k = 0 := h4 k (List.mem_cons_self _ _)
      refine ⟨by rw [h3, hk0]; ring, fun j hj => h4 j (List.mem_cons_of_mem _ hj)⟩

/-- The squared distance is not negative. -/
theorem distSqrd_nonneg {F : Type} [LinearOrderedField F] (Dc : Nat) (a b : List F) :
    0 ≤ distSqrd Dc a b :=
  (foldl_sq_spec (fun k => a.getD k 0 - b.getD k 0) (List.range Dc) 0 (le_refl _)).1

/-- The squared distance is 0 exactly when the two positions agree on the
first `Dc` coordinates. -/
theorem distSqrd_eq_zero_iff {F : Type} [LinearOrderedField F] (Dc : Nat) (a b : List F) :
    distSqrd Dc a b = 0 ↔ ∀ k, k < Dc → a.getD k 0 = b.getD k 0 := by
  have h := (foldl_sq_spec (fun k => a.getD k 0 - b.getD k 0) (List.range Dc) 0 (le_refl _)).2
  unfold distSqrd
  rw [h]
  constructor
  · rintro ⟨_, h2⟩ k hk
    exact sub_eq_zero.mp (h2 k (List.mem_range.mpr hk))
  · intro h2
    exact ⟨rfl, fun k hk => sub_eq_zero.mpr (h2 k (List.mem_range.mp hk))⟩

/-- The squared distance is symmetric. -/
theorem distSqrd_comm {F : Type} [LinearOrderedField F] (Dc : Nat) (a b : List F) :
    distSqrd Dc a b = distSqrd Dc b a := by
  unfold distSqrd
  congr 1
  funext acc k
  ring

/-- With a non-negative coefficient and a non-negative squared distance the
real attractiveness lies between 0 and beta. -/
theorem attractiveness_mem {R : Type} (next : R → ℝ × R) (beta g r : ℝ) (hbeta : 0 ≤ beta)
    (hg : 0 ≤ g) (hr : 0 ≤ r) :
    0 ≤ attractiveness (⟨Real.sqrt, Real.exp, next⟩ : Machine ℝ R) beta g r ∧
      attractiveness (⟨Real.sqrt, Real.exp, next⟩ : Machine ℝ R) beta g r ≤ beta := by
  simp only [attractiveness]
  have h1 : 0 < Real.exp (-1 * g * r) := Real.exp_pos _
  have h2 : Real.exp (-1 * g * r) ≤ 1 := by
    rw [Real.exp_le_one_iff]
    nlinarith [mul_nonneg hg hr]
  exact ⟨mul_nonneg hbeta h1.le, by nlinarith⟩

/-- A valid configuration has beta and gamma between 0 and 1 and alpha as
given. -/
theorem firefly_ok_fields {F : Type} [LinearOrderedField F] (gen : Int) (alpha beta gamma : F)
    (cfg : Config F) (hcfg : firefly gen alpha beta gamma = .ok cfg) :
    cfg = ⟨gen, alpha, beta, gamma⟩ ∧ 0 ≤ gen ∧ (0 ≤ alpha ∧ alpha ≤ 1) ∧
      (0 ≤ beta ∧ beta ≤ 1) ∧ (0 ≤ gamma ∧ gamma ≤ 1) := by
  unfold firefly at hcfg
  split_ifs at hcfg with h1 h2 h3 h4
  injection hcfg with hcfg
  push_neg at h1 h2 h3 h4
  exact ⟨hcfg.symm, h1, h2, h3, h4⟩

/-- C13. For every valid configuration and every population with r_max > 0,
newgamma is defined and not negative, the attractiveness
b = beta * exp(-newgamma * r^2) of any pair of positions satisfies
0 ≤ b ≤ beta ≤ 1, and b does not increase when the squared distance grows. -/
theorem attractiveness_bounded_antitone {R : Type} (next : R → ℝ × R) (gen : Int)
    (alpha beta gamma : ℝ) (cfg : Config ℝ) (Dc NP : Nat) (X : List (List ℝ))
    (hcfg : firefly gen alpha beta gamma = .ok cfg)
    (hr : 0 < Real.sqrt (maxDistSqrd Dc NP X)) :
    ∃ g, newgamma (⟨Real.sqrt, Real.exp, next⟩ : Machine ℝ R) cfg Dc NP X = some g ∧
      g = cfg.m_gamma / Real.sqrt (maxDistSqrd Dc NP X) ∧ 0 ≤ g ∧
      (∀ a b : List ℝ,
        0 ≤ attractiveness (⟨Real.sqrt, Real.exp, next⟩ : Machine ℝ R) cfg.m_beta g
            (distSqrd Dc a b) ∧
          attractiveness (⟨Real.sqrt, Real.exp, next⟩ : Machine ℝ R) cfg.m_beta g
            (distSqrd Dc a b) ≤ cfg.m_beta ∧
          attractiveness (⟨Real.sqrt, Real.exp, next⟩ : Machine ℝ R) cfg.m_beta g
            (distSqrd Dc a b) ≤ 1) ∧
      (∀ r₁ r₂ : ℝ, r₁ ≤ r₂ →
        attractiveness (⟨Real.sqrt, Real.exp, next⟩ : Machine ℝ R) cfg.m_beta g r₂ ≤
          attractiveness (⟨Real.sqrt, Real.exp, next⟩ : Machine ℝ R) cfg.m_beta g r₁) := by
  obtain ⟨hc, _, _, hb, hgm⟩ := firefly_ok_fields gen alpha beta gamma cfg hcfg
  have hbeta : 0 ≤ cfg.m_beta ∧ cfg.m_beta ≤ 1 := by rw [hc]; exact hb
  have hgamma : 0 ≤ cfg.m_gamma := by rw [hc]; exact hgm.1
  have hg0 : 0 ≤ cfg.m_gamma / Real.sqrt (maxDistSqrd Dc NP X) := div_nonneg hgamma hr.le
  refine ⟨cfg.m_gamma / Real.sqrt (maxDistSqrd Dc NP X), ?_, rfl, hg0, ?_, ?_⟩
  · simp only [newgamma, gdiv, if_neg hr.ne']
  · intro a b
    have h := attractiveness_mem next cfg.m_beta _ _ hbeta.1 hg0 (distSqrd_nonneg Dc a b)
    exact ⟨h.1, h.2, h.2.trans hbeta.2⟩
  · intro r₁ r₂ h12
    simp only [attractiveness]
    apply mul_le_mul_of_nonneg_left _ hbeta.1
    rw [Real.exp_le_exp]
    nlinarith [mul_le_mul_of_nonneg_left h12 hg0]

/-- Witness of C13: the concrete scenario, where r_max = sqrt 2. -/
theorem attractiveness_bounded_antitone_witness :
    ∃ g, newgamma (⟨Real.sqrt, Real.exp, fun n => (0, n + 1)⟩ : Machine ℝ Nat) scenarioCfg 2 2
        [[0, 0], [1, 1]] = some g ∧
      g = (scenarioCfg : Config ℝ).m_gamma / Real.sqrt (maxDistSqrd 2 2 [[0, 0], [1, 1]]) ∧
      0 ≤ g ∧
      (∀ a b : List ℝ,
        0 ≤ attractiveness (⟨Real.sqrt, Real.exp, fun n => (0, n + 1)⟩ : Machine ℝ Nat)
            (scenarioCfg : Config ℝ).m_beta g (distSqrd 2 a b) ∧
          attractiveness (⟨Real.sqrt, Real.exp, fun n => (0, n + 1)⟩ : Machine ℝ Nat)
            (scenarioCfg : Config ℝ).m_beta g (distSqrd 2 a b) ≤
            (scenarioCfg : Config ℝ).m_beta ∧
          attractiveness (⟨Real.sqrt, Real.exp, fun n => (0, n + 1)⟩ : Machine ℝ Nat)
            (scenarioCfg : Config ℝ).m_beta g (distSqrd 2 a b) ≤ 1) ∧
      (∀ r₁ r₂ : ℝ, r₁ ≤ r₂ →
        attractiveness (⟨Real.sqrt, Real.exp, fun n => (0, n + 1)⟩ : Machine ℝ Nat)
            (scenarioCfg : Config ℝ).m_beta g r₂ ≤
          attractiveness (⟨Real.sqrt, Real.exp, fun n => (0, n + 1)⟩ : Machine ℝ Nat)
            (scenarioCfg : Config ℝ).m_beta g r₁) :=
  attractiveness_bounded_antitone (fun n => (0, n + 1)) 1 0 1 1 scenarioCfg 2 2 [[0, 0], [1, 1]]
    (by norm_num [firefly, scenarioCfg])
    (by rw [sc_maxDist]; positivity)

/-! ### The maximal distance -/

/-- A running maximum over a list: the result is at least the start value and
every term, and it is the start value or one of the terms. -/
theorem foldl_max_spec {F α : Type} [LinearOrderedField F] (h : α → F) (l : List α) (r : F) :
    r ≤ l.foldl (fun r x => if h x > r then h x else r) r ∧
      (∀ x ∈ l, h x ≤ l.foldl (fun r x => if h x > r then h x else r) r) ∧
      (l.foldl (fun r x => if h x > r then h x else r) r = r ∨
        ∃ x ∈ l, l.foldl (fun r x => if h x > r then h x else r) r = h x) := by
  induction l generalizing r with
  | nil => simp
  | cons y l ih =>
    obtain ⟨h1, h2, h3⟩ := ih (if h y > r then h y else r)
    rw [List.foldl_cons]
    have hr : r ≤ (if h y > r then h y else r) := by
      split_ifs with hy
      · exact hy.le
      · exact le_refl _
    have hy : h y ≤ (if h y > r then h y else r) := by
      split_ifs with hy
      · exact le_refl _
      · exact not_lt.mp hy
    refine ⟨hr.trans h1, ?_, ?_⟩
    · intro x hx
      rcases List.mem_cons.mp hx with rfl | hx
      · exact hy.trans h1
      · exact h2 x hx
    · rcases h3 with h3 | ⟨x, hx, h3⟩
      · rw [h3]
        split_ifs with hy'
        · exact Or.inr ⟨y, List.mem_cons_self _ _, rfl⟩
        · exact Or.inl rfl
      · exact Or.inr ⟨x, List.mem_cons_of_mem _ hx, h3⟩

/-- The running maximum over the pairs `(i, j)`, `i` from `is` and `j` from
`J i`. -/
theorem foldl_max_pairs_spec {F : Type} [LinearOrderedField F] (d : Nat → Nat → F)
    (J : Nat → List Nat) (is : List Nat) (r : F) :
    r ≤ is.foldl (fun r i => (J i).foldl (fun r j => if d i j > r then d i j else r) r) r ∧
      (∀ i ∈ is, ∀ j ∈ J i, d i j ≤
        is.foldl (fun r i => (J i).foldl (fun r j => if d i j > r then d i j else r) r) r) ∧
      (is.foldl (fun r i => (J i).foldl (fun r j => if d i j > r then d i j else r) r) r = r ∨
        ∃ i ∈ is, ∃ j ∈ J i,
          is.foldl (fun r i => (J i).foldl (fun r j => if d i j > r then d i j else r) r) r =
            d i j) := by
  induction is generalizing r with
  | nil => simp
  | cons i is ih =>
    obtain ⟨a1, a2, a3⟩ := foldl_max_spec (d i) (J i) r
    obtain ⟨b1, b2, b3⟩ := ih ((J i).foldl (fun r j => if d i j > r then d i j else r) r)
    rw [List.foldl_cons]
    refine ⟨a1.trans b1, ?_, ?_⟩
    · intro i' hi' j hj
      rcases List.mem_cons.mp hi' with rfl | hi'
      · exact (a2 j hj).trans b1
      · exact b2 i' hi' j hj
    · rcases b3 with b3 | ⟨i', hi', j, hj, b3⟩
      · rw [b3]
        rcases a3 with a3 | ⟨j, hj, a3⟩
        · exact Or.inl a3
        · exact Or.inr ⟨i, List.mem_cons_self _ _, j, hj, a3⟩
      · exact Or.inr ⟨i', List.mem_cons_of_mem _ hi', j, hj, b3⟩

/-- The value `r_max_sqrd` of lines 126-137 is the largest squared distance
over the pairs `i < j < NP`: some pair attains it and none exceeds it. -/
theorem maxDistSqrd_spec {F : Type} [LinearOrderedField F] (Dc NP : Nat) (X : List (List F))
    (hNP : 2 ≤ NP) :
    (∃ i j, i < j ∧ j < NP ∧
      maxDistSqrd Dc NP X = distSqrd Dc (X.getD i []) (X.getD j [])) ∧
    (∀ i j, i < j → j < NP →
      distSqrd Dc (X.getD i []) (X.getD j []) ≤ maxDistSqrd Dc NP X) := by
  obtain ⟨_, h2, h3⟩ := foldl_max_pairs_spec
    (fun i j => distSqrd Dc (X.getD i []) (X.getD j []))
    (fun i => List.range' (i + 1) (NP - (i + 1))) (List.range NP) 0
  have hle : ∀ i j, i < j → j < NP →
      distSqrd Dc (X.getD i []) (X.getD j []) ≤ maxDistSqrd Dc NP X := by
    intro i j hij hj
    apply h2 i (List.mem_range.mpr (by omega)) j
    rw [List.mem_range'_1]
    omega
  refine ⟨?_, hle⟩
  rcases h3 with h3 | ⟨i, hi, j, hj, h3⟩
  · refine ⟨0, 1, by decide, by omega, ?_⟩
    have h01 := hle 0 1 (by decide) (by omega)
    have h0 : maxDistSqrd Dc NP X = 0 := h3
    rw [h0] at h01 ⊢
    exact le_antisymm (distSqrd_nonneg _ _ _) h01
  · rw [List.mem_range'_1] at hj
    exact ⟨i, j, by omega, by omega, h3⟩

/-- C12. For NP at least 2, r_max = sqrt(r_max_sqrd) is the maximum over the
pairs of distinct individuals of the Euclidean distance between their
positions restricted to the first Dc coordinates: some pair attains it, no
pair exceeds it, and r_max = 0 exactly when all individuals coincide on the
first Dc coordinates. -/
theorem r_max_is_max_distance (Dc NP : Nat) (X : List (List ℝ)) (hNP : 2 ≤ NP) :
    (∃ i j, i < j ∧ j < NP ∧ Real.sqrt (maxDistSqrd Dc NP X) =
      Real.sqrt (distSqrd Dc (X.getD i []) (X.getD j []))) ∧
    (∀ i j, i < NP → j < NP → i ≠ j →
      Real.sqrt (distSqrd Dc (X.getD i []) (X.getD j [])) ≤
        Real.sqrt (maxDistSqrd Dc NP X)) ∧
    (Real.sqrt (maxDistSqrd Dc NP X) = 0 ↔
      ∀ i j, i < NP → j < NP → ∀ k, k < Dc → (X.getD i []).getD k 0 = (X.getD j []).getD k 0) := by
  obtain ⟨⟨i, j, hij, hj, hmax⟩, hle⟩ := maxDistSqrd_spec Dc NP X hNP
  have hle' : ∀ i j, i < NP → j < NP → i ≠ j →
      distSqrd Dc (X.getD i []) (X.getD j []) ≤ maxDistSqrd Dc NP X := by
    intro i j hi hj hne
    rcases Nat.lt_or_gt_of_ne hne with h | h
    · exact hle i j h hj
    · rw [distSqrd_comm]
      exact hle j i h hi
  refine ⟨⟨i, j, hij, hj, by rw [hmax]⟩, ?_, ?_⟩
  · intro i j hi hj hne
    exact Real.sqrt_le_sqrt (hle' i j hi hj hne)
  · have hnn : 0 ≤ maxDistSqrd Dc NP X := by
      rw [hmax]
      exact distSqrd_nonneg _ _ _
    rw [Real.sqrt_eq_zero hnn]
    constructor
    · intro h0 i' j' hi' hj' k hk
      by_cases hne : i' = j'
      · rw [hne]
      · have h1 := hle' i' j' hi' hj' hne
        rw [h0] at h1
        have h2 := le_antisymm h1 (distSqrd_nonneg _ _ _)
        exact (distSqrd_eq_zero_iff Dc _ _).mp h2 k hk
    · intro hall
      rw [hmax]
      exact (distSqrd_eq_zero_iff Dc _ _).mpr (hall i j (by omega) hj)

/-- Witness of C12: the two positions of the concrete scenario. -/
theorem r_max_is_max_distance_witness :
    (∃ i j, i < j ∧ j < 2 ∧ Real.sqrt (maxDistSqrd 2 2 [[0, 0], [1, 1]]) =
      Real.sqrt (distSqrd 2 (([[0, 0], [1, 1]] : List (List ℝ)).getD i [])
        (([[0, 0], [1, 1]] : List (List ℝ)).getD j []))) ∧
    (∀ i j, i < 2 → j < 2 → i ≠ j →
      Real.sqrt (distSqrd 2 (([[0, 0], [1, 1]] : List (List ℝ)).getD i [])
        (([[0, 0], [1, 1]] : List (List ℝ)).getD j [])) ≤
        Real.sqrt (maxDistSqrd 2 2 [[0, 0], [1, 1]])) ∧
    (Real.sqrt (maxDistSqrd 2 2 [[0, 0], [1, 1]]) = 0 ↔
      ∀ i j, i < 2 → j < 2 → ∀ k, k < 2 →
        ((([[0, 0], [1, 1]] : List (List ℝ)).getD i []).getD k 0 =
          (([[0, 0], [1, 1]] : List (List ℝ)).getD j []).getD k 0)) :=
  r_max_is_max_distance 2 2 [[0, 0], [1, 1]] (le_refl 2)

/-! ### Runs without a move -/

/-- When `jj` is not better than `ii` the pair step changes nothing and reads
no `newgamma`. -/
theorem pairStep_not_better {F R : Type} [LinearOrderedField F] (M : Machine F R)
    (cfg : Config F) (prob : Problem F) (Dc : Nat) (g : Option F) (ii jj : Nat) (s : State F R)
    (h : prob.compare_fitness (s.fit.getD jj []) (s.fit.getD ii []) = false) :
    pairStep M cfg prob Dc g ii s jj = some s := by
  unfold pairStep
  rw [if_neg (by rw [h]; exact Bool.false_ne_true)]

/-- The inner loop when no `jj` of the list is better than `ii`. -/
theorem row_no_move {F R : Type} [LinearOrderedField F] (M : Machine F R) (cfg : Config F)
    (prob : Problem F) (Dc : Nat) (g : Option F) (ii : Nat) (js : List Nat) (s : State F R)
    (h : ∀ jj ∈ js, prob.compare_fitness (s.fit.getD jj []) (s.fit.getD ii []) = false) :
    js.foldlM (pairStep M cfg prob Dc g ii) s = some s := by
  induction js with
  | nil => rfl
  | cons j js ih =>
    rw [List.foldlM_cons, pairStep_not_better M cfg prob Dc g ii j s
      (h j (List.mem_cons_self _ _))]
    exact ih (fun jj hjj => h jj (List.mem_cons_of_mem _ hjj))

/-- The pair loops when no individual is better than any other. -/
theorem rows_no_move {F R : Type} [LinearOrderedField F] (M : Machine F R) (cfg : Config F)
    (prob : Problem F) (Dc : Nat) (g : Option F) (js is : List Nat) (s : State F R)
    (h : ∀ ii ∈ is, ∀ jj ∈ js,
      prob.compare_fitness (s.fit.getD jj []) (s.fit.getD ii []) = false) :
    is.foldlM (fun s ii => js.foldlM (pairStep M cfg prob Dc g ii) s) s = some s := by
  induction is with
  | nil => rfl
  | cons i is ih =>
    rw [List.foldlM_cons, row_no_move M cfg prob Dc g i js s (h i (List.mem_cons_self _ _))]
    exact ih (fun ii hii => h ii (List.mem_cons_of_mem _ hii))

/-- The main loop when no individual is better than any other: whatever
`newgamma` is, defined or not, every generation leaves positions, fitnesses,
population and generator as they are. -/
theorem mainLoop_no_move {F R : Type} [LinearOrderedField F] (M : Machine F R) (cfg : Config F)
    (prob : Problem F) (Dc NP : Nat) (g : Option F) (n : Nat) (s : State F R)
    (h : ∀ i, i < NP → ∀ j, j < NP →
      prob.compare_fitness (s.fit.getD j []) (s.fit.getD i []) = false) :
    ∃ s', mainLoop M cfg prob Dc NP g n s = some s' ∧ s'.X = s.X ∧ s'.fit = s.fit ∧
      s'.pop = s.pop ∧ s'.rng = s.rng := by
  induction n generalizing s with
  | zero => exact ⟨s, rfl, rfl, rfl, rfl, rfl⟩
  | succ n ih =>
    have hgen : generation M cfg prob Dc NP g s =
        some { s with best_firefly := (findBest prob NP s.fit).1,
                      best_fitness := (findBest prob NP s.fit).2 } := by
      simp only [generation]
      exact rows_no_move M cfg prob Dc g (List.range NP) (List.range NP) _
        (fun ii hii jj hjj => h ii (List.mem_range.mp hii) jj (List.mem_range.mp hjj))
    obtain ⟨s', hs', a, b, c, d⟩ := ih
      { s with best_firefly := (findBest prob NP s.fit).1,
               best_fitness := (findBest prob NP s.fit).2 } h
    refine ⟨s', ?_, a, b, c, d⟩
    simp only [mainLoop, hgen, Option.some_bind]
    exact hs'

/-- C19. If at the start no individual's fitness is strictly better than any
individual's fitness, then for every generation count the run of an
applicable population performs no move: evolve returns the population and the
generator state unchanged, and the main loop does so for every value of
newgamma, the undefined one included. -/
theorem evolve_no_better_no_move {F R : Type} [LinearOrderedField F] (M : Machine F R)
    (cfg : Config F) (prob : Problem F) (pop : Population F) (rng : R)
    (hDc : 0 < prob.dimension - prob.i_dimension) (hf : prob.f_dimension = 1)
    (hc : prob.c_dimension = 0) (hNP : 2 ≤ pop.length)
    (hno : ∀ i, i < pop.length → ∀ j, j < pop.length →
      prob.compare_fitness ((pop.map Individual.cur_f).getD j [])
        ((pop.map Individual.cur_f).getD i []) = false) :
    evolve M cfg prob pop rng = .returned pop rng ∧
    ∀ (g : Option F) (n : Nat), ∃ s',
      mainLoop M cfg prob (prob.dimension - prob.i_dimension) pop.length g n
        ⟨pop.map Individual.cur_x, pop.map Individual.cur_f, pop, rng, 0, []⟩ = some s' ∧
      s'.pop = pop ∧ s'.rng = rng := by
  have hloop : ∀ (g : Option F) (n : Nat), ∃ s',
      mainLoop M cfg prob (prob.dimension - prob.i_dimension) pop.length g n
        ⟨pop.map Individual.cur_x, pop.map Individual.cur_f, pop, rng, 0, []⟩ = some s' ∧
      s'.pop = pop ∧ s'.rng = rng := by
    intro g n
    obtain ⟨s', hs', _, _, c, d⟩ := mainLoop_no_move M cfg prob
      (prob.dimension - prob.i_dimension) pop.length g n
      ⟨pop.map Individual.cur_x, pop.map Individual.cur_f, pop, rng, 0, []⟩ hno
    exact ⟨s', hs', c, d⟩
  refine ⟨?_, hloop⟩
  have hDc' : prob.dimension - prob.i_dimension ≠ 0 := Nat.pos_iff_ne_zero.mp hDc
  by_cases hit : cfg.m_iter = 0
  · have hb : ¬ prob.f_dimension ≠ 1 := not_not.mpr hf
    have hc : ¬ prob.c_dimension ≠ 0 := not_not.mpr hc
    have hd : ¬ pop.length < 2 := not_lt.mpr hNP
    simp only [evolve, if_neg hDc', if_neg hb, if_neg hc, if_neg hd, if_pos hit]
  · rw [evolve_of_applicable M cfg prob pop rng hDc' hf hc hNP hit]
    obtain ⟨s', hs', c, d⟩ := hloop
      (newgamma M cfg (prob.dimension - prob.i_dimension) pop.length
        (pop.map Individual.cur_x)) cfg.m_iter.toNat
    rw [hs']
    simp only [c, d]

/-- Witness of C19: two individuals with the same position and fitness under
the minimizing comparator, 3 generations; r_max = 0 and newgamma is
undefined, yet the run returns the population and the generator unchanged. -/
theorem evolve_no_better_no_move_witness :
    newgamma (⟨Real.sqrt, Real.exp, fun n => (0, n + 1)⟩ : Machine ℝ Nat) ⟨3, 1, 1, 1⟩ 1 2
      [[1 / 2], [1 / 2]] = none ∧
    (evolve (⟨Real.sqrt, Real.exp, fun n => (0, n + 1)⟩ : Machine ℝ Nat) ⟨3, 1, 1, 1⟩
        ⟨1, 0, 0, 1, [0], [1], minimizing, fun x => x⟩
        [⟨[1 / 2], [1 / 2]⟩, ⟨[1 / 2], [1 / 2]⟩] 7 =
      .returned [⟨[1 / 2], [1 / 2]⟩, ⟨[1 / 2], [1 / 2]⟩] 7 ∧
    ∀ (g : Option ℝ) (n : Nat), ∃ s',
      mainLoop (⟨Real.sqrt, Real.exp, fun n => (0, n + 1)⟩ : Machine ℝ Nat) ⟨3, 1, 1, 1⟩
        ⟨1, 0, 0, 1, [0], [1], minimizing, fun x => x⟩ (1 - 0) 2 g n
        ⟨[[1 / 2], [1 / 2]], [[1 / 2], [1 / 2]], [⟨[1 / 2], [1 / 2]⟩, ⟨[1 / 2], [1 / 2]⟩], 7,
          0, []⟩ = some s' ∧
      s'.pop = [⟨[1 / 2], [1 / 2]⟩, ⟨[1 / 2], [1 / 2]⟩] ∧ s'.rng = 7) :=
  ⟨by norm_num [newgamma, gdiv, maxDistSqrd, distSqrd, List.range_succ, List.range'],
   evolve_no_better_no_move (⟨Real.sqrt, Real.exp, fun n => (0, n + 1)⟩ : Machine ℝ Nat)
    ⟨3, 1, 1, 1⟩ ⟨1, 0, 0, 1, [0], [1], minimizing, fun x => x⟩
    [⟨[1 / 2], [1 / 2]⟩, ⟨[1 / 2], [1 / 2]⟩] 7 (by decide) rfl rfl (by decide)
    (by
      intro i hi j hj
      have hi : i < 2 := hi
      have hj : j < 2 := hj
      interval_cases i <;> interval_cases j <;> simp [minimizing])⟩

/-! ### The best-firefly scan -/

/-- The invariant of the scan of lines 147-154 over the indices
`s, s + 1, ..., s + n - 1`: the current best is among the indices seen, no
fitness seen is better than it, and it is better than every fitness before
it. -/
theorem findBest_scan {F : Type} (cmp : List F → List F → Bool) (fit : List (List F))
    (hirr : ∀ a, cmp a a = false)
    (htrans : ∀ a b c, cmp a b = true → cmp b c = true → cmp a c = true)
    (hneg : ∀ a b c, cmp a b = true → cmp a c = true ∨ cmp c b = true)
    (n s : Nat) (best : Nat × List F)
    (h1 : best.1 < s) (h2 : best.2 = fit.getD best.1 [])
    (h3 : ∀ j, j < s → cmp (fit.getD j []) (fit.getD best.1 []) = false)
    (h4 : ∀ j, j < best.1 → cmp (fit.getD best.1 []) (fit.getD j []) = true) :
    ((List.range' s n).foldl
        (fun best i => if cmp (fit.getD i []) best.2 then (i, fit.getD i []) else best) best).1 <
        s + n ∧
      ((List.range' s n).foldl
        (fun best i => if cmp (fit.getD i []) best.2 then (i, fit.getD i []) else best) best).2 =
        fit.getD ((List.range' s n).foldl
          (fun best i => if cmp (fit.getD i []) best.2 then (i, fit.getD i []) else best)
            best).1 [] ∧
      (∀ j, j < s + n → cmp (fit.getD j []) (fit.getD ((List.range' s n).foldl
          (fun best i => if cmp (fit.getD i []) best.2 then (i, fit.getD i []) else best)
            best).1 []) = false) ∧
      (∀ j, j < ((List.range' s n).foldl
          (fun best i => if cmp (fit.getD i []) best.2 then (i, fit.getD i []) else best)
            best).1 →
        cmp (fit.getD ((List.range' s n).foldl
          (fun best i => if cmp (fit.getD i []) best.2 then (i, fit.getD i []) else best)
            best).1 []) (fit.getD j []) = true) := by
  induction n generalizing s best with
  | zero => exact ⟨h1, h2, h3, h4⟩
  | succ n ih =>
    rw [List.range'_succ, List.foldl_cons]
    have hs : s + (n + 1) = (s + 1) + n := by omega
    rw [hs]
    by_cases hc : cmp (fit.getD s []) best.2 = true
    · rw [if_pos hc]
      rw [h2] at hc
      apply ih (s + 1) (s, fit.getD s []) (Nat.lt_succ_self s) rfl
      · intro j hj
        rcases Nat.lt_succ_iff_lt_or_eq.mp hj with hj | rfl
        · have hb : cmp (fit.getD s []) (fit.getD j []) = true := by
            rcases hneg _ _ (fit.getD j []) hc with h | h
            · exact h
            · rw [h3 j hj] at h
              cases h
          cases hjs : cmp (fit.getD j []) (fit.getD s []) with
          | false => rfl
          | true =>
            have := htrans _ _ _ hjs hb
            rw [hirr] at this
            cases this
        · exact hirr _
      · intro j hj
        rcases hneg _ _ (fit.getD j []) hc with h | h
        · exact h
        · rw [h3 j hj] at h
          cases h
    · rw [if_neg hc]
      have hc' : cmp (fit.getD s []) (fit.getD best.1 []) = false := by
        rw [h2] at hc
        exact Bool.eq_false_iff.mpr hc
      apply ih (s + 1) best (Nat.lt_succ_of_lt h1) h2
      · intro j hj
        rcases Nat.lt_succ_iff_lt_or_eq.mp hj with hj | rfl
        · exact h3 j hj
        · exact hc'
      · exact h4

/-- C16. For a comparator that is a strict weak order (irreflexive,
transitive, and `a` better than `b` makes `a` better than `c` or `c` better
than `b`), the scan returns the first-encountered best: best_firefly is an
index below NP, best_fitness = fit[best_firefly], no individual's fitness is
strictly better than fit[best_firefly], every smaller index has an
individual strictly better than it, and an individual whose fitness equals
the best fitness does not precede best_firefly. -/
theorem findBest_first_best {F : Type} (prob : Problem F) (NP : Nat) (fit : List (List F))
    (hNP : 1 ≤ NP)
    (hirr : ∀ a, prob.compare_fitness a a = false)
    (htrans : ∀ a b c, prob.compare_fitness a b = true → prob.compare_fitness b c = true →
      prob.compare_fitness a c = true)
    (hneg : ∀ a b c, prob.compare_fitness a b = true →
      prob.compare_fitness a c = true ∨ prob.compare_fitness c b = true) :
    (findBest prob NP fit).1 < NP ∧
    (findBest prob NP fit).2 = fit.getD (findBest prob NP fit).1 [] ∧
    (∀ j, j < NP →
      prob.compare_fitness (fit.getD j []) (fit.getD (findBest prob NP fit).1 []) = false) ∧
    (∀ i, i < (findBest prob NP fit).1 →
      ∃ j, j < NP ∧ prob.compare_fitness (fit.getD j []) (fit.getD i []) = true) ∧
    (∀ i, i < NP → fit.getD i [] = (findBest prob NP fit).2 → (findBest prob NP fit).1 ≤ i) := by
  obtain ⟨a1, a2, a3, a4⟩ := findBest_scan prob.compare_fitness fit hirr htrans hneg (NP - 1) 1
    (0, fit.getD 0 []) Nat.zero_lt_one rfl
    (fun j hj => by
      have : j = 0 := by omega
      rw [this]
      exact hirr _)
    (fun j hj => absurd hj (Nat.not_lt_zero j))
  have hN : 1 + (NP - 1) = NP := by omega
  rw [hN] at a1 a3
  refine ⟨a1, a2, a3, ?_, ?_⟩
  · intro i hi
    exact ⟨_, a1, a4 i hi⟩
  · intro i _ heq
    by_contra hlt
    have a4' : ∀ j, j < (findBest prob NP fit).1 →
        prob.compare_fitness (fit.getD (findBest prob NP fit).1 []) (fit.getD j []) = true := a4
    have h := a4' i (not_le.mp hlt)
    have heq' : fit.getD i [] = fit.getD (findBest prob NP fit).1 [] := heq.trans a2
    rw [heq', hirr] at h
    cases h

/-- Witness of C16: three fitnesses 2, 1, 1 under the minimizing comparator;
the scan returns index 1, the first of the two equal best. -/
theorem findBest_first_best_witness :
    (findBest (scenarioProblem (fun x : List ℚ => x)) 3 [[2], [1], [1]]).1 = 1 ∧
    ((findBest (scenarioProblem (fun x : List ℚ => x)) 3 [[2], [1], [1]]).1 < 3 ∧
    (findBest (scenarioProblem (fun x : List ℚ => x)) 3 [[2], [1], [1]]).2 =
      ([[2], [1], [1]] : List (List ℚ)).getD
        (findBest (scenarioProblem (fun x : List ℚ => x)) 3 [[2], [1], [1]]).1 [] ∧
    (∀ j, j < 3 →
      (scenarioProblem (fun x : List ℚ => x)).compare_fitness
        (([[2], [1], [1]] : List (List ℚ)).getD j [])
        (([[2], [1], [1]] : List (List ℚ)).getD
          (findBest (scenarioProblem (fun x : List ℚ => x)) 3 [[2], [1], [1]]).1 []) = false) ∧
    (∀ i, i < (findBest (scenarioProblem (fun x : List ℚ => x)) 3 [[2], [1], [1]]).1 →
      ∃ j, j < 3 ∧ (scenarioProblem (fun x : List ℚ => x)).compare_fitness
        (([[2], [1], [1]] : List (List ℚ)).getD j [])
        (([[2], [1], [1]] : List (List ℚ)).getD i []) = true) ∧
    (∀ i, i < 3 → ([[2], [1], [1]] : List (List ℚ)).getD i [] =
        (findBest (scenarioProblem (fun x : List ℚ => x)) 3 [[2], [1], [1]]).2 →
      (findBest (scenarioProblem (fun x : List ℚ => x)) 3 [[2], [1], [1]]).1 ≤ i)) :=
  ⟨by decide,
   findBest_first_best (scenarioProblem (fun x : List ℚ => x)) 3 [[2], [1], [1]] (by decide)
    (fun a => by simp [scenarioProblem, minimizing])
    (fun a b c h1 h2 => by
      simp only [scenarioProblem, minimizing, decide_eq_true_eq] at h1 h2 ⊢
      exact lt_trans h1 h2)
    (fun a b c h => by
      simp only [scenarioProblem, minimizing, decide_eq_true_eq] at h ⊢
      rcases lt_or_le (a.getD 0 0) (c.getD 0 0) with h1 | h1
      · exact Or.inl h1
      · exact Or.inr (lt_of_le_of_lt h1 h))⟩

/-! ### The integer part is never written -/

theorem getD_set {α : Type} (l : List α) (n i : Nat) (a d : α) :
    (l.set n a).getD i d = if n = i ∧ n < l.length then a else l.getD i d := by
  simp only [List.getD_eq_getElem?_getD, List.getElem?_set]
  by_cases h1 : n = i
  · subst h1
    by_cases h2 : n < l.length
    · simp [h2]
    · have h3 : l[n]? = none := List.getElem?_eq_none (not_lt.mp h2)
      simp [h2, h3]
  · simp [h1]

/-- One coordinate step writes only coordinate `k` of row `ii`. -/
theorem moveCoord_frame_coord {F R : Type} [LinearOrderedField F] (M : Machine F R)
    (cfg : Config F) (prob : Problem F) (b : F) (ii jj : Nat) (s : List (List F) × R)
    (k : Nat) :
    (moveCoord M cfg prob b ii jj s k).1.length = s.1.length ∧
      ∀ i k', k' ≠ k →
        ((moveCoord M cfg prob b ii jj s k).1.getD i [])[k']? = (s.1.getD i [])[k']? := by
  refine ⟨by simp [moveCoord], ?_⟩
  intro i k' hk'
  simp only [moveCoord, getD_set]
  split_ifs with h
  · rw [List.getElem?_set_ne (Ne.symm hk'), h.1]
  · rfl

/-- A move over coordinates below `Dc` leaves the coordinates from `Dc` on,
and the number of rows, as they were. -/
theorem foldl_moveCoord_frame_coord {F R : Type} [LinearOrderedField F] (M : Machine F R)
    (cfg : Config F) (prob : Problem F) (b : F) (ii jj Dc : Nat) (ks : List Nat)
    (hks : ∀ k ∈ ks, k < Dc) (s : List (List F) × R) :
    (ks.foldl (moveCoord M cfg prob b ii jj) s).1.length = s.1.length ∧
      ∀ i k', Dc ≤ k' →
        ((ks.foldl (moveCoord M cfg prob b ii jj) s).1.getD i [])[k']? = (s.1.getD i [])[k']? := by
  induction ks generalizing s with
  | nil => exact ⟨rfl, fun _ _ _ => rfl⟩
  | cons k ks ih =>
    obtain ⟨a1, a2⟩ := moveCoord_frame_coord M cfg prob b ii jj s k
    obtain ⟨b1, b2⟩ := ih (fun k' hk' => hks k' (List.mem_cons_of_mem _ hk'))
      (moveCoord M cfg prob b ii jj s k)
    rw [List.foldl_cons]
    refine ⟨b1.trans a1, ?_⟩
    intro i k' hk'
    have hk : k < Dc := hks k (List.mem_cons_self _ _)
    rw [b2 i k' hk', a2 i k' (by omega)]

/-- A pair step keeps the population size and, in `X` and in the population,
every coordinate from `Dc` on. -/
theorem pairStep_frame_coord {F R : Type} [LinearOrderedField F] (M : Machine F R)
    (cfg : Config F) (prob : Problem F) (Dc : Nat) (g : Option F) (ii jj : Nat)
    (s s' : State F R) (h : pairStep M cfg prob Dc g ii s jj = some s')
    (X0 : List (List F))
    (hX : s.X.length = X0.length ∧ ∀ i k, Dc ≤ k → (s.X.getD i [])[k]? = (X0.getD i [])[k]?)
    (hpop : s.pop.length = X0.length ∧ ∀ i k, Dc ≤ k →
      ((s.pop.map Individual.cur_x).getD i [])[k]? = (X0.getD i [])[k]?) :
    (s'.X.length = X0.length ∧ ∀ i k, Dc ≤ k → (s'.X.getD i [])[k]? = (X0.getD i [])[k]?) ∧
    (s'.pop.length = X0.length ∧ ∀ i k, Dc ≤ k →
      ((s'.pop.map Individual.cur_x).getD i [])[k]? = (X0.getD i [])[k]?) := by
  unfold pairStep at h
  split_ifs at h with hcmp
  · cases g with
    | none => cases h
    | some g =>
      simp only [Option.some.injEq] at h
      obtain ⟨a1, a2⟩ := foldl_moveCoord_frame_coord M cfg prob
        (attractiveness M cfg.m_beta g (distSqrd Dc (s.X.getD ii []) (s.X.getD jj []))) ii jj Dc
        (List.range Dc) (fun k hk => List.mem_range.mp hk) (s.X, s.rng)
      rw [← h]
      have hX' : ∀ i k, Dc ≤ k →
          (((List.range Dc).foldl (moveCoord M cfg prob
            (attractiveness M cfg.m_beta g (distSqrd Dc (s.X.getD ii []) (s.X.getD jj [])))
            ii jj) (s.X, s.rng)).1.getD i [])[k]? = (X0.getD i [])[k]? := by
        intro i k hk
        rw [a2 i k hk]
        exact hX.2 i k hk
      refine ⟨⟨a1.trans hX.1, hX'⟩, ?_, ?_⟩
      · simp only [set_x, List.length_set]
        exact hpop.1
      · intro i k hk
        simp only [set_x, List.map_set, getD_set]
        split_ifs with hi
        · rw [← hi.1]
          exact hX' ii k hk
        · exact hpop.2 i k hk
  · simp only [Option.some.injEq] at h
    rw [← h]
    exact ⟨hX, hpop⟩

/-- The frame property across the pair loops of one generation. -/
theorem rows_frame_coord {F R : Type} [LinearOrderedField F] (M : Machine F R)
    (cfg : Config F) (prob : Problem F) (Dc : Nat) (g : Option F) (js is : List Nat)
    (s s' : State F R)
    (h : is.foldlM (fun s ii => js.foldlM (pairStep M cfg prob Dc g ii) s) s = some s')
    (X0 : List (List F))
    (hX : s.X.length = X0.length ∧ ∀ i k, Dc ≤ k → (s.X.getD i [])[k]? = (X0.getD i [])[k]?)
    (hpop : s.pop.length = X0.length ∧ ∀ i k, Dc ≤ k →
      ((s.pop.map Individual.cur_x).getD i [])[k]? = (X0.getD i [])[k]?) :
    (s'.X.length = X0.length ∧ ∀ i k, Dc ≤ k → (s'.X.getD i [])[k]? = (X0.getD i [])[k]?) ∧
    (s'.pop.length = X0.length ∧ ∀ i k, Dc ≤ k →
      ((s'.pop.map Individual.cur_x).getD i [])[k]? = (X0.getD i [])[k]?) := by
  have hrow : ∀ (ii : Nat) (js : List Nat) (s s' : State F R),
      js.foldlM (pairStep M cfg prob Dc g ii) s = some s' →
      (s.X.length = X0.length ∧ ∀ i k, Dc ≤ k → (s.X.getD i [])[k]? = (X0.getD i [])[k]?) →
      (s.pop.length = X0.length ∧ ∀ i k, Dc ≤ k →
        ((s.pop.map Individual.cur_x).getD i [])[k]? = (X0.getD i [])[k]?) →
      (s'.X.length = X0.length ∧ ∀ i k, Dc ≤ k → (s'.X.getD i [])[k]? = (X0.getD i [])[k]?) ∧
      (s'.pop.length = X0.length ∧ ∀ i k, Dc ≤ k →
        ((s'.pop.map Individual.cur_x).getD i [])[k]? = (X0.getD i [])[k]?) := by
    intro ii js
    induction js with
    | nil =>
      intro s s' h hX hpop
      simp only [List.foldlM_nil, Option.pure_def, Option.some.injEq] at h
      rw [← h]
      exact ⟨hX, hpop⟩
    | cons j js ih =>
      intro s s' h hX hpop
      rw [List.foldlM_cons] at h
      cases h1 : pairStep M cfg prob Dc g ii s j with
      | none => rw [h1] at h; cases h
      | some s1 =>
        rw [h1] at h
        obtain ⟨a, b⟩ := pairStep_frame_coord M cfg prob Dc g ii j s s1 h1 X0 hX hpop
        exact ih s1 s' h a b
  induction is generalizing s with
  | nil =>
    simp only [List.foldlM_nil, Option.pure_def, Option.some.injEq] at h
    rw [← h]
    exact ⟨hX, hpop⟩
  | cons i is ih =>
    rw [List.foldlM_cons] at h
    cases h1 : js.foldlM (pairStep M cfg prob Dc g i) s with
    | none => rw [h1] at h; cases h
    | some s1 =>
      rw [h1] at h
      obtain ⟨a, b⟩ := hrow i js s s1 h1 hX hpop
      exact ih s1 h a b

/-- The frame property across the generations. -/
theorem mainLoop_frame_coord {F R : Type} [LinearOrderedField F] (M : Machine F R)
    (cfg : Config F) (prob : Problem F) (Dc NP : Nat) (g : Option F) (n : Nat)
    (s s' : State F R) (h : mainLoop M cfg prob Dc NP g n s = some s')
    (X0 : List (List F))
    (hX : s.X.length = X0.length ∧ ∀ i k, Dc ≤ k → (s.X.getD i [])[k]? = (X0.getD i [])[k]?)
    (hpop : s.pop.length = X0.length ∧ ∀ i k, Dc ≤ k →
      ((s.pop.map Individual.cur_x).getD i [])[k]? = (X0.getD i [])[k]?) :
    (s'.X.length = X0.length ∧ ∀ i k, Dc ≤ k → (s'.X.getD i [])[k]? = (X0.getD i [])[k]?) ∧
    (s'.pop.length = X0.length ∧ ∀ i k, Dc ≤ k →
      ((s'.pop.map Individual.cur_x).getD i [])[k]? = (X0.getD i [])[k]?) := by
  induction n generalizing s with
  | zero =>
    simp only [mainLoop, Option.some.injEq] at h
    rw [← h]
    exact ⟨hX, hpop⟩
  | succ n ih =>
    simp only [mainLoop] at h
    cases h1 : generation M cfg prob Dc NP g s with
    | none => rw [h1] at h; cases h
    | some s1 =>
      rw [h1] at h
      simp only [Option.some_bind] at h
      simp only [generation] at h1
      obtain ⟨a, b⟩ := rows_frame_coord M cfg prob Dc g (List.range NP) (List.range NP) _ s1
        h1 X0 hX hpop
      exact ih s1 h a b

/-- C17. Whenever evolve returns a population, its size is that of the
population given and, for every individual, every coordinate with index
k ≥ Dc of its position (value and presence) is what it was before the run;
for an applicable population with r_max not 0 evolve does return a
population. -/
theorem evolve_changes_continuous_prefix_only {F R : Type} [LinearOrderedField F]
    (M : Machine F R) (cfg : Config F) (prob : Problem F) (pop : Population F) (rng : R)
    (hDc : 0 < prob.dimension - prob.i_dimension) (hf : prob.f_dimension = 1)
    (hc : prob.c_dimension = 0) (hNP : 2 ≤ pop.length) :
    (M.sqrt (maxDistSqrd (prob.dimension - prob.i_dimension) pop.length
        (pop.map Individual.cur_x)) ≠ 0 →
      ∃ pop' rng', evolve M cfg prob pop rng = .returned pop' rng') ∧
    (∀ pop' rng', evolve M cfg prob pop rng = .returned pop' rng' →
      pop'.length = pop.length ∧
      ∀ i k, prob.dimension - prob.i_dimension ≤ k →
        ((pop'.map Individual.cur_x).getD i [])[k]? =
          ((pop.map Individual.cur_x).getD i [])[k]?) := by
  have hDc' : prob.dimension - prob.i_dimension ≠ 0 := Nat.pos_iff_ne_zero.mp hDc
  by_cases hit : cfg.m_iter = 0
  · have hb : ¬ prob.f_dimension ≠ 1 := not_not.mpr hf
    have hc : ¬ prob.c_dimension ≠ 0 := not_not.mpr hc
    have hd : ¬ pop.length < 2 := not_lt.mpr hNP
    have hev : evolve M cfg prob pop rng = .returned pop rng := by
      simp only [evolve, if_neg hDc', if_neg hb, if_neg hc, if_neg hd, if_pos hit]
    rw [hev]
    refine ⟨fun _ => ⟨pop, rng, rfl⟩, ?_⟩
    intro pop' rng' h
    cases h
    exact ⟨rfl, fun _ _ _ => rfl⟩
  · rw [evolve_of_applicable M cfg prob pop rng hDc' hf hc hNP hit]
    constructor
    · intro hr
      have hg : newgamma M cfg (prob.dimension - prob.i_dimension) pop.length
          (pop.map Individual.cur_x) = some (cfg.m_gamma /
            M.sqrt (maxDistSqrd (prob.dimension - prob.i_dimension) pop.length
              (pop.map Individual.cur_x))) := by
        simp only [newgamma, gdiv, if_neg hr]
      rw [hg]
      obtain ⟨s', hs⟩ := mainLoop_some M cfg prob (prob.dimension - prob.i_dimension) pop.length
        (cfg.m_gamma / M.sqrt (maxDistSqrd (prob.dimension - prob.i_dimension) pop.length
          (pop.map Individual.cur_x))) cfg.m_iter.toNat
        ⟨pop.map Individual.cur_x, pop.map Individual.cur_f, pop, rng, 0, []⟩
      rw [hs]
      exact ⟨_, _, rfl⟩
    · intro pop' rng' h
      cases hm : mainLoop M cfg prob (prob.dimension - prob.i_dimension) pop.length
          (newgamma M cfg (prob.dimension - prob.i_dimension) pop.length
            (pop.map Individual.cur_x))
          cfg.m_iter.toNat
          ⟨pop.map Individual.cur_x, pop.map Individual.cur_f, pop, rng, 0, []⟩ with
      | none => rw [hm] at h; cases h
      | some s' =>
        rw [hm] at h
        have hfr := mainLoop_frame_coord M cfg prob (prob.dimension - prob.i_dimension)
          pop.length _ _ _ s' hm (pop.map Individual.cur_x)
          ⟨rfl, fun _ _ _ => rfl⟩ ⟨by simp, fun _ _ _ => rfl⟩
        cases h
        exact ⟨by simpa using hfr.2.1, hfr.2.2⟩

/-- Witness of C17: the mixed-integer problem with the second individual
moved to the continuous coordinate 1; r_max = 1/2. -/
theorem evolve_changes_continuous_prefix_only_witness :
    (Real.sqrt (maxDistSqrd (2 - 1) 2 [[1 / 2, 0], [1, 1]]) ≠ 0 →
      ∃ pop' rng', evolve (⟨Real.sqrt, Real.exp, fun n => (0, n + 1)⟩ : Machine ℝ Nat)
        scenarioCfg mixedProblem [⟨[1 / 2, 0], [1 / 2]⟩, ⟨[1, 1], [2]⟩] 0 =
          .returned pop' rng') ∧
    (∀ pop' rng', evolve (⟨Real.sqrt, Real.exp, fun n => (0, n + 1)⟩ : Machine ℝ Nat)
        scenarioCfg mixedProblem [⟨[1 / 2, 0], [1 / 2]⟩, ⟨[1, 1], [2]⟩] 0 =
          .returned pop' rng' →
      pop'.length = 2 ∧
      ∀ i k, 2 - 1 ≤ k →
        ((pop'.map Individual.cur_x).getD i [])[k]? =
          (([[1 / 2, 0], [1, 1]] : List (List ℝ)).getD i [])[k]?) :=
  evolve_changes_continuous_prefix_only
    (⟨Real.sqrt, Real.exp, fun n => (0, n + 1)⟩ : Machine ℝ Nat) scenarioCfg mixedProblem
    [⟨[1 / 2, 0], [1 / 2]⟩, ⟨[1, 1], [2]⟩] 0 (by decide) rfl rfl (by decide)

/-! ### Elitism -/

/-- A pair step keeps the snapshot fitnesses equal to the fitnesses stored in
the population. -/
theorem pairStep_sync {F R : Type} [LinearOrderedField F] (M : Machine F R) (cfg : Config F)
    (prob : Problem F) (Dc : Nat) (g : Option F) (ii jj : Nat) (s s' : State F R)
    (h : pairStep M cfg prob Dc g ii s jj = some s')
    (hsync : s.fit = s.pop.map Individual.cur_f) :
    s'.fit = s'.pop.map Individual.cur_f := by
  unfold pairStep at h
  split_ifs at h with hcmp
  · cases g with
    | none => cases h
    | some g =>
      simp only [Option.some.injEq] at h
      rw [← h]
      simp only [set_x, List.map_set, hsync]
  · simp only [Option.some.injEq] at h
    rw [← h]
    exact hsync

/-- Under a strict weak order a pair step keeps the property that some
individual's fitness is not worse than a fixed fitness `f0`: the individual
itself if it is not moved, the better individual `jj` if it is. -/
theorem pairStep_keeps_not_worse {F R : Type} [LinearOrderedField F] (M : Machine F R)
    (cfg : Config F) (prob : Problem F) (Dc NP : Nat) (g : Option F) (ii jj : Nat)
    (s s' : State F R)
    (hirr : ∀ a, prob.compare_fitness a a = false)
    (htrans : ∀ a b c, prob.compare_fitness a b = true → prob.compare_fitness b c = true →
      prob.compare_fitness a c = true)
    (hneg : ∀ a b c, prob.compare_fitness a b = true →
      prob.compare_fitness a c = true ∨ prob.compare_fitness c b = true)
    (h : pairStep M cfg prob Dc g ii s jj = some s') (hjj : jj < NP) (f0 : List F)
    (hL : ∃ i, i < NP ∧ prob.compare_fitness f0 (s.fit.getD i []) = false) :
    ∃ i, i < NP ∧ prob.compare_fitness f0 (s'.fit.getD i []) = false := by
  unfold pairStep at h
  split_ifs at h with hcmp
  · cases g with
    | none => cases h
    | some g =>
      simp only [Option.some.injEq] at h
      obtain ⟨i, hi, hif⟩ := hL
      rw [← h]
      by_cases hii : ii = i
      · subst hii
        have hne : ii ≠ jj := by
          intro heq
          rw [← heq, hirr] at hcmp
          cases hcmp
        refine ⟨jj, hjj, ?_⟩
        simp only [getD_set, hne, false_and, if_false]
        have hb : prob.compare_fitness (s.fit.getD jj []) f0 = true := by
          rcases hneg _ _ f0 hcmp with h1 | h1
          · exact h1
          · rw [hif] at h1
            cases h1
        cases hc : prob.compare_fitness f0 (s.fit.getD jj []) with
        | false => rfl
        | true =>
          have := htrans _ _ _ hc hb
          rw [hirr] at this
          cases this
      · refine ⟨i, hi, ?_⟩
        simp only [getD_set, hii, false_and, if_false]
        exact hif
  · simp only [Option.some.injEq] at h
    rw [← h]
    exact hL

/-- The two invariants of elitism across the pair loops of one generation. -/
theorem rows_keep_not_worse {F R : Type} [LinearOrderedField F] (M : Machine F R)
    (cfg : Config F) (prob : Problem F) (Dc NP : Nat) (g : Option F)
    (hirr : ∀ a, prob.compare_fitness a a = false)
    (htrans : ∀ a b c, prob.compare_fitness a b = true → prob.compare_fitness b c = true →
      prob.compare_fitness a c = true)
    (hneg : ∀ a b c, prob.compare_fitness a b = true →
      prob.compare_fitness a c = true ∨ prob.compare_fitness c b = true)
    (f0 : List F) (js : List Nat) (hjs : ∀ j ∈ js, j < NP) (is : List Nat) (s s' : State F R)
    (h : is.foldlM (fun s ii => js.foldlM (pairStep M cfg prob Dc g ii) s) s = some s')
    (hsync : s.fit = s.pop.map Individual.cur_f)
    (hL : ∃ i, i < NP ∧ prob.compare_fitness f0 (s.fit.getD i []) = false) :
    s'.fit = s'.pop.map Individual.cur_f ∧
      ∃ i, i < NP ∧ prob.compare_fitness f0 (s'.fit.getD i []) = false := by
  have hrow : ∀ (ii : Nat) (l : List Nat), (∀ j ∈ l, j < NP) → ∀ (s s' : State F R),
      l.foldlM (pairStep M cfg prob Dc g ii) s = some s' →
      s.fit = s.pop.map Individual.cur_f →
      (∃ i, i < NP ∧ prob.compare_fitness f0 (s.fit.getD i []) = false) →
      s'.fit = s'.pop.map Individual.cur_f ∧
        ∃ i, i < NP ∧ prob.compare_fitness f0 (s'.fit.getD i []) = false := by
    intro ii l
    induction l with
    | nil =>
      intro _ s s' h hsync hL
      simp only [List.foldlM_nil, Option.pure_def, Option.some.injEq] at h
      rw [← h]
      exact ⟨hsync, hL⟩
    | cons j l ih =>
      intro hl s s' h hsync hL
      rw [List.foldlM_cons] at h
      cases h1 : pairStep M cfg prob Dc g ii s j with
      | none => rw [h1] at h; cases h
      | some s1 =>
        rw [h1] at h
        exact ih (fun j' hj' => hl j' (List.mem_cons_of_mem _ hj')) s1 s' h
          (pairStep_sync M cfg prob Dc g ii j s s1 h1 hsync)
          (pairStep_keeps_not_worse M cfg prob Dc NP g ii j s s1 hirr htrans hneg h1
            (hl j (List.mem_cons_self _ _)) f0 hL)
  induction is generalizing s with
  | nil =>
    simp only [List.foldlM_nil, Option.pure_def, Option.some.injEq] at h
    rw [← h]
    exact ⟨hsync, hL⟩
  | cons i is ih =>
    rw [List.foldlM_cons] at h
    cases h1 : js.foldlM (pairStep M cfg prob Dc g i) s with
    | none => rw [h1] at h; cases h
    | some s1 =>
      rw [h1] at h
      obtain ⟨a, b⟩ := hrow i js hjs s s1 h1 hsync hL
      exact ih s1 h a b

/-- The two invariants of elitism across the generations. -/
theorem mainLoop_keeps_not_worse {F R : Type} [LinearOrderedField F] (M : Machine F R)
    (cfg : Config F) (prob : Problem F) (Dc NP : Nat) (g : Option F)
    (hirr : ∀ a, prob.compare_fitness a a = false)
    (htrans : ∀ a b c, prob.compare_fitness a b = true → prob.compare_fitness b c = true →
      prob.compare_fitness a c = true)
    (hneg : ∀ a b c, prob.compare_fitness a b = true →
      prob.compare_fitness a c = true ∨ prob.compare_fitness c b = true)
    (f0 : List F) (n : Nat) (s s' : State F R)
    (h : mainLoop M cfg prob Dc NP g n s = some s')
    (hsync : s.fit = s.pop.map Individual.cur_f)
    (hL : ∃ i, i < NP ∧ prob.compare_fitness f0 (s.fit.getD i []) = false) :
    s'.fit = s'.pop.map Individual.cur_f ∧
      ∃ i, i < NP ∧ prob.compare_fitness f0 (s'.fit.getD i []) = false := by
  induction n generalizing s with
  | zero =>
    simp only [mainLoop, Option.some.injEq] at h
    rw [← h]
    exact ⟨hsync, hL⟩
  | succ n ih =>
    simp only [mainLoop] at h
    cases h1 : generation M cfg prob Dc NP g s with
    | none => rw [h1] at h; cases h
    | some s1 =>
      rw [h1] at h
      simp only [Option.some_bind] at h
      simp only [generation] at h1
      obtain ⟨a, b⟩ := rows_keep_not_worse M cfg prob Dc NP g hirr htrans hneg f0
        (List.range NP) (fun j hj => List.mem_range.mp hj) (List.range NP) _ s1 h1 hsync hL
      exact ih s1 h a b

/-- If some individual is not worse than `f0`, a best individual is not worse
than `f0` either. -/
theorem best_not_worse {F : Type} (cmp : List F → List F → Bool)
    (hneg : ∀ a b c, cmp a b = true → cmp a c = true ∨ cmp c b = true)
    (NP : Nat) (fit : List (List F)) (f0 : List F) (m : Nat)
    (hL : ∃ i, i < NP ∧ cmp f0 (fit.getD i []) = false)
    (hm : ∀ j, j < NP → cmp (fit.getD j []) (fit.getD m []) = false) :
    cmp f0 (fit.getD m []) = false := by
  obtain ⟨i, hi, hif⟩ := hL
  cases hc : cmp f0 (fit.getD m []) with
  | false => rfl
  | true =>
    rcases hneg _ _ (fit.getD i []) hc with h1 | h1
    · rw [hif] at h1
      cases h1
    · rw [hm i hi] at h1
      cases h1

/-- C18. Elitism. For an irreflexive comparator and snapshot fitnesses that
agree with the population, a pair step does not modify an individual that no
other individual is strictly better than. For a comparator that is moreover a
strict weak order, a best fitness present after a pair step, and a best
fitness present in the population evolve returns, is not strictly worse than
any fitness present before, in particular not than the best one. -/
theorem elitism_of_pair_step_and_run {F R : Type} [LinearOrderedField F] (M : Machine F R)
    (cfg : Config F) (prob : Problem F) (hirr : ∀ a, prob.compare_fitness a a = false) :
    (∀ (Dc NP : Nat) (g : Option F) (ii jj : Nat) (s : State F R),
      s.fit = s.pop.map Individual.cur_f → jj < NP →
      (∀ j, j < NP → j ≠ ii →
        prob.compare_fitness ((s.pop.map Individual.cur_f).getD j [])
          ((s.pop.map Individual.cur_f).getD ii []) = false) →
      pairStep M cfg prob Dc g ii s jj = some s) ∧
    ((∀ a b c, prob.compare_fitness a b = true → prob.compare_fitness b c = true →
        prob.compare_fitness a c = true) →
      (∀ a b c, prob.compare_fitness a b = true →
        prob.compare_fitness a c = true ∨ prob.compare_fitness c b = true) →
      (∀ (Dc NP : Nat) (g : Option F) (ii jj : Nat) (s s' : State F R),
        s.fit = s.pop.map Individual.cur_f → jj < NP →
        pairStep M cfg prob Dc g ii s jj = some s' →
        ∀ m m', m < NP →
          (∀ j, j < NP → prob.compare_fitness ((s'.pop.map Individual.cur_f).getD j [])
            ((s'.pop.map Individual.cur_f).getD m' []) = false) →
          prob.compare_fitness ((s.pop.map Individual.cur_f).getD m [])
            ((s'.pop.map Individual.cur_f).getD m' []) = false) ∧
      (∀ (pop : Population F) (rng : R) (pop' : Population F) (rng' : R),
        evolve M cfg prob pop rng = .returned pop' rng' →
        ∀ m m', m < pop.length →
          (∀ j, j < pop'.length → prob.compare_fitness ((pop'.map Individual.cur_f).getD j [])
            ((pop'.map Individual.cur_f).getD m' []) = false) →
          prob.compare_fitness ((pop.map Individual.cur_f).getD m [])
            ((pop'.map Individual.cur_f).getD m' []) = false)) := by
  refine ⟨?_, ?_⟩
  · intro Dc NP g ii jj s hsync hjj hbest
    apply pairStep_not_better
    rw [hsync]
    by_cases hne : jj = ii
    · rw [hne]
      exact hirr _
    · exact hbest jj hjj hne
  · intro htrans hneg
    refine ⟨?_, ?_⟩
    · intro Dc NP g ii jj s s' hsync hjj hstep m m' hm hbest
      have hsync' := pairStep_sync M cfg prob Dc g ii jj s s' hstep hsync
      have hL := pairStep_keeps_not_worse M cfg prob Dc NP g ii jj s s' hirr htrans hneg hstep
        hjj (s.fit.getD m []) ⟨m, hm, hirr _⟩
      rw [← hsync, ← hsync']
      rw [← hsync'] at hbest
      exact best_not_worse prob.compare_fitness hneg NP s'.fit _ m' hL hbest
    · intro pop rng pop' rng' hev m m' hm hbest
      unfold evolve at hev
      simp only [] at hev
      split_ifs at hev with h1 h2 h3 h4 h5
      · cases hev
        exact hbest m hm
      · cases hloop : mainLoop M cfg prob (prob.dimension - prob.i_dimension) pop.length
            (newgamma M cfg (prob.dimension - prob.i_dimension) pop.length
              (pop.map Individual.cur_x)) cfg.m_iter.toNat
            ⟨pop.map Individual.cur_x, pop.map Individual.cur_f, pop, rng, 0, []⟩ with
        | none => rw [hloop] at hev; cases hev
        | some s' =>
          rw [hloop] at hev
          cases hev
          obtain ⟨hsync', hL⟩ := mainLoop_keeps_not_worse M cfg prob
            (prob.dimension - prob.i_dimension) pop.length _ hirr htrans hneg
            ((pop.map Individual.cur_f).getD m []) _ _ s' hloop rfl ⟨m, hm, hirr _⟩
          have hlen := (mainLoop_frame_coord M cfg prob (prob.dimension - prob.i_dimension)
            pop.length _ _ _ s' hloop (pop.map Individual.cur_x)
            ⟨rfl, fun _ _ _ => rfl⟩ ⟨by simp, fun _ _ _ => rfl⟩).2.1
          have hlen' : s'.pop.length = pop.length := by simpa using hlen
          rw [← hsync'] at hbest ⊢
          rw [hlen'] at hbest
          exact best_not_worse prob.compare_fitness hneg pop.length s'.fit _ m' hL hbest

/-- Witness of C18: the minimizing comparator is irreflexive, so in the state
that snapshots the concrete scenario the pair steps for individual 1, which
nobody is better than, change nothing. -/
theorem elitism_of_pair_step_and_run_witness :
    pairStep (⟨Real.sqrt, Real.exp, fun n => (0, n + 1)⟩ : Machine ℝ Nat) scenarioCfg
        (scenarioProblem (fun x => [1 - x.getD 0 0])) 2 (some (1 / Real.sqrt 2)) 1
        ⟨[[0, 0], [1, 1]], [[1], [0]], scenarioPop, 0, 0, []⟩ 0 =
      some ⟨[[0, 0], [1, 1]], [[1], [0]], scenarioPop, 0, 0, []⟩ :=
  (elitism_of_pair_step_and_run (⟨Real.sqrt, Real.exp, fun n => (0, n + 1)⟩ : Machine ℝ Nat)
    scenarioCfg
    (scenarioProblem (fun x => [1 - x.getD 0 0]))
    (fun a => by simp [scenarioProblem, minimizing])).1 2 2 (some (1 / Real.sqrt 2)) 1 0
    ⟨[[0, 0], [1, 1]], [[1], [0]], scenarioPop, 0, 0, []⟩ rfl (by decide)
    (fun j hj hne => by
      have : j = 0 := by omega
      subst this
      simp [scenarioProblem, scenarioPop, minimizing])

/-! ### The value written by a move -/

/-- The state of the coordinate loop of a move after the coordinates
`0, ..., n - 1`: `n` draws were taken, the rows other than `ii` are as before,
and coordinate `k` of row `ii` is the clamped combination when `k < n`, and as
before otherwise. -/
theorem foldl_moveCoord_spec {F R : Type} [LinearOrderedField F] (M : Machine F R)
    (cfg : Config F) (prob : Problem F) (b : F) (ii jj : Nat) (X : List (List F)) (rng : R)
    (hii : ii < X.length) (n : Nat) :
    ((List.range n).foldl (moveCoord M cfg prob b ii jj) (X, rng)).2 = rngAfter M n rng ∧
    ((List.range n).foldl (moveCoord M cfg prob b ii jj) (X, rng)).1.length = X.length ∧
    (∀ i, i ≠ ii →
      ((List.range n).foldl (moveCoord M cfg prob b ii jj) (X, rng)).1.getD i [] =
        X.getD i []) ∧
    (((List.range n).foldl (moveCoord M cfg prob b ii jj) (X, rng)).1.getD ii []).length =
      (X.getD ii []).length ∧
    (∀ k, (((List.range n).foldl (moveCoord M cfg prob b ii jj) (X, rng)).1.getD ii []).getD k 0 =
      if k < n ∧ k < (X.getD ii []).length then
        clamp ((1 - b) * (X.getD ii []).getD k 0 + b * (X.getD jj []).getD k 0 +
          perturbation M cfg prob k rng) (prob.lb.getD k 0) (prob.ub.getD k 0)
      else (X.getD ii []).getD k 0) := by
  induction n with
  | zero =>
    refine ⟨rfl, rfl, fun _ _ => rfl, rfl, ?_⟩
    intro k
    simp
  | succ n ih =>
    obtain ⟨h1, h2, h3, h4, h5⟩ := ih
    rw [List.range_succ, List.foldl_append, List.foldl_cons, List.foldl_nil]
    generalize (List.range n).foldl (moveCoord M cfg prob b ii jj) (X, rng) = r at h1 h2 h3 h4 h5
    have hii' : ii < r.1.length := by rw [h2]; exact hii
    have hxi : (r.1.getD ii []).getD n 0 = (X.getD ii []).getD n 0 := by
      rw [h5 n]
      simp
    have hxj : (r.1.getD jj []).getD n 0 = (X.getD jj []).getD n 0 := by
      by_cases hj : jj = ii
      · rw [hj]
        exact hxi
      · rw [h3 jj hj]
    have hd : (uniform_real M (prob.lb.getD n 0 * cfg.m_alpha) (cfg.m_alpha * prob.ub.getD n 0)
        r.2).1 = perturbation M cfg prob n rng := by
      rw [h1]
      rfl
    refine ⟨?_, ?_, ?_, ?_, ?_⟩
    · simp only [moveCoord, uniform_real, h1, rngAfter, Function.iterate_succ_apply']
    · simp only [moveCoord, List.length_set]
      exact h2
    · intro i hi
      simp only [moveCoord, getD_set]
      rw [if_neg (fun h => hi h.1.symm)]
      exact h3 i hi
    · simp only [moveCoord, getD_set]
      rw [if_pos ⟨trivial, hii'⟩, List.length_set]
      exact h4
    · intro k
      simp only [moveCoord, getD_set]
      rw [if_pos ⟨trivial, hii'⟩, hxi, hxj, hd, getD_set, h4]
      by_cases hk : n = k
      · subst hk
        by_cases hlen : n < (X.getD ii []).length
        · rw [if_pos ⟨rfl, hlen⟩, if_pos ⟨Nat.lt_succ_self n, hlen⟩]
        · rw [if_neg (fun h => hlen h.2), if_neg (fun h => hlen h.2), h5 n,
            if_neg (fun h => hlen h.2)]
      · rw [if_neg (fun h => hk h.1), h5 k]
        by_cases hkn : k < n ∧ k < (X.getD ii []).length
        · rw [if_pos hkn, if_pos ⟨Nat.lt_succ_of_lt hkn.1, hkn.2⟩]
        · rw [if_neg hkn, if_neg]
          intro h
          apply hkn
          refine ⟨?_, h.2⟩
          have := h.1
          omega

/-- Nested loops over `is` and `js` visit the pairs in lexicographic order,
each step starting from the state the previous pair left. -/
theorem foldlM_pairs {σ : Type} (f : Nat → σ → Nat → Option σ) (js is : List Nat) (s : σ) :
    is.foldlM (fun s i => js.foldlM (f i) s) s =
      (is.flatMap (fun i => js.map (fun j => (i, j)))).foldlM (fun s p => f p.1 s p.2) s := by
  have hrow : ∀ (i : Nat) (l : List Nat) (s : σ),
      (l.map (fun j => (i, j))).foldlM (fun s p => f p.1 s p.2) s = l.foldlM (f i) s := by
    intro i l
    induction l with
    | nil => intro s; rfl
    | cons j l ih =>
      intro s
      simp only [List.map_cons, List.foldlM_cons]
      cases f i s j with
      | none => rfl
      | some s1 => exact ih s1
  induction is generalizing s with
  | nil => rfl
  | cons i is ih =>
    rw [List.flatMap_cons, List.foldlM_append, hrow, List.foldlM_cons]
    cases js.foldlM (f i) s with
    | none => rfl
    | some s1 => exact ih s1

theorem line_maxDist {F : Type} [LinearOrderedField F] :
    maxDistSqrd 1 3 ((linePop : Population F).map Individual.cur_x) = 1 := by
  norm_num [maxDistSqrd, distSqrd, linePop, List.range_succ, List.range']

theorem line_newgamma {R : Type} (next : R → ℝ × R) :
    newgamma (⟨Real.sqrt, Real.exp, next⟩ : Machine ℝ R) halfwayCfg 1 3
      ((linePop : Population ℝ).map Individual.cur_x) = some 0 := by
  simp [newgamma, line_maxDist, gdiv, halfwayCfg]

/-- Eager update, pairs (0,0), (0,1), (0,2): individual 0 goes from 1 to 3/4
and then to 3/8. -/
theorem line_row0 {R : Type} (next : R → ℝ × R) (rng : R) (bf : Nat) (bfit : List ℝ) :
    [0, 1, 2].foldlM (pairStep (⟨Real.sqrt, Real.exp, next⟩ : Machine ℝ R) halfwayCfg
        lineProblem 1 (some 0) 0)
        ⟨[[1], [1 / 2], [0]], [[1], [1 / 2], [0]], linePop, rng, bf, bfit⟩ =
      some ⟨[[3 / 8], [1 / 2], [0]], [[3 / 8], [1 / 2], [0]],
        [⟨[3 / 8], [3 / 8]⟩, ⟨[1 / 2], [1 / 2]⟩, ⟨[0], [0]⟩], (next (next rng).2).2,
        bf, bfit⟩ := by
  norm_num [pairStep, lineProblem, linePop, halfwayCfg, minimizing, List.range_succ, moveCoord,
    uniform_real, attractiveness, set_x, clamp, distSqrd]

/-- Eager update, pairs (1,0), (1,1), (1,2): individual 1 is pulled towards
the already moved individual 0, to 7/16, and then to 7/32. -/
theorem line_row1 {R : Type} (next : R → ℝ × R) (rng : R) (bf : Nat) (bfit : List ℝ) :
    [0, 1, 2].foldlM (pairStep (⟨Real.sqrt, Real.exp, next⟩ : Machine ℝ R) halfwayCfg
        lineProblem 1 (some 0) 1)
        ⟨[[3 / 8], [1 / 2], [0]], [[3 / 8], [1 / 2], [0]],
          [⟨[3 / 8], [3 / 8]⟩, ⟨[1 / 2], [1 / 2]⟩, ⟨[0], [0]⟩], rng, bf, bfit⟩ =
      some ⟨[[3 / 8], [7 / 32], [0]], [[3 / 8], [7 / 32], [0]],
        [⟨[3 / 8], [3 / 8]⟩, ⟨[7 / 32], [7 / 32]⟩, ⟨[0], [0]⟩], (next (next rng).2).2,
        bf, bfit⟩ := by
  norm_num [pairStep, lineProblem, halfwayCfg, minimizing, List.range_succ, moveCoord,
    uniform_real, attractiveness, set_x, clamp, distSqrd]

/-- Eager update, pairs (2,0), (2,1), (2,2): nobody is better than individual 2. -/
theorem line_row2 {R : Type} (next : R → ℝ × R) (rng : R) (bf : Nat) (bfit : List ℝ) :
    [0, 1, 2].foldlM (pairStep (⟨Real.sqrt, Real.exp, next⟩ : Machine ℝ R) halfwayCfg
        lineProblem 1 (some 0) 2)
        ⟨[[3 / 8], [7 / 32], [0]], [[3 / 8], [7 / 32], [0]],
          [⟨[3 / 8], [3 / 8]⟩, ⟨[7 / 32], [7 / 32]⟩, ⟨[0], [0]⟩], rng, bf, bfit⟩ =
      some ⟨[[3 / 8], [7 / 32], [0]], [[3 / 8], [7 / 32], [0]],
        [⟨[3 / 8], [3 / 8]⟩, ⟨[7 / 32], [7 / 32]⟩, ⟨[0], [0]⟩], rng, bf, bfit⟩ := by
  norm_num [pairStep, lineProblem, halfwayCfg, minimizing, List.range_succ, moveCoord,
    uniform_real, attractiveness, set_x, clamp, distSqrd]

/-- The eager generation on `linePop`. -/
theorem line_generation {R : Type} (next : R → ℝ × R) (rng : R) :
    ∃ s', generation (⟨Real.sqrt, Real.exp, next⟩ : Machine ℝ R) halfwayCfg lineProblem 1 3
        (some 0)
        ⟨(linePop : Population ℝ).map Individual.cur_x,
          (linePop : Population ℝ).map Individual.cur_f, linePop, rng, 0, []⟩ = some s' ∧
      s'.pop = [⟨[3 / 8], [3 / 8]⟩, ⟨[7 / 32], [7 / 32]⟩, ⟨[0], [0]⟩] ∧
      s'.rng = rngAfter (⟨Real.sqrt, Real.exp, next⟩ : Machine ℝ R) 4 rng := by
  have hX : (linePop : Population ℝ).map Individual.cur_x = [[1], [1 / 2], [0]] := rfl
  have hf : (linePop : Population ℝ).map Individual.cur_f = [[1], [1 / 2], [0]] := rfl
  simp only [generation, hX, hf]
  rw [show List.range 3 = [0, 1, 2] from rfl, List.foldlM_cons, line_row0]
  simp only [Option.some_bind, Option.bind_eq_bind]
  rw [List.foldlM_cons, line_row1]
  simp only [Option.some_bind, Option.bind_eq_bind]
  rw [List.foldlM_cons, line_row2]
  exact ⟨_, rfl, rfl, rfl⟩

/-- When `jj` is not better than `ii` at the start of the generation the
batched pair step changes nothing. -/
theorem batchedPairStep_not_better {F R : Type} [LinearOrderedField F] (M : Machine F R)
    (cfg : Config F) (prob : Problem F) (accumulate : Bool) (Dc : Nat) (g : Option F)
    (s0 : State F R) (ii jj : Nat) (w : State F R)
    (h : prob.compare_fitness (s0.fit.getD jj []) (s0.fit.getD ii []) = false) :
    batchedPairStep M cfg prob accumulate Dc g s0 ii w jj = some w := by
  unfold batchedPairStep
  rw [if_neg (by rw [h]; exact Bool.false_ne_true)]

/-- On the snapshot of `linePop` nobody is better than individual 2. -/
theorem line_batched_row2 {R : Type} (next : R → ℝ × R) (accumulate : Bool) (rng : R)
    (w : State ℝ R) :
    [0, 1, 2].foldlM (batchedPairStep (⟨Real.sqrt, Real.exp, next⟩ : Machine ℝ R) halfwayCfg
      lineProblem accumulate 1 (some 0)
      ⟨[[1], [1 / 2], [0]], [[1], [1 / 2], [0]], linePop, rng, 0, []⟩ 2) w = some w := by
  have h0 : (lineProblem : Problem ℝ).compare_fitness
      (([[1], [1 / 2], [0]] : List (List ℝ)).getD 0 [])
      (([[1], [1 / 2], [0]] : List (List ℝ)).getD 2 []) = false := by
    norm_num [lineProblem, minimizing]
  have h1 : (lineProblem : Problem ℝ).compare_fitness
      (([[1], [1 / 2], [0]] : List (List ℝ)).getD 1 [])
      (([[1], [1 / 2], [0]] : List (List ℝ)).getD 2 []) = false := by
    norm_num [lineProblem, minimizing]
  have h2 : (lineProblem : Problem ℝ).compare_fitness
      (([[1], [1 / 2], [0]] : List (List ℝ)).getD 2 [])
      (([[1], [1 / 2], [0]] : List (List ℝ)).getD 2 []) = false := by
    norm_num [lineProblem, minimizing]
  rw [List.foldlM_cons, batchedPairStep_not_better _ _ _ _ _ _ _ _ _ _ h0]
  simp only [Option.some_bind, Option.bind_eq_bind]
  rw [List.foldlM_cons, batchedPairStep_not_better _ _ _ _ _ _ _ _ _ _ h1]
  simp only [Option.some_bind, Option.bind_eq_bind]
  rw [List.foldlM_cons, batchedPairStep_not_better _ _ _ _ _ _ _ _ _ _ h2]
  rfl

/-- The batched generation on `linePop`, every read from the snapshot:
individual 0 ends at 1/2, individual 1 at 1/4. -/
theorem line_batched_snapshot {R : Type} (next : R → ℝ × R) (rng : R) :
    ∃ s', batchedGeneration (⟨Real.sqrt, Real.exp, next⟩ : Machine ℝ R) halfwayCfg
        lineProblem false 1 3 (some 0)
        ⟨(linePop : Population ℝ).map Individual.cur_x,
          (linePop : Population ℝ).map Individual.cur_f, linePop, rng, 0, []⟩ = some s' ∧
      s'.pop = [⟨[1 / 2], [1 / 2]⟩, ⟨[1 / 4], [1 / 4]⟩, ⟨[0], [0]⟩] := by
  have hX : (linePop : Population ℝ).map Individual.cur_x = [[1], [1 / 2], [0]] := rfl
  have hf : (linePop : Population ℝ).map Individual.cur_f = [[1], [1 / 2], [0]] := rfl
  have h0 : ∀ (r : R) (bf : Nat) (bfit : List ℝ),
      [0, 1, 2].foldlM (batchedPairStep (⟨Real.sqrt, Real.exp, next⟩ : Machine ℝ R) halfwayCfg
        lineProblem false 1 (some 0)
        ⟨[[1], [1 / 2], [0]], [[1], [1 / 2], [0]], linePop, rng, 0, []⟩ 0)
        ⟨[[1], [1 / 2], [0]], [[1], [1 / 2], [0]], linePop, r, bf, bfit⟩ =
      some ⟨[[1 / 2], [1 / 2], [0]], [[1 / 2], [1 / 2], [0]],
        [⟨[1 / 2], [1 / 2]⟩, ⟨[1 / 2], [1 / 2]⟩, ⟨[0], [0]⟩], (next (next r).2).2,
        bf, bfit⟩ := by
    intro r bf bfit
    norm_num [batchedPairStep, lineProblem, linePop, halfwayCfg, minimizing, List.range_succ,
      batchedMoveCoord, uniform_real, attractiveness, set_x, clamp, distSqrd]
  have h1 : ∀ (r : R) (bf : Nat) (bfit : List ℝ),
      [0, 1, 2].foldlM (batchedPairStep (⟨Real.sqrt, Real.exp, next⟩ : Machine ℝ R) halfwayCfg
        lineProblem false 1 (some 0)
        ⟨[[1], [1 / 2], [0]], [[1], [1 / 2], [0]], linePop, rng, 0, []⟩ 1)
        ⟨[[1 / 2], [1 / 2], [0]], [[1 / 2], [1 / 2], [0]],
          [⟨[1 / 2], [1 / 2]⟩, ⟨[1 / 2], [1 / 2]⟩, ⟨[0], [0]⟩], r, bf, bfit⟩ =
      some ⟨[[1 / 2], [1 / 4], [0]], [[1 / 2], [1 / 4], [0]],
        [⟨[1 / 2], [1 / 2]⟩, ⟨[1 / 4], [1 / 4]⟩, ⟨[0], [0]⟩], (next r).2, bf, bfit⟩ := by
    intro r bf bfit
    norm_num [batchedPairStep, lineProblem, halfwayCfg, minimizing, List.range_succ,
      batchedMoveCoord, uniform_real, attractiveness, set_x, clamp, distSqrd]
  have h2 := line_batched_row2 next false rng
  simp only [batchedGeneration, hX, hf]
  rw [show List.range 3 = [0, 1, 2] from rfl, List.foldlM_cons, h0]
  simp only [Option.some_bind, Option.bind_eq_bind]
  rw [List.foldlM_cons, h1]
  simp only [Option.some_bind, Option.bind_eq_bind]
  rw [List.foldlM_cons, h2]
  exact ⟨_, rfl, rfl⟩

/-- The batched generation on `linePop` in which the moves of one individual
add up: individual 0 ends at 3/8, individual 1 at 1/4. -/
theorem line_batched_accumulate {R : Type} (next : R → ℝ × R) (rng : R) :
    ∃ s', batchedGeneration (⟨Real.sqrt, Real.exp, next⟩ : Machine ℝ R) halfwayCfg
        lineProblem true 1 3 (some 0)
        ⟨(linePop : Population ℝ).map Individual.cur_x,
          (linePop : Population ℝ).map Individual.cur_f, linePop, rng, 0, []⟩ = some s' ∧
      s'.pop = [⟨[3 / 8], [3 / 8]⟩, ⟨[1 / 4], [1 / 4]⟩, ⟨[0], [0]⟩] := by
  have hX : (linePop : Population ℝ).map Individual.cur_x = [[1], [1 / 2], [0]] := rfl
  have hf : (linePop : Population ℝ).map Individual.cur_f = [[1], [1 / 2], [0]] := rfl
  have h0 : ∀ (r : R) (bf : Nat) (bfit : List ℝ),
      [0, 1, 2].foldlM (batchedPairStep (⟨Real.sqrt, Real.exp, next⟩ : Machine ℝ R) halfwayCfg
        lineProblem true 1 (some 0)
        ⟨[[1], [1 / 2], [0]], [[1], [1 / 2], [0]], linePop, rng, 0, []⟩ 0)
        ⟨[[1], [1 / 2], [0]], [[1], [1 / 2], [0]], linePop, r, bf, bfit⟩ =
      some ⟨[[3 / 8], [1 / 2], [0]], [[3 / 8], [1 / 2], [0]],
        [⟨[3 / 8], [3 / 8]⟩, ⟨[1 / 2], [1 / 2]⟩, ⟨[0], [0]⟩], (next (next r).2).2,
        bf, bfit⟩ := by
    intro r bf bfit
    norm_num [batchedPairStep, lineProblem, linePop, halfwayCfg, minimizing, List.range_succ,
      batchedMoveCoord, uniform_real, attractiveness, set_x, clamp, distSqrd]
  have h1 : ∀ (r : R) (bf : Nat) (bfit : List ℝ),
      [0, 1, 2].foldlM (batchedPairStep (⟨Real.sqrt, Real.exp, next⟩ : Machine ℝ R) halfwayCfg
        lineProblem true 1 (some 0)
        ⟨[[1], [1 / 2], [0]], [[1], [1 / 2], [0]], linePop, rng, 0, []⟩ 1)
        ⟨[[3 / 8], [1 / 2], [0]], [[3 / 8], [1 / 2], [0]],
          [⟨[3 / 8], [3 / 8]⟩, ⟨[1 / 2], [1 / 2]⟩, ⟨[0], [0]⟩], r, bf, bfit⟩ =
      some ⟨[[3 / 8], [1 / 4], [0]], [[3 / 8], [1 / 4], [0]],
        [⟨[3 / 8], [3 / 8]⟩, ⟨[1 / 4], [1 / 4]⟩, ⟨[0], [0]⟩], (next r).2, bf, bfit⟩ := by
    intro r bf bfit
    norm_num [batchedPairStep, lineProblem, halfwayCfg, minimizing, List.range_succ,
      batchedMoveCoord, uniform_real, attractiveness, set_x, clamp, distSqrd]
  have h2 := line_batched_row2 next true rng
  simp only [batchedGeneration, hX, hf]
  rw [show List.range 3 = [0, 1, 2] from rfl, List.foldlM_cons, h0]
  simp only [Option.some_bind, Option.bind_eq_bind]
  rw [List.foldlM_cons, h1]
  simp only [Option.some_bind, Option.bind_eq_bind]
  rw [List.foldlM_cons, h2]
  exact ⟨_, rfl, rfl⟩

/-- C14. Within one generation the pairs are processed in the order
(0,0), (0,1), ..., (NP-1, NP-1), each pair step applied to the positions and
fitnesses left by the pairs before it. On three individuals at 1, 1/2 and 0
(alpha = 0, beta = 1/2, gamma = 0, one generation, objective the coordinate
itself) evolve returns the positions 3/8, 7/32, 0, while a batched update
that reads the start-of-generation positions and fitnesses gives 1/2, 1/4, 0,
or 3/8, 1/4, 0 when the moves of one individual add up: the final populations
differ. -/
theorem eager_differs_from_batched {R : Type} (next : R → ℝ × R) (rng : R) :
    (∀ (cfg : Config ℝ) (prob : Problem ℝ) (Dc NP : Nat) (g : Option ℝ) (s : State ℝ R),
      generation (⟨Real.sqrt, Real.exp, next⟩ : Machine ℝ R) cfg prob Dc NP g s =
        ((List.range NP).flatMap (fun ii => (List.range NP).map (fun jj => (ii, jj)))).foldlM
          (fun s p => pairStep (⟨Real.sqrt, Real.exp, next⟩ : Machine ℝ R) cfg prob Dc g p.1 s p.2)
          { s with best_firefly := (findBest prob NP s.fit).1,
                   best_fitness := (findBest prob NP s.fit).2 }) ∧
    evolve (⟨Real.sqrt, Real.exp, next⟩ : Machine ℝ R) halfwayCfg lineProblem linePop rng =
      .returned [⟨[3 / 8], [3 / 8]⟩, ⟨[7 / 32], [7 / 32]⟩, ⟨[0], [0]⟩]
        (rngAfter (⟨Real.sqrt, Real.exp, next⟩ : Machine ℝ R) 4 rng) ∧
    ∀ accumulate : Bool, ∃ sB,
      batchedGeneration (⟨Real.sqrt, Real.exp, next⟩ : Machine ℝ R) halfwayCfg lineProblem
        accumulate 1 3
        (newgamma (⟨Real.sqrt, Real.exp, next⟩ : Machine ℝ R) halfwayCfg 1 3
          ((linePop : Population ℝ).map Individual.cur_x))
        ⟨(linePop : Population ℝ).map Individual.cur_x,
          (linePop : Population ℝ).map Individual.cur_f, linePop, rng, 0, []⟩ = some sB ∧
      sB.pop = (if accumulate then [⟨[3 / 8], [3 / 8]⟩, ⟨[1 / 4], [1 / 4]⟩, ⟨[0], [0]⟩]
        else [⟨[1 / 2], [1 / 2]⟩, ⟨[1 / 4], [1 / 4]⟩, ⟨[0], [0]⟩]) ∧
      sB.pop ≠ [⟨[3 / 8], [3 / 8]⟩, ⟨[7 / 32], [7 / 32]⟩, ⟨[0], [0]⟩] := by
  refine ⟨?_, ?_, ?_⟩
  · intro cfg prob Dc NP g s
    simp only [generation]
    exact foldlM_pairs _ _ _ _
  · have hit : (halfwayCfg : Config ℝ).m_iter ≠ 0 := by simp [halfwayCfg]
    rw [evolve_of_applicable _ _ _ _ _ (by decide) rfl rfl (by decide) hit]
    have h1 : (lineProblem : Problem ℝ).dimension - (lineProblem : Problem ℝ).i_dimension = 1 :=
      rfl
    have h2 : (linePop : Population ℝ).length = 3 := rfl
    have h3 : (halfwayCfg : Config ℝ).m_iter.toNat = 1 := rfl
    rw [h1, h2, h3, line_newgamma]
    obtain ⟨s', hs, hp, hr⟩ := line_generation next rng
    simp only [mainLoop, hs, Option.some_bind]
    rw [hp, hr]
  · intro accumulate
    rw [line_newgamma]
    cases accumulate with
    | false =>
      obtain ⟨sB, hs, hp⟩ := line_batched_snapshot next rng
      refine ⟨sB, hs, by rw [hp]; rfl, ?_⟩
      rw [hp]
      intro h
      have h7 := congrArg (fun l : Population ℝ => (l.getD 1 ⟨[], []⟩).cur_x.getD 0 0) h
      norm_num at h7
    | true =>
      obtain ⟨sB, hs, hp⟩ := line_batched_accumulate next rng
      refine ⟨sB, hs, by rw [hp]; rfl, ?_⟩
      rw [hp]
      intro h
      have h7 := congrArg (fun l : Population ℝ => (l.getD 1 ⟨[], []⟩).cur_x.getD 0 0) h
      norm_num at h7

/-! ### Moves without perturbation stay inside the bounds -/

/-- With `moveCoord` as coordinate step the comparison run is `evolve`. -/
theorem evolveWith_moveCoord {F R : Type} [LinearOrderedField F] (M : Machine F R)
    (cfg : Config F) (prob : Problem F) (pop : Population F) (rng : R) :
    evolveWith (moveCoord M cfg prob) M cfg prob pop rng = evolve M cfg prob pop rng := by
  have hp : ∀ Dc g ii, pairStepWith (moveCoord M cfg prob) M cfg prob Dc g ii =
      pairStep M cfg prob Dc g ii := fun _ _ _ => rfl
  have hg : ∀ Dc NP g, generationWith (moveCoord M cfg prob) M cfg prob Dc NP g =
      generation M cfg prob Dc NP g := by
    intro Dc NP g
    funext s
    simp only [generationWith, generation, hp]
  have hm : ∀ Dc NP g n s, mainLoopWith (moveCoord M cfg prob) M cfg prob Dc NP g n s =
      mainLoop M cfg prob Dc NP g n s := by
    intro Dc NP g n
    induction n with
    | zero => intro s; rfl
    | succ n ih =>
      intro s
      simp only [mainLoopWith, mainLoop, hg]
      cases generation M cfg prob Dc NP g s with
      | none => rfl
      | some s1 => exact ih s1
  simp only [evolveWith, evolve, hm]

/-- With alpha = 0, `b` between 0 and 1 and the rows of `X` inside the bounds,
the coordinate step writes the convex combination: the perturbation is 0 and
the bound check changes nothing. -/
theorem moveCoord_eq_convex {F R : Type} [LinearOrderedField F] (M : Machine F R)
    (cfg : Config F) (prob : Problem F) (b : F) (ii jj : Nat) (s : List (List F) × R)
    (k : Nat) (halpha : cfg.m_alpha = 0) (hb0 : 0 ≤ b) (hb1 : b ≤ 1)
    (hk : k < prob.dimension) (hjj : jj < s.1.length)
    (hs : ∀ x ∈ s.1, rowInBounds prob x) :
    moveCoord M cfg prob b ii jj s k = moveCoordConvex M cfg prob b ii jj s k := by
  by_cases hii : ii < s.1.length
  · have hi := hs _ (getD_mem_of_lt s.1 ii [] hii) k hk
    have hj := hs _ (getD_mem_of_lt s.1 jj [] hjj) k hk
    have hv1 : prob.lb.getD k 0 ≤
        (1 - b) * (s.1.getD ii []).getD k 0 + b * (s.1.getD jj []).getD k 0 := by
      nlinarith [mul_le_mul_of_nonneg_left hi.1 (sub_nonneg.mpr hb1),
        mul_le_mul_of_nonneg_left hj.1 hb0]
    have hv2 : (1 - b) * (s.1.getD ii []).getD k 0 + b * (s.1.getD jj []).getD k 0 ≤
        prob.ub.getD k 0 := by
      nlinarith [mul_le_mul_of_nonneg_left hi.2 (sub_nonneg.mpr hb1),
        mul_le_mul_of_nonneg_left hj.2 hb0]
    simp only [moveCoord, moveCoordConvex, uniform_real, halpha, mul_zero, zero_mul, sub_self,
      add_zero]
    rw [clamp_of_mem hv1 hv2]
  · simp only [moveCoord, moveCoordConvex]
    rw [List.set_eq_of_length_le (not_lt.mp hii), List.set_eq_of_length_le (not_lt.mp hii)]

/-- The coordinate loop of a move under the same conditions. -/
theorem foldl_moveCoord_eq_convex {F R : Type} [LinearOrderedField F] (M : Machine F R)
    (cfg : Config F) (prob : Problem F) (b : F) (ii jj : Nat) (halpha : cfg.m_alpha = 0)
    (hb0 : 0 ≤ b) (hb1 : b ≤ 1)
    (hlb : ∀ k, k < prob.dimension → prob.lb.getD k 0 ≤ prob.ub.getD k 0)
    (ks : List Nat) (hks : ∀ k ∈ ks, k < prob.dimension) (s : List (List F) × R)
    (hjj : jj < s.1.length) (hs : ∀ x ∈ s.1, rowInBounds prob x) :
    ks.foldl (moveCoord M cfg prob b ii jj) s = ks.foldl (moveCoordConvex M cfg prob b ii jj) s := by
  induction ks generalizing s with
  | nil => rfl
  | cons k ks ih =>
    have hk := hks k (List.mem_cons_self _ _)
    have hstep := moveCoord_eq_convex M cfg prob b ii jj s k halpha hb0 hb1 hk hjj hs
    have hrows := moveCoord_rows M cfg prob b ii jj hlb s k hk hs
    rw [List.foldl_cons, List.foldl_cons, ← hstep]
    exact ih (fun k' hk' => hks k' (List.mem_cons_of_mem _ hk')) _ (by rw [hrows.2]; exact hjj)
      hrows.1

/-- A pair step keeps the number of rows of `X` and the population size. -/
theorem pairStep_length {F R : Type} [LinearOrderedField F] (M : Machine F R) (cfg : Config F)
    (prob : Problem F) (Dc : Nat) (g : Option F) (ii jj : Nat) (s s' : State F R)
    (h : pairStep M cfg prob Dc g ii s jj = some s') :
    s'.X.length = s.X.length ∧ s'.pop.length = s.pop.length := by
  unfold pairStep at h
  split_ifs at h with hcmp
  · cases g with
    | none => cases h
    | some g =>
      simp only [Option.some.injEq] at h
      rw [← h]
      exact ⟨(foldl_moveCoord_frame_coord M cfg prob _ ii jj Dc (List.range Dc)
        (fun k hk => List.mem_range.mp hk) (s.X, s.rng)).1, by simp [set_x]⟩
  · simp only [Option.some.injEq] at h
    rw [← h]
    exact ⟨rfl, rfl⟩

/-- The pair step under the conditions of `moveCoord_eq_convex`. -/
theorem pairStep_eq_convex {F R : Type} [LinearOrderedField F] (M : Machine F R)
    (cfg : Config F) (prob : Problem F) (Dc : Nat) (hDc : Dc ≤ prob.dimension) (g : Option F)
    (ii jj : Nat) (s : State F R) (halpha : cfg.m_alpha = 0)
    (hb : ∀ g', g = some g' → ∀ a c : List F,
      0 ≤ attractiveness M cfg.m_beta g' (distSqrd Dc a c) ∧
        attractiveness M cfg.m_beta g' (distSqrd Dc a c) ≤ 1)
    (hlb : ∀ k, k < prob.dimension → prob.lb.getD k 0 ≤ prob.ub.getD k 0)
    (hjj : jj < s.X.length) (hs : ∀ x ∈ s.X, rowInBounds prob x) :
    pairStep M cfg prob Dc g ii s jj =
      pairStepWith (moveCoordConvex M cfg prob) M cfg prob Dc g ii s jj := by
  unfold pairStep pairStepWith
  split_ifs with hcmp
  · cases g with
    | none => rfl
    | some g =>
      have hb' := hb g rfl (s.X.getD ii []) (s.X.getD jj [])
      have hfold := foldl_moveCoord_eq_convex M cfg prob
        (attractiveness M cfg.m_beta g (distSqrd Dc (s.X.getD ii []) (s.X.getD jj []))) ii jj
        halpha hb'.1 hb'.2 hlb (List.range Dc)
        (fun k hk => lt_of_lt_of_le (List.mem_range.mp hk) hDc) (s.X, s.rng) hjj hs
      simp only [hfold]
  · rfl

/-- The inner loop for one `ii` under the conditions of `moveCoord_eq_convex`:
it is the loop with the convex step, and it keeps the conditions. -/
theorem row_eq_convex {F R : Type} [LinearOrderedField F] (M : Machine F R)
    (cfg : Config F) (prob : Problem F) (Dc NP : Nat) (hDc : Dc ≤ prob.dimension)
    (g : Option F) (ii : Nat) (halpha : cfg.m_alpha = 0)
    (hb : ∀ g', g = some g' → ∀ a c : List F,
      0 ≤ attractiveness M cfg.m_beta g' (distSqrd Dc a c) ∧
        attractiveness M cfg.m_beta g' (distSqrd Dc a c) ≤ 1)
    (hlb : ∀ k, k < prob.dimension → prob.lb.getD k 0 ≤ prob.ub.getD k 0)
    (js : List Nat) (hjs : ∀ j ∈ js, j < NP) (s : State F R)
    (hX : ∀ x ∈ s.X, rowInBounds prob x) (hpop : inBounds prob s.pop)
    (hlen : s.X.length = s.pop.length) (hNP : s.pop.length = NP) :
    js.foldlM (pairStep M cfg prob Dc g ii) s =
        js.foldlM (pairStepWith (moveCoordConvex M cfg prob) M cfg prob Dc g ii) s ∧
      ∀ s', js.foldlM (pairStep M cfg prob Dc g ii) s = some s' →
        (∀ x ∈ s'.X, rowInBounds prob x) ∧ inBounds prob s'.pop ∧
          s'.X.length = s'.pop.length ∧ s'.pop.length = NP := by
  induction js generalizing s with
  | nil =>
    refine ⟨rfl, ?_⟩
    intro s' h
    simp only [List.foldlM_nil, Option.pure_def, Option.some.injEq] at h
    rw [← h]
    exact ⟨hX, hpop, hlen, hNP⟩
  | cons j js ih =>
    have hj : j < s.X.length := by
      rw [hlen, hNP]
      exact hjs j (List.mem_cons_self _ _)
    have hstep := pairStep_eq_convex M cfg prob Dc hDc g ii j s halpha hb hlb hj hX
    rw [List.foldlM_cons, List.foldlM_cons, ← hstep]
    cases h1 : pairStep M cfg prob Dc g ii s j with
    | none =>
      refine ⟨rfl, ?_⟩
      intro s' h
      cases h
    | some s1 =>
      obtain ⟨a, b, c⟩ := pairStep_inv M cfg prob Dc hDc g ii j hlb s s1 h1 hX hpop hlen
      have d := (pairStep_length M cfg prob Dc g ii j s s1 h1).2.trans hNP
      exact ih (fun j' hj' => hjs j' (List.mem_cons_of_mem _ hj')) s1 a b c d

/-- The pair loops of one generation under the same conditions. -/
theorem rows_eq_convex {F R : Type} [LinearOrderedField F] (M : Machine F R)
    (cfg : Config F) (prob : Problem F) (Dc NP : Nat) (hDc : Dc ≤ prob.dimension)
    (g : Option F) (halpha : cfg.m_alpha = 0)
    (hb : ∀ g', g = some g' → ∀ a c : List F,
      0 ≤ attractiveness M cfg.m_beta g' (distSqrd Dc a c) ∧
        attractiveness M cfg.m_beta g' (distSqrd Dc a c) ≤ 1)
    (hlb : ∀ k, k < prob.dimension → prob.lb.getD k 0 ≤ prob.ub.getD k 0)
    (js : List Nat) (hjs : ∀ j ∈ js, j < NP) (is : List Nat) (s : State F R)
    (hX : ∀ x ∈ s.X, rowInBounds prob x) (hpop : inBounds prob s.pop)
    (hlen : s.X.length = s.pop.length) (hNP : s.pop.length = NP) :
    is.foldlM (fun s ii => js.foldlM (pairStep M cfg prob Dc g ii) s) s =
        is.foldlM (fun s ii =>
          js.foldlM (pairStepWith (moveCoordConvex M cfg prob) M cfg prob Dc g ii) s) s ∧
      ∀ s', is.foldlM (fun s ii => js.foldlM (pairStep M cfg prob Dc g ii) s) s = some s' →
        (∀ x ∈ s'.X, rowInBounds prob x) ∧ inBounds prob s'.pop ∧
          s'.X.length = s'.pop.length ∧ s'.pop.length = NP := by
  induction is generalizing s with
  | nil =>
    refine ⟨rfl, ?_⟩
    intro s' h
    simp only [List.foldlM_nil, Option.pure_def, Option.some.injEq] at h
    rw [← h]
    exact ⟨hX, hpop, hlen, hNP⟩
  | cons i is ih =>
    obtain ⟨e1, inv1⟩ := row_eq_convex M cfg prob Dc NP hDc g i halpha hb hlb js hjs s hX hpop
      hlen hNP
    rw [List.foldlM_cons, List.foldlM_cons, ← e1]
    cases h1 : js.foldlM (pairStep M cfg prob Dc g i) s with
    | none =>
      refine ⟨rfl, ?_⟩
      intro s' h
      cases h
    | some s1 =>
      obtain ⟨a, b, c, d⟩ := inv1 s1 h1
      exact ih s1 a b c d

/-- The main loop under the same conditions. -/
theorem mainLoop_eq_convex {F R : Type} [LinearOrderedField F] (M : Machine F R)
    (cfg : Config F) (prob : Problem F) (Dc NP : Nat) (hDc : Dc ≤ prob.dimension)
    (g : Option F) (halpha : cfg.m_alpha = 0)
    (hb : ∀ g', g = some g' → ∀ a c : List F,
      0 ≤ attractiveness M cfg.m_beta g' (distSqrd Dc a c) ∧
        attractiveness M cfg.m_beta g' (distSqrd Dc a c) ≤ 1)
    (hlb : ∀ k, k < prob.dimension → prob.lb.getD k 0 ≤ prob.ub.getD k 0)
    (n : Nat) (s : State F R)
    (hX : ∀ x ∈ s.X, rowInBounds prob x) (hpop : inBounds prob s.pop)
    (hlen : s.X.length = s.pop.length) (hNP : s.pop.length = NP) :
    mainLoop M cfg prob Dc NP g n s =
        mainLoopWith (moveCoordConvex M cfg prob) M cfg prob Dc NP g n s ∧
      ∀ s', mainLoop M cfg prob Dc NP g n s = some s' → inBounds prob s'.pop := by
  induction n generalizing s with
  | zero =>
    refine ⟨rfl, ?_⟩
    intro s' h
    simp only [mainLoop, Option.some.injEq] at h
    rw [← h]
    exact hpop
  | succ n ih =>
    obtain ⟨e1, inv1⟩ := rows_eq_convex M cfg prob Dc NP hDc g halpha hb hlb (List.range NP)
      (fun j hj => List.mem_range.mp hj) (List.range NP)
      { s with best_firefly := (findBest prob NP s.fit).1,
               best_fitness := (findBest prob NP s.fit).2 } hX hpop hlen hNP
    have hgen : generation M cfg prob Dc NP g s =
        generationWith (moveCoordConvex M cfg prob) M cfg prob Dc NP g s := by
      simp only [generation, generationWith]
      exact e1
    simp only [mainLoop, mainLoopWith, ← hgen]
    cases h1 : generation M cfg prob Dc NP g s with
    | none =>
      refine ⟨rfl, ?_⟩
      intro s' h
      cases h
    | some s1 =>
      simp only [generation] at h1
      obtain ⟨a, b, c, d⟩ := inv1 s1 h1
      exact ih s1 a b c d

/-- The main loop does not read the dimension of the problem. -/
theorem mainLoop_dimension {F R : Type} [LinearOrderedField F] (M : Machine F R)
    (cfg : Config F) (prob : Problem F) (d Dc NP : Nat) (g : Option F) (n : Nat)
    (s : State F R) :
    mainLoop M cfg { prob with dimension := d } Dc NP g n s = mainLoop M cfg prob Dc NP g n s := by
  have hgen : ∀ s, generation M cfg { prob with dimension := d } Dc NP g s =
      generation M cfg prob Dc NP g s := fun _ => rfl
  induction n generalizing s with
  | zero => rfl
  | succ n ih =>
    simp only [mainLoop, hgen]
    cases generation M cfg prob Dc NP g s with
    | none => rfl
    | some s1 => exact ih s1

/-- The main loop with the convex step does not read the dimension either. -/
theorem mainLoopWith_dimension {F R : Type} [LinearOrderedField F] (M : Machine F R)
    (cfg : Config F) (prob : Problem F) (d Dc NP : Nat) (g : Option F) (n : Nat)
    (s : State F R) :
    mainLoopWith (moveCoordConvex M cfg { prob with dimension := d }) M cfg
        { prob with dimension := d } Dc NP g n s =
      mainLoopWith (moveCoordConvex M cfg prob) M cfg prob Dc NP g n s := by
  have hgen : ∀ s, generationWith (moveCoordConvex M cfg { prob with dimension := d }) M cfg
        { prob with dimension := d } Dc NP g s =
      generationWith (moveCoordConvex M cfg prob) M cfg prob Dc NP g s := fun _ => rfl
  induction n generalizing s with
  | zero => rfl
  | succ n ih =>
    simp only [mainLoopWith, hgen]
    cases generationWith (moveCoordConvex M cfg prob) M cfg prob Dc NP g s with
    | none => rfl
    | some s1 => exact ih s1

end Firefly
